import Mathlib

/-!
# colord `cd-dom.c`: a shallow embedding

The DOM of `lib/colord/cd-dom.c` is a `GNode` tree whose nodes carry a
`CdDomNodeData` (name, character data, attribute table).  Pointers are
modelled as indices into a heap of nodes, the `NULL` pointer as `none`, a C
string as the list of its characters before the terminating NUL, and a
dereference of `NULL` (or of a pointer that designates no node) inside a
tokenizer callback as the result `none` of that callback.
-/

namespace Colord

/-- A NUL-terminated `gchar *`, as the characters before the NUL. -/
abbrev GStr := List Char

/-- A `GHashTable` with string keys and values, as an association list. -/
abbrev GHashTable := List (GStr × GStr)

/-- GLib `g_hash_table_insert`: an existing key has its value replaced, a new
key is added. -/
def g_hash_table_insert : GHashTable → GStr → GStr → GHashTable
  | [], key, value => [(key, value)]
  | (k, v) :: rest, key, value =>
    if k = key then (k, value) :: rest
    else (k, v) :: g_hash_table_insert rest key value

/-- GLib `g_hash_table_lookup`: the value stored under the key, `NULL` when
there is none. -/
def g_hash_table_lookup : GHashTable → GStr → Option GStr
  | [], _ => none
  | (k, v) :: rest, key =>
    if k = key then some v else g_hash_table_lookup rest key

/-- The payload of a node (`CdDomNodeData`). -/
structure CdDomNodeData where
  name : GStr
  cdata : GStr
  attributes : GHashTable
deriving DecidableEq

/-- A GLib `GNode`: `data`, the `parent` pointer, and the sibling chain
`children`, `children->next`, ... as the list of the child pointers. -/
structure GNode where
  data : Option CdDomNodeData
  parent : Option Nat
  children : List Nat
deriving DecidableEq

/-- The document state (`CdDomPrivate`) together with the heap its pointers
index. -/
structure CdDomPrivate where
  heap : List GNode
  root : Nat
  current : Option Nat
deriving DecidableEq

/-- GLib `g_node_new`: allocates an unlinked node. -/
def g_node_new (heap : List GNode) (data : Option CdDomNodeData) : List GNode × Nat :=
  (heap ++ [{ data := data, parent := none, children := [] }], heap.length)

/-- GLib `g_node_append (parent, node)`: links `node` as the last child of
`parent`.  With `parent == NULL` the precondition check
`g_return_val_if_fail (parent != NULL, node)` returns without linking. -/
def g_node_append (heap : List GNode) (parent : Option Nat) (node : Nat) : Option (List GNode) :=
  match parent with
  | none => some heap
  | some p =>
    match heap[p]?, heap[node]? with
    | some pn, some nn =>
      some ((heap.set node { nn with parent := some p }).set p
        { pn with children := pn.children ++ [node] })
    | _, _ => none

/-- The instance initialiser `cd_dom_init`: a root node without data, which is also the
cursor. -/
def cd_dom_init : CdDomPrivate :=
  let r := g_node_new [] none
  { heap := r.1, root := r.2, current := some r.2 }

/-- The attribute loop of `cd_dom_start_element_cb`: inserts
`attribute_names[i]`, `attribute_values[i]` for `i = 0, 1, ...` until the
terminating `NULL` of the names. -/
def cd_dom_start_element_cb.attrs : List GStr → List GStr → GHashTable → GHashTable
  | n :: ns, v :: vs, t => cd_dom_start_element_cb.attrs ns vs (g_hash_table_insert t n v)
  | _, _, t => t

/-- The element-start callback `cd_dom_start_element_cb`. -/
def cd_dom_start_element_cb (priv : CdDomPrivate) (element_name : GStr)
    (attribute_names attribute_values : List GStr) : Option CdDomPrivate :=
  let data : CdDomNodeData :=
    { name := element_name
      cdata := []
      attributes := cd_dom_start_element_cb.attrs attribute_names attribute_values [] }
  let r := g_node_new priv.heap (some data)
  match g_node_append r.1 priv.current r.2 with
  | none => none
  | some heap => some { priv with heap := heap, current := some r.2 }

/-- The element-end callback `cd_dom_end_element_cb`: `priv->current = priv->current->parent`. -/
def cd_dom_end_element_cb (priv : CdDomPrivate) (_element_name : GStr) : Option CdDomPrivate :=
  match priv.current with
  | none => none
  | some cur =>
    match priv.heap[cur]? with
    | none => none
    | some n => some { priv with current := n.parent }

/-- The whitespace loop of `cd_dom_text_cb`: the value of `i` when the loop
over `text[i]`, started at `i`, stops. -/
def cd_dom_text_cb.loop : List Char → Nat → Nat
  | [], i => i
  | c :: rest, i =>
    if c ≠ ' ' ∧ c ≠ '\n' ∧ c ≠ '\t' then i else cd_dom_text_cb.loop rest (i + 1)

/-- The character-data callback `cd_dom_text_cb`; `text_len` is the length of `text`. -/
def cd_dom_text_cb (priv : CdDomPrivate) (text : GStr) : Option CdDomPrivate :=
  let text_len := text.length
  if text_len = 0 then some priv
  else if cd_dom_text_cb.loop text 0 ≥ text_len then some priv
  else
    match priv.current with
    | none => none
    | some cur =>
      match priv.heap[cur]? with
      | none => none
      | some n =>
        match n.data with
        | none => none
        | some data =>
          some { priv with
            heap := priv.heap.set cur { n with data := some { data with cdata := data.cdata ++ text } } }

/-- The three events the tokenizer delivers. -/
inductive GMarkupEvent where
  | start_element (element_name : GStr) (attribute_names attribute_values : List GStr)
  | end_element (element_name : GStr)
  | text (text : GStr)
deriving DecidableEq

/-- The `GMarkupParser` table of `cd_dom_parse_xml_data`: which callback an
event is dispatched to. -/
def parser (priv : CdDomPrivate) : GMarkupEvent → Option CdDomPrivate
  | .start_element n ks vs => cd_dom_start_element_cb priv n ks vs
  | .end_element n => cd_dom_end_element_cb priv n
  | .text t => cd_dom_text_cb priv t

/-- GLib `g_markup_parse_context_parse`, seen from the callbacks: the events
of the buffer are delivered in order. -/
def g_markup_parse_context_parse : CdDomPrivate → List GMarkupEvent → Option CdDomPrivate
  | priv, [] => some priv
  | priv, e :: rest =>
    match parser priv e with
    | none => none
    | some priv1 => g_markup_parse_context_parse priv1 rest

/-- The builder `cd_dom_parse_xml_data`: the tokenizer is given by the events it delivers
for the buffer and by whether it reports the buffer as correct; the result
is the returned `gboolean` and the document state. -/
def cd_dom_parse_xml_data (priv : CdDomPrivate) (events : List GMarkupEvent)
    (tokenizer_ok : Bool) : Option (Bool × CdDomPrivate) :=
  match g_markup_parse_context_parse priv events with
  | none => none
  | some priv1 => if !tokenizer_ok then some (false, priv1) else some (true, priv1)

/-- The child loop of `cd_dom_get_child_node`, over the sibling chain. -/
def cd_dom_get_child_node.loop (heap : List GNode) (name : GStr) : List Nat → Option Nat
  | [] => none
  | node :: next =>
    match heap[node]? with
    | none => none
    | some n =>
      match n.data with
      | none => none
      | some data =>
        if data.name = name then some node
        else cd_dom_get_child_node.loop heap name next

/-- The child lookup `cd_dom_get_child_node`. -/
def cd_dom_get_child_node (heap : List GNode) (root : Nat) (name : GStr) : Option Nat :=
  match heap[root]? with
  | none => none
  | some r => cd_dom_get_child_node.loop heap name r.children

/-- The accessor `cd_dom_get_node_name`. -/
def cd_dom_get_node_name (heap : List GNode) (node : Nat) : Option GStr :=
  match heap[node]? with
  | none => none
  | some n =>
    match n.data with
    | none => none
    | some data => some data.name

/-- The accessor `cd_dom_get_node_data`. -/
def cd_dom_get_node_data (heap : List GNode) (node : Nat) : Option GStr :=
  match heap[node]? with
  | none => none
  | some n =>
    match n.data with
    | none => none
    | some data => some data.cdata

/-- GLib `g_strsplit (string, "/", -1)` for a one-character delimiter: the
pieces between the delimiters, the last one included; no piece at all for
the empty string. -/
def g_strsplit.pieces (delimiter : Char) : List Char → List Char → List GStr
  | [], remainder => [remainder.reverse]
  | c :: rest, remainder =>
    if c = delimiter then remainder.reverse :: g_strsplit.pieces delimiter rest []
    else g_strsplit.pieces delimiter rest (c :: remainder)

/-- GLib `g_strsplit` with a one-character delimiter and no token limit. -/
def g_strsplit (string : GStr) (delimiter : Char) : List GStr :=
  if string = [] then [] else g_strsplit.pieces delimiter string []

/-- The segment loop of `cd_dom_get_node`. -/
def cd_dom_get_node.loop (heap : List GNode) : List GStr → Nat → Option Nat
  | [], node => some node
  | s :: rest, node =>
    match cd_dom_get_child_node heap node s with
    | none => none
    | some next => cd_dom_get_node.loop heap rest next

/-- The path lookup `cd_dom_get_node`. -/
def cd_dom_get_node (priv : CdDomPrivate) (root : Option Nat) (path : GStr) : Option Nat :=
  let root := match root with
    | none => priv.root
    | some r => r
  cd_dom_get_node.loop priv.heap (g_strsplit path '/') root

/-! ### Numbers -/

/-- The limits of `guint64`, `gint64` and `gint`. -/
def G_MAXUINT64 : Nat := 2 ^ 64 - 1
def G_MAXINT64 : Int := 2 ^ 63 - 1
def G_MININT64 : Int := -(2 ^ 63)
def G_MAXINT : Int := 2 ^ 31 - 1
def G_MININT : Int := -(2 ^ 31)

/-- GLib `ISSPACE` of `gstrfuncs.c`: the whitespace of the C locale. -/
def ISSPACE (c : Char) : Bool :=
  c = ' ' || c = '\x0c' || c = '\n' || c = '\r' || c = '\t' || c = '\x0b'

/-- The loop `while (ISSPACE (*s)) ++s` of `g_parse_long_long`. -/
def g_parse_long_long.skip : List Char → List Char
  | [] => []
  | c :: rest => if ISSPACE c then g_parse_long_long.skip rest else c :: rest

/-- The digit loop of `g_parse_long_long` in base 10: the accumulated
`ui64`, the `overflow` flag and the text from the first character that is
not a digit. -/
def g_parse_long_long.loop : List Char → Nat → Bool → Nat × Bool × List Char
  | [], ui64, overflow => (ui64, overflow, [])
  | c :: rest, ui64, overflow =>
    if c.isDigit then
      let d := c.toNat - '0'.toNat
      let cutoff := G_MAXUINT64 / 10
      let cutlim := G_MAXUINT64 % 10
      if ui64 > cutoff ∨ (ui64 = cutoff ∧ d > cutlim) then
        g_parse_long_long.loop rest ui64 true
      else
        g_parse_long_long.loop rest (ui64 * 10 + d) overflow
    else (ui64, overflow, c :: rest)

/-- GLib `g_parse_long_long (nptr, &endptr, 10, &negative)`: the unsigned
magnitude, `negative`, and the text at `endptr`.  Without a digit after the
whitespace and the sign (`s == save`) nothing is converted: the magnitude is
0 and `endptr` is `nptr`. -/
def g_parse_long_long (nptr : GStr) : Nat × Bool × GStr :=
  match g_parse_long_long.skip nptr with
  | [] => (0, false, nptr)
  | c :: rest =>
    let negative := decide (c = '-')
    let s := if c = '-' ∨ c = '+' then rest else c :: rest
    let r := g_parse_long_long.loop s 0 false
    if r.2.2.length = s.length then (0, negative, nptr)
    else if r.2.1 then (G_MAXUINT64, negative, r.2.2)
    else (r.1, negative, r.2.2)

/-- GLib `g_ascii_strtoll (nptr, &endptr, 10)`, after its implementation in
`gstrfuncs.c`: the value, saturated to the 64-bit range, and the text at
`endptr`. -/
def g_ascii_strtoll (nptr : GStr) : Int × GStr :=
  let r := g_parse_long_long nptr
  let result := r.1
  let negative := r.2.1
  if negative ∧ result > 2 ^ 63 then (G_MININT64, r.2.2)
  else if ¬ negative ∧ result > 2 ^ 63 - 1 then (G_MAXINT64, r.2.2)
  else if negative then (-(result : Int), r.2.2)
  else ((result : Int), r.2.2)

/-- The integer accessor `cd_dom_get_node_data_as_int`, for a node pointer that is not `NULL`. -/
def cd_dom_get_node_data_as_int (heap : List GNode) (node : Nat) : Int :=
  match cd_dom_get_node_data heap node with
  | none => G_MAXINT
  | some tmp =>
    let r := g_ascii_strtoll tmp
    let value_tmp := r.1
    let endptr := r.2
    if endptr ≠ [] then G_MAXINT
    else if value_tmp > G_MAXINT ∨ value_tmp < G_MININT then G_MAXINT
    else value_tmp

/-- The number a string of decimal digits denotes. -/
def digitsValue (ds : List Char) : Nat :=
  ds.foldl (fun acc c => acc * 10 + (c.toNat - '0'.toNat)) 0

/-! ### Floating-point texts

`g_ascii_strtod` is GLib's locale-independent `strtod`.  Its scan is modelled
after the C99 grammar of `strtod` in the C locale; its value is kept as the
number that was scanned, in the notation it was scanned in.  The rounding of
that number to a binary64 `gdouble` is not modelled. -/

/-- A `gdouble`, given by the number it is the conversion of:
`decimal s m e` for `±m·10^e`, `hex s m e` for `±m·2^e`, an infinity, or a
NaN. -/
inductive GDouble where
  | decimal (negative : Bool) (mantissa : Nat) (exp10 : Int)
  | hex (negative : Bool) (mantissa : Nat) (exp2 : Int)
  | inf (negative : Bool)
  | nan
deriving DecidableEq

/-- The largest finite double, `0x1.fffffffffffffp+1023`. -/
def G_MAXDOUBLE : GDouble := .hex false (2 ^ 53 - 1) 971

/-- The exact value of the number a `GDouble` is the conversion of. -/
def GDouble.exact : GDouble → Option ℚ
  | .decimal s m e => some ((if s then -1 else 1) * (m : ℚ) * (10 : ℚ) ^ e)
  | .hex s m e => some ((if s then -1 else 1) * (m : ℚ) * (2 : ℚ) ^ e)
  | .inf _ => none
  | .nan => none

/-- The value of a hexadecimal digit. -/
def hexDigitValue (c : Char) : Option Nat :=
  if c.isDigit then some (c.toNat - '0'.toNat)
  else if 'a'.toNat ≤ c.toNat ∧ c.toNat ≤ 'f'.toNat then some (c.toNat - 'a'.toNat + 10)
  else if 'A'.toNat ≤ c.toNat ∧ c.toNat ≤ 'F'.toNat then some (c.toNat - 'A'.toNat + 10)
  else none

/-- The number a string of hexadecimal digits denotes. -/
def hexDigitsValue (ds : List Char) : Nat :=
  ds.foldl (fun acc c => acc * 16 + (hexDigitValue c).getD 0) 0

/-- The optional exponent part of a number: the marker (`e` or `p`, in either
case), an optional sign and one or more decimal digits; when that form is
not there nothing is consumed and the exponent is 0. -/
def g_ascii_strtod.exponent (lower upper : Char) (s : List Char) : Int × List Char :=
  match s with
  | [] => (0, [])
  | c :: r =>
    if c = lower ∨ c = upper then
      let negative := decide (r.head? = some '-')
      let r1 := if r.head? = some '-' ∨ r.head? = some '+' then r.tail else r
      let ds := r1.takeWhile Char.isDigit
      if ds = [] then (0, s)
      else
        (if negative then -(digitsValue ds : Int) else (digitsValue ds : Int),
          r1.dropWhile Char.isDigit)
    else (0, s)

/-- The digits after a radix character `.`, and the text after them; no digit
and the text itself when it does not start with `.`. -/
def g_ascii_strtod.fraction (isDigit : Char → Bool) (s : List Char) : List Char × List Char :=
  match s with
  | '.' :: r => (r.takeWhile isDigit, r.dropWhile isDigit)
  | _ => ([], s)

/-- A decimal floating-point number: digits with an optional radix character,
at least one digit, and an optional exponent part. -/
def g_ascii_strtod.decimal (negative : Bool) (s : List Char) : Option (GDouble × List Char) :=
  let ip := s.takeWhile Char.isDigit
  let f := g_ascii_strtod.fraction Char.isDigit (s.dropWhile Char.isDigit)
  if ip = [] ∧ f.1 = [] then none
  else
    let e := g_ascii_strtod.exponent 'e' 'E' f.2
    some (.decimal negative (digitsValue (ip ++ f.1)) (e.1 - f.1.length), e.2)

/-- A hexadecimal floating-point number after its `0x` prefix: hexadecimal
digits with an optional radix character, at least one digit, and an
optional binary exponent part. -/
def g_ascii_strtod.hexadecimal (negative : Bool) (s : List Char) :
    Option (GDouble × List Char) :=
  let isHex : Char → Bool := fun c => (hexDigitValue c).isSome
  let ip := s.takeWhile isHex
  let f := g_ascii_strtod.fraction isHex (s.dropWhile isHex)
  if ip = [] ∧ f.1 = [] then none
  else
    let e := g_ascii_strtod.exponent 'p' 'P' f.2
    some (.hex negative (hexDigitsValue (ip ++ f.1)) (e.1 - 4 * f.1.length), e.2)

/-- The text after `nan`: an optional `(n-char-sequence)` is consumed. -/
def g_ascii_strtod.nanTail (s : List Char) : List Char :=
  match s with
  | '(' :: r =>
    match r.dropWhile (fun c => c.isAlphanum || c = '_') with
    | ')' :: r1 => r1
    | _ => s
  | _ => s

/-- The subject sequence of `strtod` after the whitespace and the sign; `none`
when no conversion can be performed. -/
def g_ascii_strtod.number (negative : Bool) (s : List Char) : Option (GDouble × List Char) :=
  if (s.take 8).map Char.toLower = "infinity".data then some (.inf negative, s.drop 8)
  else if (s.take 3).map Char.toLower = "inf".data then some (.inf negative, s.drop 3)
  else if (s.take 3).map Char.toLower = "nan".data then
    some (.nan, g_ascii_strtod.nanTail (s.drop 3))
  else if (s.take 2).map Char.toLower = "0x".data then
    match g_ascii_strtod.hexadecimal negative (s.drop 2) with
    | some r => some r
    | none => g_ascii_strtod.decimal negative s
  else g_ascii_strtod.decimal negative s

/-- GLib `g_ascii_strtod (nptr, &endptr)`: the value and the text at `endptr`;
without a conversion the value is zero and `endptr` is `nptr`. -/
def g_ascii_strtod (nptr : GStr) : GDouble × GStr :=
  let s := g_parse_long_long.skip nptr
  let negative := decide (s.head? = some '-')
  let body := if s.head? = some '-' ∨ s.head? = some '+' then s.tail else s
  match g_ascii_strtod.number negative body with
  | none => (.decimal false 0 0, nptr)
  | some r => r

/-- The floating-point accessor `cd_dom_get_node_data_as_double`, for a node pointer that is not
`NULL`. -/
def cd_dom_get_node_data_as_double (heap : List GNode) (node : Nat) : GDouble :=
  match cd_dom_get_node_data heap node with
  | none => G_MAXDOUBLE
  | some tmp =>
    let r := g_ascii_strtod tmp
    let value_tmp := r.1
    let endptr := r.2
    if endptr ≠ [] then G_MAXDOUBLE else value_tmp

/-! ### The reference path lookup -/

/-- The segments of a path, in the words of the specification: the path
split on `/`; the empty path has no segment. -/
def pathSegments (path : GStr) : List GStr :=
  if path = [] then [] else path.splitOn '/'

/-- The direct children of a node, in document order. -/
def childrenOf (heap : List GNode) (node : Nat) : List Nat :=
  match heap[node]? with
  | none => []
  | some n => n.children

/-- The name of a node, when it has one. -/
def nameOf (heap : List GNode) (node : Nat) : Option GStr :=
  (heap[node]?).bind fun n => n.data.map fun d => d.name

/-- One step of the reference lookup: the first direct child, in document
order, whose name equals the segment. -/
def firstChildNamed (heap : List GNode) (node : Nat) (segment : GStr) : Option Nat :=
  (childrenOf heap node).find? fun c => decide (nameOf heap c = some segment)

/-- The reference lookup over the segments: not-found as soon as a segment
has no matching child, otherwise the node reached. -/
def lookupSegments (heap : List GNode) : List GStr → Nat → Option Nat
  | [], node => some node
  | segment :: rest, node =>
    (firstChildNamed heap node segment).bind (lookupSegments heap rest)

/-- The reference lookup of a path from a start node, the root when none is
given. -/
def referenceLookup (priv : CdDomPrivate) (start : Option Nat) (path : GStr) : Option Nat :=
  lookupSegments priv.heap (pathSegments path) (start.getD priv.root)

/-- Every pointer in a child list designates a node that carries data: the
children are element nodes, only the synthetic root is without data. -/
def childrenHaveData (heap : List GNode) : Bool :=
  heap.all fun n => n.children.all fun c =>
    match heap[c]? with
    | none => false
    | some cn => cn.data.isSome

/-! ### Reconstructing a path from the parent links -/

/-- Follows the `parent` links from `node` back to `start`, at most `fuel`
of them: the nodes met, from just below `start` down to `node`; `none` when
`start` is not reached. -/
def parentChain (heap : List GNode) (start : Nat) : Nat → Nat → List Nat → Option (List Nat)
  | 0, node, acc => if node = start then some acc else none
  | fuel + 1, node, acc =>
    if node = start then some acc
    else
      match heap[node]? with
      | none => none
      | some n =>
        match n.parent with
        | none => none
        | some p => parentChain heap start fuel p (node :: acc)

/-- The names of the nodes of a chain (`cd_dom_get_node_name` of each). -/
def namesOf (heap : List GNode) : List Nat → Option (List GStr)
  | [] => some []
  | c :: rest =>
    match cd_dom_get_node_name heap c, namesOf heap rest with
    | some name, some names => some (name :: names)
    | _, _ => none

/-- The inverse reconstruction of a path: the names on the parent chain from
just below the start node (the root when none is given) down to `node`,
joined with `/`. -/
def reconstructPath (priv : CdDomPrivate) (start : Option Nat) (node : Nat) : Option GStr :=
  match parentChain priv.heap (start.getD priv.root) priv.heap.length node [] with
  | none => none
  | some chain => (namesOf priv.heap chain).map fun names => ['/'].intercalate names

/-! ### Reference notions for event sequences -/

/-- A text that contains at least one character other than space, tab and
newline. -/
def hasNonBlank (text : GStr) : Bool :=
  text.any fun c => !(c = ' ' || c = '\t' || c = '\n')

/-- A well-nested event sequence, `depth` elements being open: no end event
without a matching earlier start. -/
def wellNested : Nat → List GMarkupEvent → Bool
  | _, [] => true
  | depth, .start_element _ _ _ :: rest => wellNested (depth + 1) rest
  | depth, .end_element _ :: rest => decide (0 < depth) && wellNested (depth - 1) rest
  | depth, .text _ :: rest => wellNested depth rest

/-- Character data that is not blank arrives only while an element is open,
`depth` elements being open at the start. -/
def textInsideElements : Nat → List GMarkupEvent → Bool
  | _, [] => true
  | depth, .start_element _ _ _ :: rest => textInsideElements (depth + 1) rest
  | depth, .end_element _ :: rest => textInsideElements (depth - 1) rest
  | depth, .text t :: rest =>
    (decide (0 < depth) || !hasNonBlank t) && textInsideElements depth rest

/-- The number of elements left open by an event sequence, `depth` being
open at the start. -/
def openDepth : Nat → List GMarkupEvent → Nat
  | depth, [] => depth
  | depth, .start_element _ _ _ :: rest => openDepth (depth + 1) rest
  | depth, .end_element _ :: rest => openDepth (depth - 1) rest
  | depth, .text _ :: rest => openDepth depth rest

/-- What one event contributes to `node`: its character data when it is a
character-data event that is not blank and `node` is the cursor. -/
def deliveredBy (node : Nat) (priv : CdDomPrivate) : GMarkupEvent → GStr
  | .text t => if priv.current = some node ∧ hasNonBlank t = true then t else []
  | _ => []

/-- The character data delivered while `node` was the cursor and that is not
blank, concatenated in event order without trimming. -/
def deliveredTo (node : Nat) : CdDomPrivate → List GMarkupEvent → GStr
  | _, [] => []
  | priv, e :: rest =>
    match parser priv e with
    | none => deliveredBy node priv e
    | some priv1 => deliveredBy node priv e ++ deliveredTo node priv1 rest

/-- The accumulated text of a node, empty for a pointer that designates no
element node. -/
def textOf (heap : List GNode) (node : Nat) : GStr :=
  (cd_dom_get_node_data heap node).getD []

/-! ### Example documents -/

/-- The events of `<a>1</a><a>2</a>`. -/
def twoSiblingsEvents : List GMarkupEvent :=
  [.start_element "a".data [] [], .text "1".data, .end_element "a".data,
   .start_element "a".data [] [], .text "2".data, .end_element "a".data]

/-- The document built from `<a>1</a><a>2</a>`. -/
def twoSiblings : CdDomPrivate :=
  { heap :=
      [{ data := none, parent := none, children := [1, 2] },
       { data := some ⟨"a".data, "1".data, []⟩, parent := some 0, children := [] },
       { data := some ⟨"a".data, "2".data, []⟩, parent := some 0, children := [] }]
    root := 0
    current := some 0 }

/-- The events of `<html> <body>hi</body>` + newline + `</html>`. -/
def htmlBodyEvents : List GMarkupEvent :=
  [.start_element "html".data [] [], .text " ".data,
   .start_element "body".data [] [], .text "h".data, .text "i".data, .end_element "body".data,
   .text "\n".data, .end_element "html".data]

/-- The document built from `htmlBodyEvents`. -/
def htmlBody : CdDomPrivate :=
  { heap :=
      [{ data := none, parent := none, children := [1] },
       { data := some ⟨"html".data, [], []⟩, parent := some 0, children := [2] },
       { data := some ⟨"body".data, "hi".data, []⟩, parent := some 1, children := [] }]
    root := 0
    current := some 0 }

/-! ### Reference notions for integer texts -/

/-- The canonical decimal representation of an integer: a minus sign for a
negative number, then the decimal digits of the magnitude without leading
zeros (`0` for zero). -/
def canonicalDecimal (n : Int) : GStr :=
  if n < 0 then '-' :: Nat.toDigits 10 n.natAbs else Nat.toDigits 10 n.natAbs

/-- The integer a sign and a string of decimal digits denote. -/
def literalValue (sg ds : List Char) : Int :=
  if sg = ['-'] then -(digitsValue ds : Int) else (digitsValue ds : Int)

/-- A signed decimal integer literal denoting `v`: optional leading
whitespace, an optional sign, one or more decimal digits, and nothing
after them. -/
def IsIntLiteral (text : GStr) (v : Int) : Prop :=
  ∃ ws sg ds : List Char, text = ws ++ sg ++ ds ∧
    (∀ c ∈ ws, ISSPACE c = true) ∧ (sg = [] ∨ sg = ['-'] ∨ sg = ['+']) ∧
    ds ≠ [] ∧ (∀ c ∈ ds, c.isDigit = true) ∧ v = literalValue sg ds

/-! ### Invariants of the documents the builder makes -/

/-- The links of a heap made by the builder: a child points back to its
parent and carries data, and a parent is allocated before its children. -/
structure Linked (heap : List GNode) : Prop where
  child : ∀ (p : Nat) (pn : GNode), heap[p]? = some pn → ∀ c ∈ pn.children,
    ∃ (cn : GNode) (d : CdDomNodeData),
      heap[c]? = some cn ∧ cn.parent = some p ∧ cn.data = some d
  parent : ∀ (c : Nat) (cn : GNode) (p : Nat),
    heap[c]? = some cn → cn.parent = some p → p < c

/-- What holds of every document state the callbacks reach from `cd_dom_init`. -/
structure Inv (priv : CdDomPrivate) : Prop where
  linked : Linked priv.heap
  cur : ∀ c, priv.current = some c → c < priv.heap.length
  root : priv.root = 0
  rootNode : ∃ rn : GNode, priv.heap[0]? = some rn ∧ rn.data = none ∧ rn.parent = none
  elems : ∀ (i : Nat) (n : GNode), priv.heap[i]? = some n → 0 < i →
    ∃ d : CdDomNodeData, n.data = some d

/-- A downward walk: `Walk heap start cs n` when `cs` lists the nodes from
just below `start` down to `n`, each the child of the one before. -/
inductive Walk (heap : List GNode) (start : Nat) : List Nat → Nat → Prop
  | nil : Walk heap start [] start
  | snoc {cs : List Nat} {p c : Nat} {cn : GNode} :
      Walk heap start cs p → heap[c]? = some cn → cn.parent = some p → p < c →
      Walk heap start (cs ++ [c]) c

/-- The open elements, innermost first: each is an element node whose parent
is the next one, the outermost one a child of the root. -/
def OpenChain (heap : List GNode) (root : Nat) : List Nat → Prop
  | [] => True
  | c :: rest =>
    0 < c ∧ (∃ cn : GNode, heap[c]? = some cn ∧ cn.parent = some (rest.headD root)) ∧
      OpenChain heap root rest

/-- The magnitude `g_parse_long_long` returns for a digit string. -/
def saturate64 (v : Nat) : Nat := if v ≤ G_MAXUINT64 then v else G_MAXUINT64

/-! ### Color triplets -/

/-- The Lab triplet `CdColorLab`. -/
structure CdColorLab where
  L : GDouble
  a : GDouble
  b : GDouble
deriving DecidableEq

/-- The RGB triplet `CdColorRGB`. -/
structure CdColorRGB where
  R : GDouble
  G : GDouble
  B : GDouble
deriving DecidableEq

/-- The Yxy triplet `CdColorYxy`. -/
structure CdColorYxy where
  Y : GDouble
  x : GDouble
  y : GDouble
deriving DecidableEq

/-- The call `g_ascii_strtod (nptr, &endptr)` with a `nptr` that may be `NULL`
and the `gchar *endptr` variable of the caller, `NULL` at first: for a
`NULL` text the precondition check of GLib returns 0 and leaves `endptr` as
it was. -/
def g_ascii_strtod.call (nptr : Option GStr) (endptr : Option GStr) : GDouble × Option GStr :=
  match nptr with
  | none => (.decimal false 0 0, endptr)
  | some s => ((g_ascii_strtod s).1, some (g_ascii_strtod s).2)

/-- The test `endptr != NULL && endptr[0] != '\0'`. -/
def endptrLeft (endptr : Option GStr) : Bool :=
  match endptr with
  | none => false
  | some [] => false
  | some (_ :: _) => true

/-- The common body of `cd_dom_get_node_lab`, `cd_dom_get_node_rgb` and
`cd_dom_get_node_yxy`, which are the same text up to the three child names
and the three fields written: the returned `gboolean` and the fields, as
first given and as overwritten by the values parsed before the return. -/
def cd_dom_get_node_values (heap : List GNode) (node : Nat) (n0 n1 n2 : GStr)
    (f : GDouble × GDouble × GDouble) : Bool × (GDouble × GDouble × GDouble) :=
  match cd_dom_get_child_node heap node n0 with
  | none => (false, f)
  | some v0 =>
    match cd_dom_get_child_node heap node n1 with
    | none => (false, f)
    | some v1 =>
      match cd_dom_get_child_node heap node n2 with
      | none => (false, f)
      | some v2 =>
        let r0 := g_ascii_strtod.call (cd_dom_get_node_data heap v0) none
        if endptrLeft r0.2 then (false, (r0.1, f.2.1, f.2.2))
        else
          let r1 := g_ascii_strtod.call (cd_dom_get_node_data heap v1) r0.2
          if endptrLeft r1.2 then (false, (r0.1, r1.1, f.2.2))
          else
            let r2 := g_ascii_strtod.call (cd_dom_get_node_data heap v2) r1.2
            if endptrLeft r2.2 then (false, (r0.1, r1.1, r2.1))
            else (true, (r0.1, r1.1, r2.1))

/-- The Lab extraction `cd_dom_get_node_lab`: the returned `gboolean` and the contents of
`*lab` afterwards. -/
def cd_dom_get_node_lab (heap : List GNode) (node : Nat) (lab : CdColorLab) :
    Bool × CdColorLab :=
  let r := cd_dom_get_node_values heap node "L".data "a".data "b".data (lab.L, lab.a, lab.b)
  (r.1, { L := r.2.1, a := r.2.2.1, b := r.2.2.2 })

/-- The RGB extraction `cd_dom_get_node_rgb`: the returned `gboolean` and the contents of
`*rgb` afterwards. -/
def cd_dom_get_node_rgb (heap : List GNode) (node : Nat) (rgb : CdColorRGB) :
    Bool × CdColorRGB :=
  let r := cd_dom_get_node_values heap node "R".data "G".data "B".data (rgb.R, rgb.G, rgb.B)
  (r.1, { R := r.2.1, G := r.2.2.1, B := r.2.2.2 })

/-- The Yxy extraction `cd_dom_get_node_yxy`: the returned `gboolean` and the contents of
`*yxy` afterwards. -/
def cd_dom_get_node_yxy (heap : List GNode) (node : Nat) (yxy : CdColorYxy) :
    Bool × CdColorYxy :=
  let r := cd_dom_get_node_values heap node "Y".data "x".data "y".data (yxy.Y, yxy.x, yxy.y)
  (r.1, { Y := r.2.1, x := r.2.2.1, y := r.2.2.2 })

/-- A node has no direct child of the given name. -/
def childAbsent (heap : List GNode) (node : Nat) (name : GStr) : Prop :=
  ∀ c ∈ childrenOf heap node, nameOf heap c ≠ some name

/-- The strict floating-point parse consumes the whole text of a node. -/
def whollyParsed (heap : List GNode) (node : Nat) : Prop :=
  ∃ text : GStr, cd_dom_get_node_data heap node = some text ∧ (g_ascii_strtod text).2 = []

/-- The value the floating-point parse gives for the text of a node. -/
def parsedValue (heap : List GNode) (node : Nat) : GDouble :=
  (g_ascii_strtod (textOf heap node)).1

/-- The events of `<color><L>50</L><a>10</a><b>-5</b></color>`. -/
def labEvents : List GMarkupEvent :=
  [.start_element "color".data [] [],
   .start_element "L".data [] [], .text "50".data, .end_element "L".data,
   .start_element "a".data [] [], .text "10".data, .end_element "a".data,
   .start_element "b".data [] [], .text "-5".data, .end_element "b".data,
   .end_element "color".data]

/-- The document built from `labEvents`; the `color` node is node 1. -/
def labDoc : CdDomPrivate :=
  { heap :=
      [{ data := none, parent := none, children := [1] },
       { data := some ⟨"color".data, [], []⟩, parent := some 0, children := [2, 3, 4] },
       { data := some ⟨"L".data, "50".data, []⟩, parent := some 1, children := [] },
       { data := some ⟨"a".data, "10".data, []⟩, parent := some 1, children := [] },
       { data := some ⟨"b".data, "-5".data, []⟩, parent := some 1, children := [] }]
    root := 0
    current := some 0 }

/-- The events of `<color><L>50</L><a>10</a><B>1</B></color>`: no `b`. -/
def labNoBEvents : List GMarkupEvent :=
  [.start_element "color".data [] [],
   .start_element "L".data [] [], .text "50".data, .end_element "L".data,
   .start_element "a".data [] [], .text "10".data, .end_element "a".data,
   .start_element "B".data [] [], .text "1".data, .end_element "B".data,
   .end_element "color".data]

/-- The document built from `labNoBEvents`. -/
def labNoBDoc : CdDomPrivate :=
  { heap :=
      [{ data := none, parent := none, children := [1] },
       { data := some ⟨"color".data, [], []⟩, parent := some 0, children := [2, 3, 4] },
       { data := some ⟨"L".data, "50".data, []⟩, parent := some 1, children := [] },
       { data := some ⟨"a".data, "10".data, []⟩, parent := some 1, children := [] },
       { data := some ⟨"B".data, "1".data, []⟩, parent := some 1, children := [] }]
    root := 0
    current := some 0 }

/-! ### Attributes and localized texts -/

/-- The accessor `cd_dom_get_node_attribute`, for a node pointer and a key that are not
`NULL`. -/
def cd_dom_get_node_attribute (heap : List GNode) (node : Nat) (key : GStr) : Option GStr :=
  match heap[node]? with
  | none => none
  | some n =>
    match n.data with
    | none => none
    | some data => g_hash_table_lookup data.attributes key

/-- The loop of `cd_dom_get_node_localized` over the sibling chain of the
children; a child without data and a child of another name are passed
over. -/
def cd_dom_get_node_localized.loop (heap : List GNode) (key : GStr)
    (data_unlocalized : Option GStr) : List Nat → GHashTable → GHashTable
  | [], hash => hash
  | tmp :: next, hash =>
    match heap[tmp]? with
    | none => cd_dom_get_node_localized.loop heap key data_unlocalized next hash
    | some n =>
      match n.data with
      | none => cd_dom_get_node_localized.loop heap key data_unlocalized next hash
      | some data =>
        if data.name ≠ key then
          cd_dom_get_node_localized.loop heap key data_unlocalized next hash
        else
          let xml_lang := g_hash_table_lookup data.attributes "xml:lang".data
          let data_localized := data.cdata
          if xml_lang ≠ none ∧ data_unlocalized = some data_localized then
            cd_dom_get_node_localized.loop heap key data_unlocalized next hash
          else
            cd_dom_get_node_localized.loop heap key data_unlocalized next
              (g_hash_table_insert hash (xml_lang.getD []) data_localized)

/-- The localized extraction `cd_dom_get_node_localized`: `NULL`, or the hash table from
locale to text. -/
def cd_dom_get_node_localized (heap : List GNode) (node : Nat) (key : GStr) :
    Option GHashTable :=
  match cd_dom_get_child_node heap node key with
  | none => none
  | some tmp =>
    let data_unlocalized := cd_dom_get_node_data heap tmp
    match heap[node]? with
    | none => some []
    | some n => some (cd_dom_get_node_localized.loop heap key data_unlocalized n.children [])

/-- The attribute of a node under a key, when the node has it. -/
def attributeOf (heap : List GNode) (node : Nat) (key : GStr) : Option GStr :=
  (heap[node]?).bind fun n => n.data.bind fun d => g_hash_table_lookup d.attributes key

/-- The fold of the localized extraction, for a given reading of "the child
carries a locale": the text of the first child named `key` is the
unlocalized default; the children named `key` are visited in document order;
a child is skipped when it carries a locale and its text equals the default,
and otherwise its text is inserted under its `xml:lang` value (the empty
string when the attribute is absent), overwriting an earlier entry. -/
def localizedFold (carries : Option GStr → Bool) (heap : List GNode) (node : Nat)
    (key : GStr) : Option GHashTable :=
  match firstChildNamed heap node key with
  | none => none
  | some first =>
    some (((childrenOf heap node).filter fun c => decide (nameOf heap c = some key)).foldl
      (fun m c =>
        if carries (attributeOf heap c "xml:lang".data) = true ∧
            textOf heap c = textOf heap first then m
        else
          g_hash_table_insert m ((attributeOf heap c "xml:lang".data).getD []) (textOf heap c))
      [])

/-- The reference fold in the words of the specification: a child carries a
locale when its `xml:lang` attribute is not empty. -/
def localizedReference (heap : List GNode) (node : Nat) (key : GStr) : Option GHashTable :=
  localizedFold (fun lang => decide (lang ≠ none ∧ lang ≠ some [])) heap node key

/-- The fold with the test of the code: a child carries a locale when it has
an `xml:lang` attribute, empty or not. -/
def localizedPresent (heap : List GNode) (node : Nat) (key : GStr) : Option GHashTable :=
  localizedFold (fun lang => decide (lang ≠ none)) heap node key

/-- The value paired with the last occurrence of a key in the attribute list
of an element-start event. -/
def lastValue (attribute_names attribute_values : List GStr) (key : GStr) : Option GStr :=
  ((attribute_names.zip attribute_values).reverse.find? fun kv => decide (kv.1 = key)).map
    fun kv => kv.2

/-- The events of
`<p><name>color</name><name>colour</name><name xml:lang="">color</name></p>`. -/
def emptyLangEvents : List GMarkupEvent :=
  [.start_element "p".data [] [],
   .start_element "name".data [] [], .text "color".data, .end_element "name".data,
   .start_element "name".data [] [], .text "colour".data, .end_element "name".data,
   .start_element "name".data ["xml:lang".data] [[]], .text "color".data,
   .end_element "name".data,
   .end_element "p".data]

/-- The events of
`<p><name xml:lang="en_GB">colour</name><name>color</name></p>`. -/
def localizedFirstEvents : List GMarkupEvent :=
  [.start_element "p".data [] [],
   .start_element "name".data ["xml:lang".data] ["en_GB".data], .text "colour".data,
   .end_element "name".data,
   .start_element "name".data [] [], .text "color".data, .end_element "name".data,
   .end_element "p".data]

/-- The events of
`<p><name>color</name><name xml:lang="en_GB">colour</name></p>`. -/
def unlocalizedFirstEvents : List GMarkupEvent :=
  [.start_element "p".data [] [],
   .start_element "name".data [] [], .text "color".data, .end_element "name".data,
   .start_element "name".data ["xml:lang".data] ["en_GB".data], .text "colour".data,
   .end_element "name".data,
   .end_element "p".data]

/-- Every node that has a name has a name that is not empty. -/
def namesNonEmpty (heap : List GNode) : Prop :=
  ∀ node : Nat, nameOf heap node ≠ some []

/-- A path with an empty segment: it starts with `/`, ends with `/`, or
contains `//`. -/
def hasEmptySegment (path : GStr) : Prop :=
  path.head? = some '/' ∨ path.getLast? = some '/' ∨ ['/', '/'] <:+: path

/-! ### Well-nested runs -/

/-- The states the callbacks reach from the fresh document on well-nested
event sequences, each with its stack of open elements, innermost first: an
element-start pushes the node it allocates, an element-end pops. -/
inductive Reach : CdDomPrivate → List Nat → Prop
  | init : Reach cd_dom_init []
  | start {priv priv1 : CdDomPrivate} {stack : List Nat} (name : GStr) (ks vs : List GStr) :
      Reach priv stack → cd_dom_start_element_cb priv name ks vs = some priv1 →
      Reach priv1 (priv.heap.length :: stack)
  | close {priv priv1 : CdDomPrivate} {c : Nat} {stack : List Nat} (name : GStr) :
      Reach priv (c :: stack) → cd_dom_end_element_cb priv name = some priv1 →
      Reach priv1 stack
  | text {priv priv1 : CdDomPrivate} {stack : List Nat} (t : GStr) :
      Reach priv stack → cd_dom_text_cb priv t = some priv1 → Reach priv1 stack

/-- The number of element-start events of a sequence. -/
def countStarts : List GMarkupEvent → Nat
  | [] => 0
  | .start_element _ _ _ :: rest => countStarts rest + 1
  | _ :: rest => countStarts rest

/-- The names of the element-start events of a sequence, in order. -/
def startNames : List GMarkupEvent → List GStr
  | [] => []
  | .start_element name _ _ :: rest => name :: startNames rest
  | _ :: rest => startNames rest

/-- The element-start events not yet closed after a sequence, innermost first,
each given by its ordinal number among the start events (the first start
event is 1); `stack` are those open and `n` the number of start events
before the sequence. -/
def openStarts : List Nat → Nat → List GMarkupEvent → List Nat
  | stack, _, [] => stack
  | stack, n, .start_element _ _ _ :: rest => openStarts ((n + 1) :: stack) (n + 1) rest
  | stack, n, .end_element _ :: rest => openStarts stack.tail n rest
  | stack, n, .text _ :: rest => openStarts stack n rest

/-- The parent links are matched by the child lists, and no child list names
a node twice. -/
structure TreeLinks (heap : List GNode) : Prop where
  parent_child : ∀ (c : Nat) (cn : GNode) (p : Nat), heap[c]? = some cn → cn.parent = some p →
    ∃ pn : GNode, heap[p]? = some pn ∧ c ∈ pn.children
  nodup : ∀ (p : Nat) (pn : GNode), heap[p]? = some pn → pn.children.Nodup

/-- The tree predicate of a document state: the invariant of the heap and of
the cursor, with parent links and child lists that match. -/
def IsTree (priv : CdDomPrivate) : Prop := Inv priv ∧ TreeLinks priv.heap

/-- The nodes reachable from the root along the child lists. -/
inductive Descends (heap : List GNode) (root : Nat) : Nat → Prop
  | root : Descends heap root root
  | child {p c : Nat} {pn : GNode} :
      Descends heap root p → heap[p]? = some pn → c ∈ pn.children → Descends heap root c


/-- The events of `<a><b></b><c>`, a prefix of those of `<a><b></b><c></c></a>`. -/
def openPrefixEvents : List GMarkupEvent :=
  [.start_element "a".data [] [], .start_element "b".data [] [], .end_element "b".data,
   .start_element "c".data [] []]

/-! ### Printing -/

/-- The GLib function `g_node_depth`: the number of nodes from `node` up to
the root of its tree, both counted, 0 for `NULL`; `fuel` bounds the walk. -/
def g_node_depth (heap : List GNode) : Nat → Option Nat → Nat
  | 0, _ => 0
  | _ + 1, none => 0
  | fuel + 1, some n =>
    match heap[n]? with
    | none => 0
    | some gn => g_node_depth heap fuel gn.parent + 1

/-- The traversal callback `cd_dom_print_node_cb`: nothing for a node without
data; otherwise `depth` spaces and `<name> [cdata]` with a newline are
appended to the string. The result is the returned `gboolean` (always
`FALSE`: go on) and the string. -/
def cd_dom_print_node_cb (heap : List GNode) (node : Nat) (string : GStr) : Bool × GStr :=
  let depth := g_node_depth heap (heap.length + 1) (some node)
  match heap[node]? with
  | none => (false, string)
  | some n =>
    match n.data with
    | none => (false, string)
    | some data =>
      (false, string ++ List.replicate depth ' ' ++
        ("<".data ++ data.name ++ "> [".data ++ data.cdata ++ "]\n".data))

/-- The child loop of `g_node_traverse_pre_order`: visits the children in
order and stops when a visit returns `TRUE`. -/
def g_node_traverse_pre_order.loop (visit : Nat → GStr → Bool × GStr) :
    List Nat → GStr → Bool × GStr
  | [], string => (false, string)
  | child :: rest, string =>
    let r := visit child string
    if r.1 then (true, r.2) else g_node_traverse_pre_order.loop visit rest r.2

/-- The GLib function `g_node_traverse_pre_order` with the flags
`G_TRAVERSE_ALL`: the callback on the node, then the subtrees of its children
in order; a callback that returns `TRUE` stops the traversal. `fuel` bounds
the depth. -/
def g_node_traverse_pre_order (heap : List GNode) (func : Nat → GStr → Bool × GStr) :
    Nat → Nat → GStr → Bool × GStr
  | 0, _, string => (false, string)
  | fuel + 1, node, string =>
    if childrenOf heap node ≠ [] then
      let r := func node string
      if r.1 then (true, r.2)
      else
        g_node_traverse_pre_order.loop (g_node_traverse_pre_order heap func fuel)
          (childrenOf heap node) r.2
    else
      let r := func node string
      if r.1 then (true, r.2) else (false, r.2)

/-- The function `cd_dom_to_string`: the pre-order traversal of the whole
tree from the root with `cd_dom_print_node_cb`, on an empty string. -/
def cd_dom_to_string (priv : CdDomPrivate) : GStr :=
  (g_node_traverse_pre_order priv.heap (cd_dom_print_node_cb priv.heap)
    priv.heap.length priv.root []).2

/-- The nodes of the subtree of `node` in pre-order: the node, then the
subtrees of its children in order, to a depth of `fuel`. -/
def preorder (heap : List GNode) : Nat → Nat → List Nat
  | 0, _ => []
  | fuel + 1, node => node :: (childrenOf heap node).flatMap (preorder heap fuel)

/-- What holds of the open elements and of the pre-order of a document state
with the stack `stack` of open elements: an open element is the last child of
its parent, and the subtree of the root and of each open element consists, in
pre-order, of the nodes from it to the end of the heap, in the order of
their allocation. -/
structure Trav (priv : CdDomPrivate) (stack : List Nat) : Prop where
  last : ∀ n : Nat, ∀ c ∈ childrenOf priv.heap n, c ∈ stack →
    (childrenOf priv.heap n).getLast? = some c
  pre : ∀ n ∈ stack ++ [0], ∀ fuel : Nat, priv.heap.length ≤ fuel + n →
    preorder priv.heap fuel n = List.range' n (priv.heap.length - n)

/-- The number of lines of a string, each ended by a newline. -/
def lineCount (s : GStr) : Nat := s.count '\n'

/-- The record `cd_dom_print_node_cb` prints for an element: the indentation,
then the name between angle brackets, the text between square brackets, and a
newline. -/
def printedLine (depth : Nat) (name text : GStr) : GStr :=
  List.replicate depth ' ' ++ ("<".data ++ name ++ "> [".data ++ text ++ "]\n".data)

/-- The number of newline characters inside the name and the text of a node. -/
def innerNewlines (heap : List GNode) (node : Nat) : Nat :=
  lineCount ((nameOf heap node).getD []) + lineCount (textOf heap node)

/-- The events of `<a>x`, newline, `y</a>`. -/
def twoLineTextEvents : List GMarkupEvent :=
  [.start_element "a".data [] [], .text "x\ny".data, .end_element "a".data]

/-! ### Flattening a tree into events -/

/-- A finite ordered tree of named, attributed nodes with text; the
attributes are given as the element-start event gives them, by the list of
their names and the list of their values. -/
inductive XmlTree where
  | node (name : GStr) (attribute_names attribute_values : List GStr) (text : GStr)
      (children : List XmlTree)

mutual
/-- The pre-order event stream of a tree: the start of the node with its name
and attributes, one character-data event with its text when that is not
empty, the streams of its children in order, and the end of the node. -/
def flatten : XmlTree → List GMarkupEvent
  | .node name ks vs text children =>
    .start_element name ks vs ::
      ((if text = [] then [] else [.text text]) ++ flattenList children ++ [.end_element name])
/-- The event streams of the trees of a list, one after the other. -/
def flattenList : List XmlTree → List GMarkupEvent
  | [] => []
  | t :: ts => flatten t ++ flattenList ts
end

mutual
/-- The text of every node of the tree is empty or contains a character
other than space, tab and newline. -/
def textsOk : XmlTree → Bool
  | .node _ _ _ text children => (decide (text = []) || hasNonBlank text) && textsOkList children
/-- The same of every tree of a list. -/
def textsOkList : List XmlTree → Bool
  | [] => true
  | t :: ts => textsOk t && textsOkList ts
end

mutual
/-- The node `n` of the heap and what hangs below it equal the tree, in
names, texts, attribute lookups and the order of the children. -/
def Rep (heap : List GNode) : Nat → XmlTree → Prop
  | n, .node name ks vs text children =>
    cd_dom_get_node_name heap n = some name ∧
    cd_dom_get_node_data heap n = some text ∧
    (∀ key : GStr, cd_dom_get_node_attribute heap n key = lastValue ks vs key) ∧
    RepList heap (childrenOf heap n) children
/-- The nodes of a list equal, one by one and in order, the trees of a list. -/
def RepList (heap : List GNode) : List Nat → List XmlTree → Prop
  | [], [] => True
  | c :: cs, t :: ts => Rep heap c t ∧ RepList heap cs ts
  | _, _ => False
end

/-- What building below the cursor `c` leaves as it was: the nodes there
were, but for the child list of `c`. -/
def Frame (heap heap1 : List GNode) (c : Nat) : Prop :=
  heap.length ≤ heap1.length ∧
  (∀ i : Nat, i < heap.length → i ≠ c → heap1[i]? = heap[i]?) ∧
  (heap1[c]?).map (fun n => (n.data, n.parent)) = (heap[c]?).map (fun n => (n.data, n.parent))

/-- The tree of `<a k="v"><b>x</b><c/></a>`. -/
def sampleTree : XmlTree :=
  .node "a".data ["k".data] ["v".data] []
    [.node "b".data [] [] "x".data [], .node "c".data [] [] [] []]

/-! ### Lemmas: path lookup -/

theorem g_strsplit_pieces_eq (d : Char) (s acc : List Char) :
    g_strsplit.pieces d s acc = List.splitOnP.go (fun c => c == d) s acc := by
  induction s generalizing acc with
  | nil => simp [g_strsplit.pieces, List.splitOnP.go]
  | cons c rest ih =>
    by_cases h : c = d
    · simp [g_strsplit.pieces, List.splitOnP.go, h, ih]
    · simp [g_strsplit.pieces, List.splitOnP.go, h, ih]

theorem g_strsplit_eq_pathSegments (path : GStr) :
    g_strsplit path '/' = pathSegments path := by
  unfold g_strsplit pathSegments
  split
  · rfl
  · rw [g_strsplit_pieces_eq]; rfl

theorem childrenHaveData_iff (heap : List GNode) :
    childrenHaveData heap = true ↔
      ∀ (p : Nat) (n : GNode), heap[p]? = some n → ∀ c ∈ n.children,
        ∃ (cn : GNode) (d : CdDomNodeData), heap[c]? = some cn ∧ cn.data = some d := by
  unfold childrenHaveData
  simp only [List.all_eq_true]
  constructor
  · intro h p n hp c hc
    have := h n (List.getElem?_mem hp) c hc
    split at this
    · simp at this
    · rename_i cn hcn
      cases hd : cn.data with
      | none => simp [hd] at this
      | some d => exact ⟨cn, d, hcn, hd⟩
  · intro h n hn c hc
    obtain ⟨p, hp, rfl⟩ := List.getElem_of_mem hn
    obtain ⟨cn, d, hcn, hd⟩ := h p _ (List.getElem?_eq_getElem hp) c hc
    simp [hcn, hd]

theorem get_child_loop_eq_find (heap : List GNode) (name : GStr) (cs : List Nat)
    (h : ∀ c ∈ cs, ∃ (cn : GNode) (d : CdDomNodeData), heap[c]? = some cn ∧ cn.data = some d) :
    cd_dom_get_child_node.loop heap name cs
      = cs.find? fun c => decide (nameOf heap c = some name) := by
  induction cs with
  | nil => rfl
  | cons c rest ih =>
    obtain ⟨cn, d, hcn, hd⟩ := h c (List.mem_cons_self _ _)
    have ih1 := ih fun x hx => h x (List.mem_cons_of_mem _ hx)
    by_cases hn : d.name = name
    · simp [cd_dom_get_child_node.loop, nameOf, hcn, hd, hn]
    · simp [cd_dom_get_child_node.loop, nameOf, hcn, hd, hn, ih1, List.find?_cons]

theorem get_child_node_eq_ref (heap : List GNode) (h : childrenHaveData heap = true)
    (node : Nat) (name : GStr) :
    cd_dom_get_child_node heap node name = firstChildNamed heap node name := by
  unfold cd_dom_get_child_node firstChildNamed childrenOf
  cases hn : heap[node]? with
  | none => simp
  | some n =>
    simp only
    exact get_child_loop_eq_find heap name n.children
      ((childrenHaveData_iff heap).1 h node n hn)

theorem get_node_loop_eq_ref (heap : List GNode) (h : childrenHaveData heap = true)
    (segs : List GStr) (node : Nat) :
    cd_dom_get_node.loop heap segs node = lookupSegments heap segs node := by
  induction segs generalizing node with
  | nil => rfl
  | cons s rest ih =>
    simp only [cd_dom_get_node.loop, lookupSegments, get_child_node_eq_ref heap h]
    cases firstChildNamed heap node s with
    | none => rfl
    | some next => simpa using ih next

/-! ### Lemmas: the heap after a callback -/

theorem g_node_append_some (heap : List GNode) (nd pn : GNode) (cur : Nat)
    (hcur : heap[cur]? = some pn) :
    g_node_append (heap ++ [nd]) (some cur) heap.length
      = some (((heap ++ [nd]).set heap.length { nd with parent := some cur }).set cur
          { pn with children := pn.children ++ [heap.length] }) := by
  have hlt : cur < heap.length := by
    by_contra hc
    rw [List.getElem?_eq_none (by omega)] at hcur
    cases hcur
  simp [g_node_append, List.getElem?_append_left hlt, hcur]

theorem start_heap_getElem? (heap : List GNode) (nd pn x : GNode) (cur : Nat)
    (hcur : heap[cur]? = some pn) (i : Nat) :
    (((heap ++ [nd]).set heap.length x).set cur
        { pn with children := pn.children ++ [heap.length] })[i]?
      = if i = cur then some { pn with children := pn.children ++ [heap.length] }
        else if i = heap.length then some x else heap[i]? := by
  have hlt : cur < heap.length := by
    by_contra hc
    rw [List.getElem?_eq_none (by omega)] at hcur
    cases hcur
  by_cases h1 : i = cur
  · rw [h1, if_pos rfl, List.getElem?_set_self (by simp; omega)]
  · by_cases h2 : i = heap.length
    · subst h2
      simp [List.getElem?_set, h1, Ne.symm h1]
    · simp only [h1, h2, if_false]
      rw [List.getElem?_set_ne (Ne.symm h1), List.getElem?_set_ne (Ne.symm h2)]
      by_cases h3 : i < heap.length
      · exact List.getElem?_append_left h3
      · rw [List.getElem?_eq_none (by simp; omega), List.getElem?_eq_none (by omega)]

theorem start_element_some (priv : CdDomPrivate) (name : GStr) (ks vs : List GStr)
    (cur : Nat) (pn : GNode) (hc : priv.current = some cur) (hcur : priv.heap[cur]? = some pn) :
    cd_dom_start_element_cb priv name ks vs
      = some { priv with
          heap := ((priv.heap ++ [({ data := some ⟨name, [], cd_dom_start_element_cb.attrs ks vs []⟩,
                                     parent := none, children := [] } : GNode)]).set priv.heap.length
                    { data := some ⟨name, [], cd_dom_start_element_cb.attrs ks vs []⟩,
                      parent := some cur, children := [] }).set cur
                    { pn with children := pn.children ++ [priv.heap.length] }
          current := some priv.heap.length } := by
  simp only [cd_dom_start_element_cb, g_node_new, hc]
  rw [g_node_append_some _ _ pn cur hcur]

theorem start_element_none (priv : CdDomPrivate) (name : GStr) (ks vs : List GStr)
    (hc : priv.current = none) :
    cd_dom_start_element_cb priv name ks vs
      = some { priv with
          heap := priv.heap ++ [({ data := some ⟨name, [], cd_dom_start_element_cb.attrs ks vs []⟩,
                                   parent := none, children := [] } : GNode)]
          current := some priv.heap.length } := by
  simp [cd_dom_start_element_cb, g_node_new, hc, g_node_append]

theorem getElem?_lt {heap : List GNode} {i : Nat} {n : GNode} (h : heap[i]? = some n) :
    i < heap.length := by
  by_contra hc
  rw [List.getElem?_eq_none (by omega)] at h
  cases h

theorem Inv_init : Inv cd_dom_init where
  linked :=
    { child := by
        intro p pn hp c hc
        cases p with
        | zero =>
          simp [cd_dom_init, g_node_new] at hp
          subst hp
          simp at hc
        | succ k => simp [cd_dom_init, g_node_new] at hp
      parent := by
        intro c cn p hc hp
        cases c with
        | zero =>
          simp [cd_dom_init, g_node_new] at hc
          subst hc
          simp at hp
        | succ k => simp [cd_dom_init, g_node_new] at hc }
  cur := by
    intro c hc
    simp [cd_dom_init, g_node_new] at hc ⊢
    omega
  root := rfl
  rootNode := ⟨_, rfl, rfl, rfl⟩
  elems := by
    intro i n hi hpos
    cases i with
    | zero => omega
    | succ k => simp [cd_dom_init, g_node_new] at hi

theorem Inv_start_none (priv : CdDomPrivate) (h : Inv priv) (d : CdDomNodeData) :
    Inv { priv with
      heap := priv.heap ++ [({ data := some d, parent := none, children := [] } : GNode)]
      current := some priv.heap.length } := by
  have key : ∀ (i : Nat) (n : GNode),
      (priv.heap ++ [({ data := some d, parent := none, children := [] } : GNode)])[i]? = some n →
      priv.heap[i]? = some n ∨
        (i = priv.heap.length ∧ n = { data := some d, parent := none, children := [] }) := by
    intro i n hi
    rw [List.getElem?_append] at hi
    split at hi
    · exact Or.inl hi
    · rename_i hlt
      right
      have : i = priv.heap.length := by
        have := getElem?_lt hi
        simp at this
        omega
      subst this
      simp at hi
      exact ⟨rfl, hi.symm⟩
  have old : ∀ (i : Nat) (n : GNode), priv.heap[i]? = some n →
      (priv.heap ++ [({ data := some d, parent := none, children := [] } : GNode)])[i]? = some n := by
    intro i n hi
    rw [List.getElem?_append_left (getElem?_lt hi)]
    exact hi
  refine ⟨⟨?_, ?_⟩, ?_, h.root, ?_, ?_⟩
  · intro p pn hp c hc
    rcases key p pn hp with h1 | ⟨_, h1⟩
    · obtain ⟨cn, dd, h2, h3, h4⟩ := h.linked.child p pn h1 c hc
      exact ⟨cn, dd, old c cn h2, h3, h4⟩
    · subst h1
      simp at hc
  · intro c cn p hc hp
    rcases key c cn hc with h1 | ⟨_, h1⟩
    · exact h.linked.parent c cn p h1 hp
    · subst h1
      simp at hp
  · intro c hc
    simp at hc ⊢
    omega
  · obtain ⟨rn, h1, h2, h3⟩ := h.rootNode
    exact ⟨rn, old 0 rn h1, h2, h3⟩
  · intro i n hi hpos
    rcases key i n hi with h1 | ⟨_, h1⟩
    · exact h.elems i n h1 hpos
    · exact ⟨d, by rw [h1]⟩

theorem Inv_start_some (priv : CdDomPrivate) (h : Inv priv) (d : CdDomNodeData)
    (cur : Nat) (pn : GNode) (hcur : priv.heap[cur]? = some pn) :
    Inv { priv with
      heap := ((priv.heap ++ [({ data := some d, parent := none, children := [] } : GNode)]).set
                priv.heap.length { data := some d, parent := some cur, children := [] }).set cur
                { pn with children := pn.children ++ [priv.heap.length] }
      current := some priv.heap.length } := by
  have hlt := getElem?_lt hcur
  have key := start_heap_getElem? priv.heap
    { data := some d, parent := none, children := [] } pn
    { data := some d, parent := some cur, children := [] } cur hcur
  refine ⟨⟨?_, ?_⟩, ?_, h.root, ?_, ?_⟩
  · intro p pn1 hp c hc
    simp only [key] at hp ⊢
    split at hp
    · rename_i hpc
      cases hp
      subst hpc
      simp only [List.mem_append, List.mem_singleton] at hc
      rcases hc with hc | hc
      · obtain ⟨cn, dd, h2, h3, h4⟩ := h.linked.child p pn hcur c hc
        have h5 := h.linked.parent c cn p h2 h3
        have h6 := getElem?_lt h2
        rw [if_neg (by omega), if_neg (by omega)]
        exact ⟨cn, dd, h2, h3, h4⟩
      · subst hc
        rw [if_neg (by omega), if_pos rfl]
        exact ⟨_, d, rfl, rfl, rfl⟩
    · split at hp
      · cases hp
        simp at hc
      · obtain ⟨cn, dd, h2, h3, h4⟩ := h.linked.child p pn1 hp c hc
        have h6 := getElem?_lt h2
        by_cases hcc : c = cur
        · subst hcc
          rw [if_pos rfl]
          rw [hcur] at h2
          cases h2
          exact ⟨_, dd, rfl, h3, h4⟩
        · rw [if_neg hcc, if_neg (by omega)]
          exact ⟨cn, dd, h2, h3, h4⟩
  · intro c cn p hc hp
    simp only [key] at hc
    split at hc
    · rename_i hcc
      cases hc
      subst hcc
      exact h.linked.parent c pn p hcur hp
    · split at hc
      · rename_i hcl
        cases hc
        simp at hp
        omega
      · exact h.linked.parent c cn p hc hp
  · intro c hc
    simp at hc ⊢
    omega
  · obtain ⟨rn, h1, h2, h3⟩ := h.rootNode
    simp only [key]
    by_cases h0 : 0 = cur
    · subst h0
      rw [if_pos rfl]
      rw [hcur] at h1
      cases h1
      exact ⟨_, rfl, h2, h3⟩
    · rw [if_neg h0, if_neg (by omega)]
      exact ⟨rn, h1, h2, h3⟩
  · intro i n hi hpos
    simp only [key] at hi
    split at hi
    · rename_i hic
      cases hi
      subst hic
      exact h.elems i pn hcur hpos
    · split at hi
      · cases hi
        exact ⟨d, rfl⟩
      · exact h.elems i n hi hpos

theorem Inv_start (priv priv1 : CdDomPrivate) (h : Inv priv) (name : GStr) (ks vs : List GStr)
    (hs : cd_dom_start_element_cb priv name ks vs = some priv1) : Inv priv1 := by
  cases hc : priv.current with
  | none =>
    rw [start_element_none priv name ks vs hc] at hs
    cases hs
    exact Inv_start_none priv h _
  | some cur =>
    have hlt := h.cur cur hc
    have hcur : priv.heap[cur]? = some priv.heap[cur] := List.getElem?_eq_getElem hlt
    rw [start_element_some priv name ks vs cur _ hc hcur] at hs
    cases hs
    exact Inv_start_some priv h _ cur _ hcur

theorem text_loop_le (text : List Char) (i : Nat) :
    cd_dom_text_cb.loop text i ≤ i + text.length := by
  induction text generalizing i with
  | nil => simp [cd_dom_text_cb.loop]
  | cons c rest ih =>
    simp only [cd_dom_text_cb.loop, List.length_cons]
    split
    · omega
    · have := ih (i + 1)
      omega

theorem text_loop_ge_iff (text : List Char) (i : Nat) :
    cd_dom_text_cb.loop text i ≥ i + text.length ↔ hasNonBlank text = false := by
  induction text generalizing i with
  | nil => simp [cd_dom_text_cb.loop, hasNonBlank]
  | cons c rest ih =>
    simp only [cd_dom_text_cb.loop, List.length_cons]
    by_cases hc : c ≠ ' ' ∧ c ≠ '\n' ∧ c ≠ '\t'
    · rw [if_pos hc]
      obtain ⟨h1, h2, h3⟩ := hc
      simp [hasNonBlank, h1, h2, h3]
    · rw [if_neg hc]
      have := ih (i + 1)
      have e : i + 1 + rest.length = i + (rest.length + 1) := by omega
      rw [e] at this
      rw [this]
      have hc1 : c = ' ' ∨ c = '\t' ∨ c = '\n' := by
        by_contra hn
        push_neg at hn
        exact hc ⟨hn.1, hn.2.2, hn.2.1⟩
      simp only [hasNonBlank, List.any_cons]
      rcases hc1 with h | h | h <;> simp [h]

theorem text_cb_blank (priv : CdDomPrivate) (text : GStr) (h : hasNonBlank text = false) :
    cd_dom_text_cb priv text = some priv := by
  unfold cd_dom_text_cb
  simp only
  split
  · rfl
  · have := (text_loop_ge_iff text 0).2 h
    rw [if_pos (by omega)]

theorem text_cb_nonblank (priv : CdDomPrivate) (text : GStr) (h : hasNonBlank text = true) :
    cd_dom_text_cb priv text =
      match priv.current with
      | none => none
      | some cur =>
        match priv.heap[cur]? with
        | none => none
        | some n =>
          match n.data with
          | none => none
          | some data =>
            some { priv with
              heap := priv.heap.set cur
                { n with data := some { data with cdata := data.cdata ++ text } } } := by
  unfold cd_dom_text_cb
  simp only
  have hne : text.length ≠ 0 := by
    intro h0
    have : text = [] := List.length_eq_zero.1 h0
    subst this
    simp [hasNonBlank] at h
  have hlt : ¬ cd_dom_text_cb.loop text 0 ≥ text.length := by
    intro hge
    have := (text_loop_ge_iff text 0).1 (by omega)
    rw [this] at h
    cases h
  rw [if_neg hne, if_neg hlt]

theorem Inv_set_data (priv : CdDomPrivate) (h : Inv priv) (cur : Nat) (n : GNode)
    (d d1 : CdDomNodeData) (hcur : priv.heap[cur]? = some n) (hd : n.data = some d) :
    Inv { priv with heap := priv.heap.set cur { n with data := some d1 } } := by
  have hlt := getElem?_lt hcur
  have key : ∀ i : Nat, (priv.heap.set cur { n with data := some d1 })[i]?
      = if i = cur then some { n with data := some d1 } else priv.heap[i]? := by
    intro i
    rw [List.getElem?_set]
    by_cases hi : cur = i
    · subst hi
      simp [hlt]
    · rw [if_neg hi, if_neg (Ne.symm hi)]
  refine ⟨⟨?_, ?_⟩, ?_, h.root, ?_, ?_⟩
  · intro p pn hp c hc
    simp only [key] at hp ⊢
    have hp1 : ∃ pn0 : GNode, priv.heap[p]? = some pn0 ∧ pn0.children = pn.children := by
      split at hp
      · rename_i hpc
        cases hp
        exact ⟨n, hpc ▸ hcur, rfl⟩
      · exact ⟨pn, hp, rfl⟩
    obtain ⟨pn0, h1, h2⟩ := hp1
    obtain ⟨cn, dd, h3, h4, h5⟩ := h.linked.child p pn0 h1 c (h2 ▸ hc)
    by_cases hcc : c = cur
    · subst hcc
      rw [if_pos rfl]
      rw [hcur] at h3
      cases h3
      exact ⟨_, d1, rfl, h4, rfl⟩
    · rw [if_neg hcc]
      exact ⟨cn, dd, h3, h4, h5⟩
  · intro c cn p hc hp
    simp only [key] at hc
    split at hc
    · rename_i hcc
      cases hc
      subst hcc
      exact h.linked.parent c n p hcur hp
    · exact h.linked.parent c cn p hc hp
  · intro c hc
    simp only [List.length_set]
    exact h.cur c hc
  · obtain ⟨rn, h1, h2, h3⟩ := h.rootNode
    simp only [key]
    by_cases h0 : 0 = cur
    · subst h0
      rw [hcur] at h1
      cases h1
      rw [hd] at h2
      cases h2
    · rw [if_neg h0]
      exact ⟨rn, h1, h2, h3⟩
  · intro i n1 hi hpos
    simp only [key] at hi
    split at hi
    · cases hi
      exact ⟨d1, rfl⟩
    · exact h.elems i n1 hi hpos

theorem Inv_text (priv priv1 : CdDomPrivate) (h : Inv priv) (text : GStr)
    (hs : cd_dom_text_cb priv text = some priv1) : Inv priv1 := by
  cases hb : hasNonBlank text with
  | false =>
    rw [text_cb_blank priv text hb] at hs
    cases hs
    exact h
  | true =>
    rw [text_cb_nonblank priv text hb] at hs
    cases hc : priv.current with
    | none => simp [hc] at hs
    | some cur =>
      cases hn : priv.heap[cur]? with
      | none => simp [hc, hn] at hs
      | some n =>
        cases hd : n.data with
        | none => simp [hc, hn, hd] at hs
        | some data =>
          simp only [hc, hn, hd] at hs
          cases hs
          have := Inv_set_data priv h cur n data
            { data with cdata := data.cdata ++ text } hn hd
          rw [hc] at this
          exact this

theorem Inv_end (priv priv1 : CdDomPrivate) (h : Inv priv) (name : GStr)
    (hs : cd_dom_end_element_cb priv name = some priv1) : Inv priv1 := by
  unfold cd_dom_end_element_cb at hs
  cases hc : priv.current with
  | none => simp [hc] at hs
  | some cur =>
    cases hn : priv.heap[cur]? with
    | none => simp [hc, hn] at hs
    | some n =>
      simp only [hc, hn] at hs
      cases hs
      refine ⟨h.linked, ?_, h.root, h.rootNode, h.elems⟩
      intro c hc1
      have h1 := h.linked.parent cur n c hn hc1
      have h2 := getElem?_lt hn
      show c < priv.heap.length
      omega

theorem Inv_event (priv priv1 : CdDomPrivate) (h : Inv priv) (e : GMarkupEvent)
    (hs : parser priv e = some priv1) : Inv priv1 := by
  cases e with
  | start_element n ks vs => exact Inv_start priv priv1 h n ks vs hs
  | end_element n => exact Inv_end priv priv1 h n hs
  | text t => exact Inv_text priv priv1 h t hs

theorem Inv_parse (events : List GMarkupEvent) (priv priv1 : CdDomPrivate) (h : Inv priv)
    (hs : g_markup_parse_context_parse priv events = some priv1) : Inv priv1 := by
  induction events generalizing priv with
  | nil =>
    simp only [g_markup_parse_context_parse] at hs
    cases hs
    exact h
  | cons e rest ih =>
    simp only [g_markup_parse_context_parse] at hs
    split at hs
    · cases hs
    · rename_i p2 hp2
      exact ih p2 (Inv_event priv p2 h e hp2) hs

theorem Inv_childrenHaveData (priv : CdDomPrivate) (h : Inv priv) :
    childrenHaveData priv.heap = true := by
  rw [childrenHaveData_iff]
  intro p n hp c hc
  obtain ⟨cn, d, h1, _, h3⟩ := h.linked.child p n hp c hc
  exact ⟨cn, d, h1, h3⟩

/-! ### Lemmas: parent chains -/

theorem Walk.le {heap : List GNode} {start : Nat} {cs : List Nat} {n : Nat}
    (w : Walk heap start cs n) : start + cs.length ≤ n := by
  induction w with
  | nil => simp
  | snoc _ _ _ hlt ih =>
    simp only [List.length_append, List.length_singleton]
    omega

theorem Walk.length_le {heap : List GNode} {start : Nat} {cs : List Nat} {n : Nat}
    (w : Walk heap start cs n) : cs.length ≤ heap.length := by
  have h1 := w.le
  cases w with
  | nil => simp
  | snoc _ hc _ _ =>
    have := getElem?_lt hc
    omega

theorem parentChain_walk {heap : List GNode} {start : Nat} {cs : List Nat} {n : Nat}
    (w : Walk heap start cs n) (fuel : Nat) (acc : List Nat) (hf : cs.length ≤ fuel) :
    parentChain heap start fuel n acc = some (cs ++ acc) := by
  induction w generalizing fuel acc with
  | nil => cases fuel <;> simp [parentChain]
  | @snoc cs p c cn w1 hc hp hlt ih =>
    have hle := w1.le
    have hne : c ≠ start := by omega
    simp only [List.length_append, List.length_singleton] at hf
    cases fuel with
    | zero => omega
    | succ f =>
      simp only [parentChain, if_neg hne, hc, hp]
      rw [ih f (c :: acc) (by omega)]
      simp

theorem get_child_loop_some (heap : List GNode) (name : GStr) (cs : List Nat) (c : Nat)
    (h : cd_dom_get_child_node.loop heap name cs = some c) :
    c ∈ cs ∧ cd_dom_get_node_name heap c = some name := by
  induction cs with
  | nil => simp [cd_dom_get_child_node.loop] at h
  | cons x rest ih =>
    simp only [cd_dom_get_child_node.loop] at h
    cases hx : heap[x]? with
    | none => simp [hx] at h
    | some xn =>
      cases hd : xn.data with
      | none => simp [hx, hd] at h
      | some d =>
        simp only [hx, hd] at h
        by_cases hn : d.name = name
        · rw [if_pos hn] at h
          cases h
          exact ⟨List.mem_cons_self _ _, by simp [cd_dom_get_node_name, hx, hd, hn]⟩
        · rw [if_neg hn] at h
          exact ⟨List.mem_cons_of_mem _ (ih h).1, (ih h).2⟩

theorem get_child_node_some (heap : List GNode) (hl : Linked heap) (node : Nat) (name : GStr)
    (c : Nat) (h : cd_dom_get_child_node heap node name = some c) :
    node < c ∧ cd_dom_get_node_name heap c = some name ∧
      ∃ cn : GNode, heap[c]? = some cn ∧ cn.parent = some node := by
  unfold cd_dom_get_child_node at h
  cases hn : heap[node]? with
  | none => simp [hn] at h
  | some n =>
    simp only [hn] at h
    obtain ⟨h1, h2⟩ := get_child_loop_some heap name n.children c h
    obtain ⟨cn, _, h3, h4, _⟩ := hl.child node n hn c h1
    exact ⟨hl.parent c cn node h3 h4, h2, cn, h3, h4⟩

theorem get_node_loop_walk (heap : List GNode) (hl : Linked heap) (start : Nat)
    (segs : List GStr) (cs : List Nat) (node n : Nat) (w : Walk heap start cs node)
    (h : cd_dom_get_node.loop heap segs node = some n) :
    ∃ cs1 : List Nat, Walk heap start (cs ++ cs1) n ∧ namesOf heap cs1 = some segs := by
  induction segs generalizing cs node with
  | nil =>
    simp only [cd_dom_get_node.loop] at h
    cases h
    exact ⟨[], by simpa using w, rfl⟩
  | cons s rest ih =>
    simp only [cd_dom_get_node.loop] at h
    cases hc : cd_dom_get_child_node heap node s with
    | none => simp [hc] at h
    | some next =>
      simp only [hc] at h
      obtain ⟨h1, h2, cn, h3, h4⟩ := get_child_node_some heap hl node s next hc
      obtain ⟨cs2, w2, hn2⟩ := ih (cs ++ [next]) next (Walk.snoc w h3 h4 h1) h
      refine ⟨next :: cs2, by simpa using w2, ?_⟩
      simp [namesOf, h2, hn2]

theorem cd_dom_get_node_eq_loop (priv : CdDomPrivate) (root : Option Nat) (path : GStr) :
    cd_dom_get_node priv root path
      = cd_dom_get_node.loop priv.heap (g_strsplit path '/') (root.getD priv.root) := by
  cases root <;> rfl

theorem intercalate_g_strsplit (path : GStr) :
    ['/'].intercalate (g_strsplit path '/') = path := by
  rw [g_strsplit_eq_pathSegments]
  unfold pathSegments
  split
  · rename_i h
    subst h
    rfl
  · exact List.intercalate_splitOn path '/'

/-! ### Lemmas: the open elements -/

theorem OpenChain_mono (heap heap1 : List GNode) (root : Nat)
    (hk : ∀ (i : Nat) (n : GNode), heap[i]? = some n →
      ∃ n1 : GNode, heap1[i]? = some n1 ∧ n1.parent = n.parent)
    (stack : List Nat) (h : OpenChain heap root stack) : OpenChain heap1 root stack := by
  induction stack with
  | nil => trivial
  | cons c rest ih =>
    obtain ⟨h1, ⟨cn, h2, h3⟩, h4⟩ := h
    obtain ⟨n1, h5, h6⟩ := hk c cn h2
    exact ⟨h1, ⟨n1, h5, h6 ▸ h3⟩, ih h4⟩

theorem parser_total (priv : CdDomPrivate) (hinv : Inv priv) (stack : List Nat)
    (hcur : priv.current = some (stack.headD priv.root))
    (hch : OpenChain priv.heap priv.root stack) (e : GMarkupEvent) (rest : List GMarkupEvent)
    (hw : wellNested stack.length (e :: rest) = true)
    (ht : textInsideElements stack.length (e :: rest) = true) :
    ∃ (priv1 : CdDomPrivate) (stack1 : List Nat), parser priv e = some priv1 ∧
      priv1.root = priv.root ∧
      priv1.current = some (stack1.headD priv1.root) ∧
      OpenChain priv1.heap priv1.root stack1 ∧
      wellNested stack1.length rest = true ∧
      textInsideElements stack1.length rest = true ∧
      openDepth stack.length (e :: rest) = openDepth stack1.length rest := by
  have hlt := hinv.cur _ hcur
  have hnode : priv.heap[stack.headD priv.root]? = some priv.heap[stack.headD priv.root] :=
    List.getElem?_eq_getElem hlt
  cases e with
  | start_element name ks vs =>
    simp only [wellNested] at hw
    simp only [textInsideElements] at ht
    have key := start_heap_getElem? priv.heap
      { data := some ⟨name, [], cd_dom_start_element_cb.attrs ks vs []⟩,
        parent := none, children := [] } priv.heap[stack.headD priv.root]
      { data := some ⟨name, [], cd_dom_start_element_cb.attrs ks vs []⟩,
        parent := some (stack.headD priv.root), children := [] } _ hnode
    refine ⟨_, priv.heap.length :: stack,
      start_element_some priv name ks vs _ _ hcur hnode, rfl, rfl, ?_, hw, ht, rfl⟩
    refine ⟨by omega, ⟨GNode.mk (some ⟨name, [], cd_dom_start_element_cb.attrs ks vs []⟩)
      (some (stack.headD priv.root)) [], ?_, rfl⟩, ?_⟩
    · show (_ : List GNode)[priv.heap.length]? = _
      rw [key, if_neg (by omega), if_pos rfl]
    · refine OpenChain_mono priv.heap _ priv.root ?_ stack hch
      intro i n hi
      have hil := getElem?_lt hi
      rw [key]
      by_cases hic : i = stack.headD priv.root
      · rw [if_pos hic]
        subst hic
        rw [hnode] at hi
        cases hi
        exact ⟨_, rfl, rfl⟩
      · rw [if_neg hic, if_neg (by omega)]
        exact ⟨n, hi, rfl⟩
  | end_element name =>
    cases stack with
    | nil => simp [wellNested] at hw
    | cons c tl =>
      obtain ⟨_, ⟨cn, h2, h3⟩, h4⟩ := hch
      simp only [List.headD_cons] at hcur
      simp only [wellNested, List.length_cons, Nat.add_sub_cancel, Bool.and_eq_true] at hw
      simp only [textInsideElements, List.length_cons, Nat.add_sub_cancel] at ht
      refine ⟨{ priv with current := some (tl.headD priv.root) }, tl, ?_, rfl, rfl, h4,
        hw.2, ht, by simp [openDepth]⟩
      simp [parser, cd_dom_end_element_cb, hcur, h2, h3]
  | text t =>
    simp only [wellNested] at hw
    simp only [textInsideElements, Bool.and_eq_true] at ht
    cases hb : hasNonBlank t with
    | false =>
      refine ⟨priv, stack, ?_, rfl, hcur, hch, hw, ht.2, by simp [openDepth]⟩
      simp [parser, text_cb_blank priv t hb]
    | true =>
      cases stack with
      | nil => simp [hb] at ht
      | cons c tl =>
        obtain ⟨hpos, ⟨cn, h2, h3⟩, h4⟩ := hch
        simp only [List.headD_cons] at hcur
        obtain ⟨d, hd⟩ := hinv.elems c cn h2 hpos
        refine ⟨CdDomPrivate.mk (priv.heap.set c (GNode.mk (some (CdDomNodeData.mk d.name
            (d.cdata ++ t) d.attributes)) cn.parent cn.children)) priv.root priv.current,
          c :: tl, ?_, rfl, by simpa using hcur, ?_, hw, ht.2, by simp [openDepth]⟩
        · simp [parser, text_cb_nonblank priv t hb, hcur, h2, hd]
        · refine OpenChain_mono priv.heap _ priv.root ?_ (c :: tl)
            ⟨hpos, ⟨cn, h2, h3⟩, h4⟩
          intro i n hi
          rw [List.getElem?_set]
          by_cases hic : c = i
          · subst hic
            rw [h2] at hi
            cases hi
            simp [getElem?_lt h2]
          · rw [if_neg hic]
            exact ⟨n, hi, rfl⟩

theorem parse_total (events : List GMarkupEvent) (priv : CdDomPrivate) (hinv : Inv priv)
    (stack : List Nat) (hcur : priv.current = some (stack.headD priv.root))
    (hch : OpenChain priv.heap priv.root stack)
    (hw : wellNested stack.length events = true)
    (ht : textInsideElements stack.length events = true) :
    ∃ (priv1 : CdDomPrivate) (stack1 : List Nat),
      g_markup_parse_context_parse priv events = some priv1 ∧
      priv1.root = priv.root ∧
      priv1.current = some (stack1.headD priv1.root) ∧
      OpenChain priv1.heap priv1.root stack1 ∧
      stack1.length = openDepth stack.length events := by
  induction events generalizing priv stack with
  | nil => exact ⟨priv, stack, rfl, rfl, hcur, hch, rfl⟩
  | cons e rest ih =>
    obtain ⟨p1, s1, h1, h2, h3, h4, h5, h6, h7⟩ :=
      parser_total priv hinv stack hcur hch e rest hw ht
    obtain ⟨p2, s2, g1, g2, g3, g4, g5⟩ :=
      ih p1 (Inv_event priv p1 hinv e h1) s1 h3 h4 h5 h6
    refine ⟨p2, s2, ?_, g2.trans h2, g3, g4, by rw [g5, h7]⟩
    simp only [g_markup_parse_context_parse, h1]
    exact g1

/-! ### Lemmas: accumulated text -/

theorem textOf_start (priv priv1 : CdDomPrivate) (hinv : Inv priv) (name : GStr)
    (ks vs : List GStr) (h : cd_dom_start_element_cb priv name ks vs = some priv1) (node : Nat) :
    textOf priv1.heap node = textOf priv.heap node := by
  cases hc : priv.current with
  | none =>
    rw [start_element_none priv name ks vs hc] at h
    cases h
    simp only [textOf, cd_dom_get_node_data]
    by_cases hlt : node < priv.heap.length
    · rw [List.getElem?_append_left hlt]
    · by_cases he : node = priv.heap.length
      · subst he
        simp
      · rw [List.getElem?_eq_none (by simp; omega), List.getElem?_eq_none (by omega)]
  | some cur =>
    have hlt := hinv.cur cur hc
    have hcur : priv.heap[cur]? = some priv.heap[cur] := List.getElem?_eq_getElem hlt
    rw [start_element_some priv name ks vs cur _ hc hcur] at h
    cases h
    simp only [textOf, cd_dom_get_node_data, start_heap_getElem? priv.heap _ _ _ cur hcur]
    by_cases h1 : node = cur
    · rw [if_pos h1, h1, hcur]
    · rw [if_neg h1]
      by_cases h2 : node = priv.heap.length
      · rw [if_pos h2, h2, List.getElem?_eq_none (Nat.le_refl _)]
        rfl
      · rw [if_neg h2]

theorem textOf_text (priv priv1 : CdDomPrivate) (t : GStr)
    (h : cd_dom_text_cb priv t = some priv1) (node : Nat) :
    textOf priv1.heap node = textOf priv.heap node ++
      (if priv.current = some node ∧ hasNonBlank t = true then t else []) := by
  cases hb : hasNonBlank t with
  | false =>
    rw [text_cb_blank priv t hb] at h
    cases h
    simp
  | true =>
    rw [text_cb_nonblank priv t hb] at h
    cases hc : priv.current with
    | none => simp [hc] at h
    | some cur =>
      cases hn : priv.heap[cur]? with
      | none => simp [hc, hn] at h
      | some n =>
        cases hd : n.data with
        | none => simp [hc, hn, hd] at h
        | some data =>
          simp only [hc, hn, hd] at h
          cases h
          have hlt := getElem?_lt hn
          by_cases he : cur = node
          · subst he
            simp [textOf, cd_dom_get_node_data, hn, hd, hlt]
          · have he1 : ¬ (some cur = some node) := fun hh => he (Option.some.inj hh)
            simp [textOf, cd_dom_get_node_data, List.getElem?_set_ne he, he]

theorem textOf_event (priv priv1 : CdDomPrivate) (hinv : Inv priv) (e : GMarkupEvent)
    (h : parser priv e = some priv1) (node : Nat) (rest : List GMarkupEvent) :
    textOf priv.heap node ++ deliveredTo node priv (e :: rest)
      = textOf priv1.heap node ++ deliveredTo node priv1 rest := by
  cases e with
  | start_element name ks vs =>
    simp only [deliveredTo, deliveredBy, h, List.nil_append]
    rw [textOf_start priv priv1 hinv name ks vs h node]
  | end_element name =>
    simp only [deliveredTo, deliveredBy, h, List.nil_append]
    unfold parser cd_dom_end_element_cb at h
    cases hc : priv.current with
    | none => simp [hc] at h
    | some cur =>
      cases hn : priv.heap[cur]? with
      | none => simp [hc, hn] at h
      | some n =>
        simp only [hc, hn] at h
        cases h
        rfl
  | text t =>
    simp only [deliveredTo, deliveredBy, h]
    rw [textOf_text priv priv1 t h node, List.append_assoc]

theorem textOf_parse (events : List GMarkupEvent) (priv priv1 : CdDomPrivate) (hinv : Inv priv)
    (h : g_markup_parse_context_parse priv events = some priv1) (node : Nat) :
    textOf priv1.heap node = textOf priv.heap node ++ deliveredTo node priv events := by
  induction events generalizing priv with
  | nil =>
    simp only [g_markup_parse_context_parse] at h
    cases h
    simp [deliveredTo]
  | cons e rest ih =>
    simp only [g_markup_parse_context_parse] at h
    cases hp : parser priv e with
    | none => simp [hp] at h
    | some p1 =>
      simp only [hp] at h
      rw [textOf_event priv p1 hinv e hp node rest]
      exact ih p1 (Inv_event priv p1 hinv e hp) h

theorem hasNonBlank_append (a b : GStr) :
    hasNonBlank (a ++ b) = (hasNonBlank a || hasNonBlank b) := by
  simp [hasNonBlank, List.any_append]

theorem deliveredBy_nonBlank (node : Nat) (priv : CdDomPrivate) (e : GMarkupEvent)
    (h : deliveredBy node priv e ≠ []) : hasNonBlank (deliveredBy node priv e) = true := by
  cases e with
  | start_element _ _ _ => exact absurd rfl h
  | end_element _ => exact absurd rfl h
  | text t =>
    simp only [deliveredBy] at h ⊢
    by_cases hc : priv.current = some node ∧ hasNonBlank t = true
    · rw [if_pos hc]
      exact hc.2
    · rw [if_neg hc] at h
      exact absurd rfl h

theorem deliveredTo_nonBlank (node : Nat) (events : List GMarkupEvent) (priv : CdDomPrivate)
    (h : deliveredTo node priv events ≠ []) :
    hasNonBlank (deliveredTo node priv events) = true := by
  induction events generalizing priv with
  | nil => simp [deliveredTo] at h
  | cons e rest ih =>
    simp only [deliveredTo] at h ⊢
    cases hp : parser priv e with
    | none =>
      simp only [hp] at h ⊢
      exact deliveredBy_nonBlank node priv e h
    | some p1 =>
      simp only [hp] at h ⊢
      rw [hasNonBlank_append]
      by_cases h1 : deliveredBy node priv e = []
      · rw [h1] at h ⊢
        simp only [List.nil_append] at h
        simp [ih p1 h]
      · simp [deliveredBy_nonBlank node priv e h1]

theorem get_node_data_eq_textOf (priv : CdDomPrivate) (hinv : Inv priv) (node : Nat)
    (h0 : node ≠ priv.root) (hlt : node < priv.heap.length) :
    cd_dom_get_node_data priv.heap node = some (textOf priv.heap node) := by
  have hn : priv.heap[node]? = some priv.heap[node] := List.getElem?_eq_getElem hlt
  have hr := hinv.root
  obtain ⟨d, hd⟩ := hinv.elems node _ hn (by omega)
  simp [textOf, cd_dom_get_node_data, hn, hd]

theorem get_node_data_root (priv : CdDomPrivate) (hinv : Inv priv) :
    cd_dom_get_node_data priv.heap priv.root = none := by
  obtain ⟨rn, h1, h2, _⟩ := hinv.rootNode
  simp [cd_dom_get_node_data, hinv.root, h1, h2]

/-! ### Lemmas: integer conversion -/

theorem isDigit_lt (c : Char) (h : c.isDigit = true) : c.toNat - '0'.toNat < 10 := by
  simp only [Char.isDigit, Bool.and_eq_true, decide_eq_true_eq] at h
  have h1 : c.toNat ≤ 57 := h.2
  have : '0'.toNat = 48 := rfl
  omega

theorem foldl_digits_ge (ds : List Char) (acc : Nat) :
    acc ≤ ds.foldl (fun a c => a * 10 + (c.toNat - '0'.toNat)) acc := by
  induction ds generalizing acc with
  | nil => simp
  | cons c rest ih =>
    simp only [List.foldl_cons]
    have := ih (acc * 10 + (c.toNat - '0'.toNat))
    omega

theorem parse_loop_digits (ds rest : List Char) (acc : Nat) (ovf : Bool)
    (hd : ∀ c ∈ ds, c.isDigit = true)
    (hr : ∀ c : Char, rest.head? = some c → c.isDigit = false)
    (hacc : acc ≤ G_MAXUINT64) :
    ∃ x : Nat, g_parse_long_long.loop (ds ++ rest) acc ovf
        = (x, ovf || decide (G_MAXUINT64 <
            ds.foldl (fun a c => a * 10 + (c.toNat - '0'.toNat)) acc), rest) ∧
      (ds.foldl (fun a c => a * 10 + (c.toNat - '0'.toNat)) acc ≤ G_MAXUINT64 →
        x = ds.foldl (fun a c => a * 10 + (c.toNat - '0'.toNat)) acc) := by
  induction ds generalizing acc ovf with
  | nil =>
    refine ⟨acc, ?_, fun _ => rfl⟩
    have hno : decide (G_MAXUINT64 < acc) = false := by simp; omega
    simp only [List.nil_append, List.foldl_nil, hno, Bool.or_false]
    cases rest with
    | nil => rfl
    | cons c r =>
      have := hr c rfl
      simp [g_parse_long_long.loop, this]
  | cons c ds ih =>
    have hc := hd c (List.mem_cons_self _ _)
    have hlt := isDigit_lt c hc
    have hd1 : ∀ x ∈ ds, x.isDigit = true := fun x hx => hd x (List.mem_cons_of_mem _ hx)
    have hM : G_MAXUINT64 = 18446744073709551615 := by decide
    have e : (c :: ds) ++ rest = c :: (ds ++ rest) := rfl
    rw [e]
    simp only [g_parse_long_long.loop, hc, if_true, List.foldl_cons]
    by_cases hov : acc > G_MAXUINT64 / 10 ∨
        (acc = G_MAXUINT64 / 10 ∧ c.toNat - '0'.toNat > G_MAXUINT64 % 10)
    · rw [if_pos hov]
      obtain ⟨x, h1, _⟩ := ih acc true hd1 hacc
      have hge := foldl_digits_ge ds (acc * 10 + (c.toNat - '0'.toNat))
      have hbig : G_MAXUINT64 < acc * 10 + (c.toNat - '0'.toNat) := by
        rw [hM] at hov ⊢
        omega
      refine ⟨x, ?_, fun hle => by omega⟩
      rw [h1]
      have : decide (G_MAXUINT64 <
          ds.foldl (fun a c => a * 10 + (c.toNat - '0'.toNat))
            (acc * 10 + (c.toNat - '0'.toNat))) = true := by
        simp only [decide_eq_true_eq]
        omega
      rw [this]
      simp
    · rw [if_neg hov]
      have hsmall : acc * 10 + (c.toNat - '0'.toNat) ≤ G_MAXUINT64 := by
        rw [hM] at hov ⊢
        omega
      exact ih (acc * 10 + (c.toNat - '0'.toNat)) ovf hd1 hsmall

theorem parse_skip_spaces (ws body : List Char) (hws : ∀ c ∈ ws, ISSPACE c = true)
    (hb : ∀ c : Char, body.head? = some c → ISSPACE c = false) :
    g_parse_long_long.skip (ws ++ body) = body := by
  induction ws with
  | nil =>
    cases body with
    | nil => rfl
    | cons c r => simp [g_parse_long_long.skip, hb c rfl]
  | cons w ws ih =>
    simp only [List.cons_append, g_parse_long_long.skip, hws w (List.mem_cons_self _ _), if_true]
    exact ih fun c hc => hws c (List.mem_cons_of_mem _ hc)

theorem isDigit_not_special (c : Char) (h : c.isDigit = true) :
    c ≠ '-' ∧ c ≠ '+' ∧ ISSPACE c = false := by
  refine ⟨?_, ?_, ?_⟩
  · rintro rfl; revert h; decide
  · rintro rfl; revert h; decide
  · simp only [Char.isDigit, Bool.and_eq_true, decide_eq_true_eq] at h
    have h1 : 48 ≤ c.toNat := h.1
    have h2 : c.toNat ≤ 57 := h.2
    have hne : ∀ k : Char, k.toNat < 48 → c ≠ k := by
      rintro k hk rfl
      omega
    simp [ISSPACE, hne ' ' (by decide), hne '\x0c' (by decide), hne '\n' (by decide),
      hne '\r' (by decide), hne '\t' (by decide), hne '\x0b' (by decide)]

theorem g_parse_long_long_literal (ws sg ds rest : List Char)
    (hws : ∀ c ∈ ws, ISSPACE c = true) (hsg : sg = [] ∨ sg = ['-'] ∨ sg = ['+'])
    (hne : ds ≠ []) (hd : ∀ c ∈ ds, c.isDigit = true)
    (hr : ∀ c : Char, rest.head? = some c → c.isDigit = false) :
    g_parse_long_long (ws ++ sg ++ ds ++ rest)
      = (saturate64 (digitsValue ds), decide (sg = ['-']), rest) := by
  obtain ⟨d0, dtl, rfl⟩ := List.exists_cons_of_ne_nil hne
  have hd0 := hd d0 (List.mem_cons_self _ _)
  obtain ⟨n1, n2, n3⟩ := isDigit_not_special d0 hd0
  obtain ⟨x, hx, hxv⟩ := parse_loop_digits (d0 :: dtl) rest 0 false hd hr (by decide)
  have hlen : rest.length ≠ ((d0 :: dtl) ++ rest).length := by
    simp only [List.length_append, List.length_cons]
    omega
  have hfin : (if (x, false || decide (G_MAXUINT64 <
        (d0 :: dtl).foldl (fun a c => a * 10 + (c.toNat - '0'.toNat)) 0), rest).2.1 = true
      then (G_MAXUINT64, decide (sg = ['-']), rest)
      else (x, decide (sg = ['-']), rest))
      = (saturate64 (digitsValue (d0 :: dtl)), decide (sg = ['-']), rest) := by
    unfold saturate64 digitsValue
    by_cases hle : (d0 :: dtl).foldl (fun a c => a * 10 + (c.toNat - '0'.toNat)) 0
        ≤ G_MAXUINT64
    · have : ¬ G_MAXUINT64 <
          (d0 :: dtl).foldl (fun a c => a * 10 + (c.toNat - '0'.toNat)) 0 := by omega
      simp only [Bool.false_or, decide_eq_true_eq, if_neg this, if_pos hle, hxv hle]
    · have : G_MAXUINT64 <
          (d0 :: dtl).foldl (fun a c => a * 10 + (c.toNat - '0'.toNat)) 0 := by omega
      simp only [Bool.false_or, decide_eq_true_eq, if_pos this, if_neg hle]
  unfold g_parse_long_long
  rcases hsg with h | h | h
  · subst h
    have hskip : g_parse_long_long.skip (ws ++ [] ++ (d0 :: dtl) ++ rest)
        = d0 :: (dtl ++ rest) := by
      have := parse_skip_spaces ws (d0 :: (dtl ++ rest)) hws (by
        intro c hc
        simp at hc
        subst hc
        exact n3)
      simpa using this
    rw [hskip]
    simp only [n1, n2, or_self, if_false]
    have e : d0 :: (dtl ++ rest) = (d0 :: dtl) ++ rest := rfl
    rw [e, hx, if_neg hlen]
    simpa using hfin
  · subst h
    have hskip : g_parse_long_long.skip (ws ++ ['-'] ++ (d0 :: dtl) ++ rest)
        = '-' :: ((d0 :: dtl) ++ rest) := by
      have := parse_skip_spaces ws ('-' :: ((d0 :: dtl) ++ rest)) hws (by
        intro c hc
        simp at hc
        subst hc
        decide)
      simpa using this
    rw [hskip]
    simp only [true_or, if_true]
    rw [hx, if_neg hlen]
    simpa using hfin
  · subst h
    have hskip : g_parse_long_long.skip (ws ++ ['+'] ++ (d0 :: dtl) ++ rest)
        = '+' :: ((d0 :: dtl) ++ rest) := by
      have := parse_skip_spaces ws ('+' :: ((d0 :: dtl) ++ rest)) hws (by
        intro c hc
        simp at hc
        subst hc
        decide)
      simpa using this
    rw [hskip]
    simp only [or_true, if_true]
    rw [hx, if_neg hlen]
    simpa using hfin

theorem g_ascii_strtoll_literal (ws sg ds rest : List Char)
    (hws : ∀ c ∈ ws, ISSPACE c = true) (hsg : sg = [] ∨ sg = ['-'] ∨ sg = ['+'])
    (hne : ds ≠ []) (hd : ∀ c ∈ ds, c.isDigit = true)
    (hr : ∀ c : Char, rest.head? = some c → c.isDigit = false) :
    g_ascii_strtoll (ws ++ sg ++ ds ++ rest)
      = (if literalValue sg ds < G_MININT64 then G_MININT64
         else if G_MAXINT64 < literalValue sg ds then G_MAXINT64
         else literalValue sg ds, rest) := by
  unfold g_ascii_strtoll
  rw [g_parse_long_long_literal ws sg ds rest hws hsg hne hd hr]
  simp only [decide_eq_true_eq]
  have hM : G_MAXUINT64 = 18446744073709551615 := by decide
  have hA : G_MAXINT64 = 9223372036854775807 := by decide
  have hI : G_MININT64 = -9223372036854775808 := by decide
  have hp : (2 : Nat) ^ 63 = 9223372036854775808 := by norm_num
  unfold literalValue saturate64
  rw [hM, hA, hI, hp]
  generalize digitsValue ds = V
  by_cases hneg : sg = ['-']
  · simp only [hneg, true_and, not_true_eq_false, false_and, if_true, if_false]
    by_cases hV : V ≤ 18446744073709551615
    · simp only [if_pos hV]
      by_cases h2 : V > 9223372036854775808
      · rw [if_pos h2, if_pos (by omega)]
      · rw [if_neg h2, if_neg (by omega), if_neg (by omega)]
    · simp only [if_neg hV]
      rw [if_pos (by omega), if_pos (by omega)]
  · simp only [hneg, false_and, not_false_eq_true, true_and, if_false]
    by_cases hV : V ≤ 18446744073709551615
    · simp only [if_pos hV]
      by_cases h2 : V > 9223372036854775808 - 1
      · rw [if_pos h2, if_neg (by omega), if_pos (by omega)]
      · rw [if_neg h2, if_neg (by omega), if_neg (by omega)]
    · simp only [if_neg hV]
      rw [if_pos (by omega), if_neg (by omega), if_pos (by omega)]

theorem as_int_literal (heap : List GNode) (node : Nat) (ws sg ds rest : List Char)
    (h : cd_dom_get_node_data heap node = some (ws ++ sg ++ ds ++ rest))
    (hws : ∀ c ∈ ws, ISSPACE c = true) (hsg : sg = [] ∨ sg = ['-'] ∨ sg = ['+'])
    (hne : ds ≠ []) (hd : ∀ c ∈ ds, c.isDigit = true)
    (hr : ∀ c : Char, rest.head? = some c → c.isDigit = false) :
    cd_dom_get_node_data_as_int heap node
      = if rest ≠ [] then G_MAXINT
        else if G_MININT ≤ literalValue sg ds ∧ literalValue sg ds ≤ G_MAXINT
          then literalValue sg ds else G_MAXINT := by
  unfold cd_dom_get_node_data_as_int
  rw [h]
  simp only
  rw [g_ascii_strtoll_literal ws sg ds rest hws hsg hne hd hr]
  simp only
  by_cases hrest : rest ≠ []
  · rw [if_pos hrest, if_pos hrest]
  · rw [if_neg hrest, if_neg hrest]
    have hA : G_MAXINT64 = 9223372036854775807 := by decide
    have hI : G_MININT64 = -9223372036854775808 := by decide
    have hB : G_MAXINT = 2147483647 := by decide
    have hC : G_MININT = -2147483648 := by decide
    rw [hA, hI, hB, hC]
    generalize literalValue sg ds = v
    by_cases h1 : v < -9223372036854775808
    · rw [if_pos h1, if_pos (by omega), if_neg (by omega)]
    · rw [if_neg h1]
      by_cases h2 : 9223372036854775807 < v
      · rw [if_pos h2, if_pos (by omega), if_neg (by omega)]
      · rw [if_neg h2]
        by_cases h3 : -2147483648 ≤ v ∧ v ≤ 2147483647
        · rw [if_pos h3, if_neg (by omega)]
        · rw [if_neg h3, if_pos (by omega)]

theorem digitsValue_concat (ds : List Char) (c : Char) :
    digitsValue (ds ++ [c]) = digitsValue ds * 10 + (c.toNat - '0'.toNat) := by
  simp [digitsValue, List.foldl_append]

theorem digitChar_spec (d : Nat) (h : d < 10) :
    (Nat.digitChar d).isDigit = true ∧ (Nat.digitChar d).toNat - '0'.toNat = d := by
  interval_cases d <;> exact ⟨rfl, rfl⟩

theorem toDigitsCore_spec (fuel n : Nat) (acc : List Char) (h : n < fuel) :
    ∃ ds : List Char, Nat.toDigitsCore 10 fuel n acc = ds ++ acc ∧ ds ≠ [] ∧
      (∀ c ∈ ds, c.isDigit = true) ∧ digitsValue ds = n := by
  induction fuel generalizing n acc with
  | zero => omega
  | succ fuel ih =>
    have hdc := digitChar_spec (n % 10) (Nat.mod_lt _ (by decide))
    simp only [Nat.toDigitsCore]
    by_cases h0 : n / 10 = 0
    · rw [if_pos h0]
      refine ⟨[Nat.digitChar (n % 10)], rfl, by simp, by simpa using hdc.1, ?_⟩
      have := digitsValue_concat [] (Nat.digitChar (n % 10))
      simp only [List.nil_append] at this
      rw [this, hdc.2]
      simp only [digitsValue, List.foldl_nil]
      omega
    · rw [if_neg h0]
      obtain ⟨ds, h1, _, h3, h4⟩ := ih (n / 10) (Nat.digitChar (n % 10) :: acc) (by omega)
      refine ⟨ds ++ [Nat.digitChar (n % 10)], by simp [h1], by simp, ?_, ?_⟩
      · intro c hc
        simp only [List.mem_append, List.mem_singleton] at hc
        rcases hc with hc | hc
        · exact h3 c hc
        · rw [hc]
          exact hdc.1
      · rw [digitsValue_concat, h4, hdc.2]
        omega

theorem toDigits_spec (n : Nat) :
    Nat.toDigits 10 n ≠ [] ∧ (∀ c ∈ Nat.toDigits 10 n, c.isDigit = true) ∧
      digitsValue (Nat.toDigits 10 n) = n := by
  obtain ⟨ds, h1, h2, h3, h4⟩ := toDigitsCore_spec (n + 1) n [] (by omega)
  simp only [List.append_nil] at h1
  unfold Nat.toDigits
  rw [h1]
  exact ⟨h2, h3, h4⟩

theorem skip_decompose (text : List Char) :
    ∃ ws : List Char, text = ws ++ g_parse_long_long.skip text ∧
      (∀ c ∈ ws, ISSPACE c = true) := by
  induction text with
  | nil => exact ⟨[], rfl, by simp⟩
  | cons c rest ih =>
    by_cases hc : ISSPACE c = true
    · obtain ⟨ws, h1, h2⟩ := ih
      refine ⟨c :: ws, ?_, ?_⟩
      · simp only [g_parse_long_long.skip, hc, if_true, List.cons_append]
        rw [← h1]
      · intro x hx
        simp only [List.mem_cons] at hx
        rcases hx with hx | hx
        · rw [hx]; exact hc
        · exact h2 x hx
    · refine ⟨[], ?_, by simp⟩
      simp [g_parse_long_long.skip, hc]

theorem digits_decompose (s : List Char) :
    ∃ ds rest : List Char, s = ds ++ rest ∧ (∀ c ∈ ds, c.isDigit = true) ∧
      (∀ c : Char, rest.head? = some c → c.isDigit = false) := by
  induction s with
  | nil => exact ⟨[], [], rfl, by simp, by simp⟩
  | cons c r ih =>
    by_cases hc : c.isDigit = true
    · obtain ⟨ds, rest, h1, h2, h3⟩ := ih
      refine ⟨c :: ds, rest, by rw [h1]; rfl, ?_, h3⟩
      intro x hx
      simp only [List.mem_cons] at hx
      rcases hx with hx | hx
      · rw [hx]; exact hc
      · exact h2 x hx
    · refine ⟨[], c :: r, rfl, by simp, ?_⟩
      intro x hx
      simp only [List.head?_cons, Option.some.injEq] at hx
      rw [← hx]
      simpa using hc

/-- Either `g_parse_long_long` converts nothing, and `endptr` is the start of
the text, or the text is whitespace, an optional sign, at least one digit,
and a tail that does not start with a digit. -/
theorem g_parse_long_long_cases (text : List Char) :
    (∃ b : Bool, g_parse_long_long text = (0, b, text)) ∨
    ∃ ws sg ds rest : List Char, text = ws ++ sg ++ ds ++ rest ∧
      (∀ c ∈ ws, ISSPACE c = true) ∧ (sg = [] ∨ sg = ['-'] ∨ sg = ['+']) ∧
      ds ≠ [] ∧ (∀ c ∈ ds, c.isDigit = true) ∧
      (∀ c : Char, rest.head? = some c → c.isDigit = false) := by
  obtain ⟨ws, h1, h2⟩ := skip_decompose text
  cases hb : g_parse_long_long.skip text with
  | nil =>
    left
    exact ⟨false, by simp [g_parse_long_long, hb]⟩
  | cons c r =>
    rw [hb] at h1
    obtain ⟨ds, rest, h3, h4, h5⟩ :=
      digits_decompose (if c = '-' ∨ c = '+' then r else c :: r)
    by_cases hds : ds = []
    · left
      subst hds
      simp only [List.nil_append] at h3
      obtain ⟨x, hx, _⟩ := parse_loop_digits [] rest 0 false (by simp) h5 (by decide)
      simp only [List.nil_append] at hx
      refine ⟨decide (c = '-'), ?_⟩
      simp only [g_parse_long_long, hb]
      rw [h3, hx]
      simp
    · right
      by_cases hsign : c = '-' ∨ c = '+'
      · rw [if_pos hsign] at h3
        refine ⟨ws, [c], ds, rest, ?_, h2, ?_, hds, h4, h5⟩
        · rw [h1, h3]
          simp
        · rcases hsign with h | h
          · right; left; rw [h]
          · right; right; rw [h]
      · rw [if_neg hsign] at h3
        refine ⟨ws, [], ds, rest, ?_, h2, Or.inl rfl, hds, h4, h5⟩
        rw [h1, h3]
        simp

theorem as_int_noconv (heap : List GNode) (node : Nat) (text : GStr) (b : Bool)
    (h : cd_dom_get_node_data heap node = some text)
    (hp : g_parse_long_long text = (0, b, text)) :
    cd_dom_get_node_data_as_int heap node = if text ≠ [] then G_MAXINT else 0 := by
  have hs : g_ascii_strtoll text = (0, text) := by
    unfold g_ascii_strtoll
    rw [hp]
    cases b <;> simp
  unfold cd_dom_get_node_data_as_int
  rw [h]
  simp only
  rw [hs]
  by_cases ht : text ≠ []
  · simp [ht]
  · simp only [if_neg ht]
    rw [if_neg (by decide)]

theorem as_int_no_digit (heap : List GNode) (node : Nat) (text : GStr)
    (h : cd_dom_get_node_data heap node = some text) (hne : text ≠ [])
    (hno : ∀ c ∈ text, c.isDigit = false) :
    cd_dom_get_node_data_as_int heap node = G_MAXINT := by
  rcases g_parse_long_long_cases text with ⟨b, hb⟩ | ⟨ws, sg, ds, rest, ht, _, _, hds, hd, _⟩
  · rw [as_int_noconv heap node text b h hb, if_pos hne]
  · obtain ⟨d0, dtl, rfl⟩ := List.exists_cons_of_ne_nil hds
    have h1 := hd d0 (List.mem_cons_self _ _)
    have h2 := hno d0 (by rw [ht]; simp)
    rw [h1] at h2
    cases h2

/-! ### Lemmas: the floating-point scan -/

theorem strtod_exponent_suffix (lower upper : Char) (s : List Char) :
    (g_ascii_strtod.exponent lower upper s).2 <:+ s := by
  cases s with
  | nil => exact List.suffix_refl _
  | cons c r =>
    simp only [g_ascii_strtod.exponent]
    by_cases hm : c = lower ∨ c = upper
    · rw [if_pos hm]
      have hr1 : (if r.head? = some '-' ∨ r.head? = some '+' then r.tail else r) <:+ r := by
        split
        · exact List.tail_suffix r
        · exact List.suffix_refl _
      generalize (if r.head? = some '-' ∨ r.head? = some '+' then r.tail else r) = r1 at hr1
      by_cases hds : List.takeWhile Char.isDigit r1 = []
      · rw [if_pos hds]
      · rw [if_neg hds]
        exact (List.dropWhile_suffix _).trans (hr1.trans (List.suffix_cons c r))
    · rw [if_neg hm]

theorem strtod_fraction_suffix (isDigit : Char → Bool) (s : List Char) :
    (g_ascii_strtod.fraction isDigit s).2 <:+ s := by
  unfold g_ascii_strtod.fraction
  split
  · exact (List.dropWhile_suffix _).trans (List.suffix_cons _ _)
  · exact List.suffix_refl _

theorem strtod_decimal_suffix (negative : Bool) (s : List Char) (r : GDouble × List Char)
    (h : g_ascii_strtod.decimal negative s = some r) : r.2 <:+ s := by
  unfold g_ascii_strtod.decimal at h
  simp only at h
  split at h
  · cases h
  · cases h
    exact (strtod_exponent_suffix _ _ _).trans
      ((strtod_fraction_suffix _ _).trans (List.dropWhile_suffix _))

theorem strtod_hexadecimal_suffix (negative : Bool) (s : List Char) (r : GDouble × List Char)
    (h : g_ascii_strtod.hexadecimal negative s = some r) : r.2 <:+ s := by
  unfold g_ascii_strtod.hexadecimal at h
  simp only at h
  split at h
  · cases h
  · cases h
    exact (strtod_exponent_suffix _ _ _).trans
      ((strtod_fraction_suffix _ _).trans (List.dropWhile_suffix _))

theorem strtod_nanTail_suffix (s : List Char) : g_ascii_strtod.nanTail s <:+ s := by
  unfold g_ascii_strtod.nanTail
  split
  · rename_i r
    split
    · rename_i r1 hr1
      have h1 : r1 <:+ List.dropWhile (fun c => c.isAlphanum || decide (c = '_')) r := by
        rw [hr1]
        exact List.suffix_cons _ _
      exact h1.trans ((List.dropWhile_suffix _).trans (List.suffix_cons _ _))
    · exact List.suffix_refl _
  · exact List.suffix_refl _

theorem strtod_number_suffix (negative : Bool) (s : List Char) (r : GDouble × List Char)
    (h : g_ascii_strtod.number negative s = some r) : r.2 <:+ s := by
  unfold g_ascii_strtod.number at h
  split at h
  · cases h
    exact List.drop_suffix _ _
  · split at h
    · cases h
      exact List.drop_suffix _ _
    · split at h
      · cases h
        exact (strtod_nanTail_suffix _).trans (List.drop_suffix _ _)
      · split at h
        · split at h
          · rename_i r1 hr1
            cases h
            exact (strtod_hexadecimal_suffix negative _ r hr1).trans (List.drop_suffix _ _)
          · exact strtod_decimal_suffix negative s r h
        · exact strtod_decimal_suffix negative s r h

/-- The text at `endptr` is a final part of the text scanned. -/
theorem g_ascii_strtod_suffix (nptr : GStr) : (g_ascii_strtod nptr).2 <:+ nptr := by
  unfold g_ascii_strtod
  simp only
  split
  · exact List.suffix_refl _
  · rename_i r hr
    obtain ⟨ws, h1, _⟩ := skip_decompose nptr
    have h2 : g_parse_long_long.skip nptr <:+ nptr := ⟨ws, h1.symm⟩
    refine (strtod_number_suffix _ _ r hr).trans (List.IsSuffix.trans ?_ h2)
    split
    · exact List.tail_suffix _
    · exact List.suffix_refl _

/-! ### Lemmas: color triplets -/

theorem nameOf_eq_get_node_name (heap : List GNode) (node : Nat) :
    nameOf heap node = cd_dom_get_node_name heap node := by
  unfold nameOf cd_dom_get_node_name
  cases heap[node]? with
  | none => rfl
  | some n =>
    cases hd : n.data with
    | none => simp [hd]
    | some d => simp [hd]

theorem get_child_node_absent (heap : List GNode) (node : Nat) (name : GStr)
    (h : childAbsent heap node name) : cd_dom_get_child_node heap node name = none := by
  cases hc : cd_dom_get_child_node heap node name with
  | none => rfl
  | some c =>
    exfalso
    unfold cd_dom_get_child_node at hc
    cases hn : heap[node]? with
    | none => simp [hn] at hc
    | some n =>
      simp only [hn] at hc
      obtain ⟨h1, h2⟩ := get_child_loop_some heap name n.children c hc
      refine h c ?_ ?_
      · simp [childrenOf, hn, h1]
      · rw [nameOf_eq_get_node_name, h2]

theorem values_absent (heap : List GNode) (node : Nat) (n0 n1 n2 : GStr)
    (f : GDouble × GDouble × GDouble)
    (h : childAbsent heap node n0 ∨ childAbsent heap node n1 ∨ childAbsent heap node n2) :
    cd_dom_get_node_values heap node n0 n1 n2 f = (false, f) := by
  unfold cd_dom_get_node_values
  rcases h with h | h | h
  · rw [get_child_node_absent heap node n0 h]
  · rw [get_child_node_absent heap node n1 h]
    cases cd_dom_get_child_node heap node n0 <;> rfl
  · rw [get_child_node_absent heap node n2 h]
    cases cd_dom_get_child_node heap node n0 with
    | none => rfl
    | some v0 => cases cd_dom_get_child_node heap node n1 <;> rfl

theorem endptrLeft_call (text : GStr) (e : Option GStr) :
    endptrLeft (g_ascii_strtod.call (some text) e).2 = true ↔ (g_ascii_strtod text).2 ≠ [] := by
  simp only [g_ascii_strtod.call]
  cases h : (g_ascii_strtod text).2 with
  | nil => simp [endptrLeft]
  | cons c r => simp [endptrLeft]

theorem whollyParsed_iff (heap : List GNode) (node : Nat) (text : GStr)
    (h : cd_dom_get_node_data heap node = some text) :
    whollyParsed heap node ↔ (g_ascii_strtod text).2 = [] := by
  unfold whollyParsed
  constructor
  · rintro ⟨t, h1, h2⟩
    rw [h] at h1
    cases h1
    exact h2
  · intro h2
    exact ⟨text, h, h2⟩

theorem firstChildNamed_data (heap : List GNode) (node : Nat) (name : GStr) (c : Nat)
    (h : firstChildNamed heap node name = some c) :
    ∃ text : GStr, cd_dom_get_node_data heap c = some text := by
  unfold firstChildNamed at h
  have h1 := List.find?_some h
  simp only [decide_eq_true_eq, nameOf] at h1
  unfold cd_dom_get_node_data
  cases hn : heap[c]? with
  | none => simp [hn] at h1
  | some n =>
    cases hd : n.data with
    | none => simp [hn, hd] at h1
    | some d => exact ⟨d.cdata, by simp [hd]⟩

theorem values_present (heap : List GNode) (hwf : childrenHaveData heap = true) (node : Nat)
    (n0 n1 n2 : GStr) (f : GDouble × GDouble × GDouble) (v0 v1 v2 : Nat)
    (h0 : firstChildNamed heap node n0 = some v0)
    (h1 : firstChildNamed heap node n1 = some v1)
    (h2 : firstChildNamed heap node n2 = some v2) :
    ((cd_dom_get_node_values heap node n0 n1 n2 f).1 = true ↔
      whollyParsed heap v0 ∧ whollyParsed heap v1 ∧ whollyParsed heap v2) ∧
    ((cd_dom_get_node_values heap node n0 n1 n2 f).1 = true →
      (cd_dom_get_node_values heap node n0 n1 n2 f).2
        = (parsedValue heap v0, parsedValue heap v1, parsedValue heap v2)) := by
  obtain ⟨t0, d0⟩ := firstChildNamed_data heap node n0 v0 h0
  obtain ⟨t1, d1⟩ := firstChildNamed_data heap node n1 v1 h1
  obtain ⟨t2, d2⟩ := firstChildNamed_data heap node n2 v2 h2
  have p0 : parsedValue heap v0 = (g_ascii_strtod t0).1 := by simp [parsedValue, textOf, d0]
  have p1 : parsedValue heap v1 = (g_ascii_strtod t1).1 := by simp [parsedValue, textOf, d1]
  have p2 : parsedValue heap v2 = (g_ascii_strtod t2).1 := by simp [parsedValue, textOf, d2]
  rw [whollyParsed_iff heap v0 t0 d0, whollyParsed_iff heap v1 t1 d1,
    whollyParsed_iff heap v2 t2 d2, p0, p1, p2]
  unfold cd_dom_get_node_values
  rw [get_child_node_eq_ref heap hwf, get_child_node_eq_ref heap hwf,
    get_child_node_eq_ref heap hwf, h0, h1, h2]
  simp only [d0, d1, d2]
  by_cases e0 : (g_ascii_strtod t0).2 = []
  · have l0 : ¬ endptrLeft (g_ascii_strtod.call (some t0) none).2 = true := by
      rw [endptrLeft_call]; simpa using e0
    by_cases e1 : (g_ascii_strtod t1).2 = []
    · have l1 : ¬ endptrLeft (g_ascii_strtod.call (some t1)
          (g_ascii_strtod.call (some t0) none).2).2 = true := by
        rw [endptrLeft_call]; simpa using e1
      by_cases e2 : (g_ascii_strtod t2).2 = []
      · have l2 : ¬ endptrLeft (g_ascii_strtod.call (some t2)
            (g_ascii_strtod.call (some t1) (g_ascii_strtod.call (some t0) none).2).2).2
            = true := by
          rw [endptrLeft_call]; simpa using e2
        simp only [if_neg l0, if_neg l1, if_neg l2, e0, e1, e2, and_self, true_iff]
        exact ⟨trivial, fun _ => rfl⟩
      · have l2 : endptrLeft (g_ascii_strtod.call (some t2)
            (g_ascii_strtod.call (some t1) (g_ascii_strtod.call (some t0) none).2).2).2
            = true := by
          rw [endptrLeft_call]; exact e2
        simp [if_neg l0, if_neg l1, if_pos l2, e2]
    · have l1 : endptrLeft (g_ascii_strtod.call (some t1)
          (g_ascii_strtod.call (some t0) none).2).2 = true := by
        rw [endptrLeft_call]; exact e1
      simp [if_neg l0, if_pos l1, e1]
  · have l0 : endptrLeft (g_ascii_strtod.call (some t0) none).2 = true := by
      rw [endptrLeft_call]; exact e0
    simp [if_pos l0, e0]

/-! ### Lemmas: attributes and localized texts -/

theorem lookup_insert (t : GHashTable) (k v key : GStr) :
    g_hash_table_lookup (g_hash_table_insert t k v) key
      = if k = key then some v else g_hash_table_lookup t key := by
  induction t with
  | nil => simp [g_hash_table_insert, g_hash_table_lookup]
  | cons kv rest ih =>
    obtain ⟨k0, v0⟩ := kv
    simp only [g_hash_table_insert]
    by_cases h0 : k0 = k
    · rw [if_pos h0]
      simp only [g_hash_table_lookup]
      subst h0
      by_cases h1 : k0 = key
      · simp [h1]
      · simp [h1]
    · rw [if_neg h0]
      simp only [g_hash_table_lookup, ih]
      by_cases h1 : k0 = key
      · have : ¬ k = key := fun hk => h0 (h1.trans hk.symm)
        simp [h1, this]
      · simp [h1]

theorem lastValue_cons (n v : GStr) (ns vs : List GStr) (key : GStr) :
    lastValue (n :: ns) (v :: vs) key
      = match lastValue ns vs key with
        | some x => some x
        | none => if n = key then some v else none := by
  simp only [lastValue, List.zip_cons_cons, List.reverse_cons, List.find?_append]
  cases h : List.find? (fun kv => decide (kv.1 = key)) (ns.zip vs).reverse with
  | some x => simp
  | none =>
    by_cases hk : n = key
    · simp [hk]
    · simp [hk]

theorem lookup_attrs (ns vs : List GStr) (t : GHashTable) (key : GStr) :
    g_hash_table_lookup (cd_dom_start_element_cb.attrs ns vs t) key
      = match lastValue ns vs key with
        | some x => some x
        | none => g_hash_table_lookup t key := by
  induction ns generalizing vs t with
  | nil => simp [cd_dom_start_element_cb.attrs, lastValue]
  | cons n ns ih =>
    cases vs with
    | nil => simp [cd_dom_start_element_cb.attrs, lastValue]
    | cons v vs =>
      simp only [cd_dom_start_element_cb.attrs, ih, lastValue_cons, lookup_insert]
      cases lastValue ns vs key with
      | some x => rfl
      | none =>
        by_cases hk : n = key
        · simp [hk]
        · simp [hk]

theorem localized_loop_eq_fold (heap : List GNode) (key : GStr)
    (cs : List Nat) (hash : GHashTable) (du : GStr)
    (h : ∀ c ∈ cs, ∃ (cn : GNode) (d : CdDomNodeData), heap[c]? = some cn ∧ cn.data = some d) :
    cd_dom_get_node_localized.loop heap key (some du) cs hash
      = (cs.filter fun c => decide (nameOf heap c = some key)).foldl
          (fun m c =>
            if decide (attributeOf heap c "xml:lang".data ≠ none) = true ∧
                textOf heap c = du then m
            else
              g_hash_table_insert m ((attributeOf heap c "xml:lang".data).getD [])
                (textOf heap c))
          hash := by
  induction cs generalizing hash with
  | nil => rfl
  | cons c rest ih =>
    obtain ⟨cn, d, hcn, hd⟩ := h c (List.mem_cons_self _ _)
    have ih1 := fun hash => ih hash fun x hx => h x (List.mem_cons_of_mem _ hx)
    have hname : nameOf heap c = some d.name := by simp [nameOf, hcn, hd]
    have hattr : attributeOf heap c "xml:lang".data
        = g_hash_table_lookup d.attributes "xml:lang".data := by
      simp [attributeOf, hcn, hd]
    have htext : textOf heap c = d.cdata := by
      simp [textOf, cd_dom_get_node_data, hcn, hd]
    simp only [cd_dom_get_node_localized.loop, hcn, hd]
    by_cases hk : d.name = key
    · have hk1 : ¬ d.name ≠ key := fun hne => hne hk
      rw [if_neg hk1]
      have e : (c :: rest).filter (fun c => decide (nameOf heap c = some key))
          = c :: rest.filter (fun c => decide (nameOf heap c = some key)) := by
        rw [List.filter_cons]
        simp [hname, hk]
      rw [e, List.foldl_cons]
      by_cases hskip : g_hash_table_lookup d.attributes "xml:lang".data ≠ none ∧
          some du = some d.cdata
      · rw [if_pos hskip, ih1]
        have : decide (attributeOf heap c "xml:lang".data ≠ none) = true ∧
            textOf heap c = du := by
          rw [hattr, htext]
          exact ⟨by simpa using hskip.1, (Option.some.inj hskip.2).symm⟩
        rw [if_pos this]
      · rw [if_neg hskip, ih1]
        have : ¬ (decide (attributeOf heap c "xml:lang".data ≠ none) = true ∧
            textOf heap c = du) := by
          rw [hattr, htext]
          rintro ⟨h1, h2⟩
          exact hskip ⟨by simpa using h1, by rw [h2]⟩
        rw [if_neg this, hattr, htext]
    · rw [if_pos hk]
      have e : (c :: rest).filter (fun c => decide (nameOf heap c = some key))
          = rest.filter (fun c => decide (nameOf heap c = some key)) := by
        rw [List.filter_cons]
        simp [hname, hk]
      rw [e, ih1]

theorem firstChildNamed_none_iff (heap : List GNode) (node : Nat) (key : GStr) :
    firstChildNamed heap node key = none ↔ childAbsent heap node key := by
  unfold firstChildNamed childAbsent
  rw [List.find?_eq_none]
  simp

theorem localized_eq_present (heap : List GNode) (hwf : childrenHaveData heap = true)
    (node : Nat) (key : GStr) :
    cd_dom_get_node_localized heap node key = localizedPresent heap node key := by
  unfold cd_dom_get_node_localized localizedPresent localizedFold
  rw [get_child_node_eq_ref heap hwf]
  cases hf : firstChildNamed heap node key with
  | none => rfl
  | some first =>
    obtain ⟨du, hdu⟩ := firstChildNamed_data heap node key first hf
    simp only [hdu]
    cases hn : heap[node]? with
    | none =>
      simp [firstChildNamed, childrenOf, hn] at hf
    | some n =>
      have hfirst : textOf heap first = du := by simp [textOf, hdu]
      simp only [childrenOf, hn, hfirst]
      rw [localized_loop_eq_fold heap key n.children [] du
        ((childrenHaveData_iff heap).1 hwf node n hn)]

/-! ### Lemmas: empty segments -/

theorem pieces_delim_last (d : Char) (s acc : List Char) :
    [] ∈ g_strsplit.pieces d (s ++ [d]) acc := by
  induction s generalizing acc with
  | nil => simp [g_strsplit.pieces]
  | cons c rest ih =>
    have e : (c :: rest) ++ [d] = c :: (rest ++ [d]) := rfl
    rw [e]
    simp only [g_strsplit.pieces]
    split
    · exact List.mem_cons_of_mem _ (ih [])
    · exact ih (c :: acc)

theorem pieces_delim_twice (d : Char) (a b acc : List Char) :
    [] ∈ g_strsplit.pieces d (a ++ d :: d :: b) acc := by
  induction a generalizing acc with
  | nil => simp [g_strsplit.pieces]
  | cons c rest ih =>
    have e : (c :: rest) ++ d :: d :: b = c :: (rest ++ d :: d :: b) := rfl
    rw [e]
    simp only [g_strsplit.pieces]
    split
    · exact List.mem_cons_of_mem _ (ih [])
    · exact ih (c :: acc)

theorem g_strsplit_empty_segment (path : GStr) (h : hasEmptySegment path) :
    [] ∈ g_strsplit path '/' := by
  rcases h with h | h | h
  · cases path with
    | nil => simp at h
    | cons c rest =>
      simp only [List.head?_cons, Option.some.injEq] at h
      subst h
      simp [g_strsplit, g_strsplit.pieces]
  · cases path using List.reverseRecOn with
    | nil => simp at h
    | append_singleton s c =>
      have h1 : c = '/' := by simpa using h
      subst h1
      have hne : s ++ ['/'] ≠ [] := by simp
      simp only [g_strsplit, if_neg hne]
      exact pieces_delim_last '/' s []
  · obtain ⟨a, b, rfl⟩ := h
    have hne : a ++ ['/', '/'] ++ b ≠ [] := by simp
    simp only [g_strsplit, if_neg hne]
    have e : a ++ ['/', '/'] ++ b = a ++ '/' :: '/' :: b := by simp
    rw [e]
    exact pieces_delim_twice '/' a b []

theorem get_node_loop_empty_segment (heap : List GNode) (hnames : namesNonEmpty heap)
    (segs : List GStr) (node : Nat) (h : [] ∈ segs) :
    cd_dom_get_node.loop heap segs node = none := by
  induction segs generalizing node with
  | nil => simp at h
  | cons s rest ih =>
    simp only [cd_dom_get_node.loop]
    cases hc : cd_dom_get_child_node heap node s with
    | none => rfl
    | some next =>
      simp only
      rcases List.mem_cons.1 h with h1 | h1
      · exfalso
        subst h1
        unfold cd_dom_get_child_node at hc
        cases hn : heap[node]? with
        | none => simp [hn] at hc
        | some n =>
          simp only [hn] at hc
          have := (get_child_loop_some heap [] n.children next hc).2
          rw [← nameOf_eq_get_node_name] at this
          exact hnames next this
      · exact ih next h1

/-! ### Lemmas: well-nested runs -/

theorem open_close (priv priv1 : CdDomPrivate) (c : Nat) (stack : List Nat)
    (hcur : priv.current = some c)
    (hch : OpenChain priv.heap priv.root (c :: stack)) (name : GStr)
    (hs : cd_dom_end_element_cb priv name = some priv1) :
    priv1 = { priv with current := some (stack.headD priv.root) } := by
  obtain ⟨_, ⟨cn, h2, h3⟩, _⟩ := hch
  simp only [cd_dom_end_element_cb, hcur, h2, h3] at hs
  cases hs
  rfl

theorem text_cb_heap (priv priv1 : CdDomPrivate) (t : GStr)
    (hs : cd_dom_text_cb priv t = some priv1) :
    priv1.root = priv.root ∧ priv1.current = priv.current ∧
      priv1.heap.length = priv.heap.length ∧
      ∀ (i : Nat), (priv1.heap[i]?).map
          (fun n => (n.parent, n.children, n.data.map (fun d => (d.name, d.attributes))))
        = (priv.heap[i]?).map
          (fun n => (n.parent, n.children, n.data.map (fun d => (d.name, d.attributes)))) := by
  cases hb : hasNonBlank t with
  | false =>
    rw [text_cb_blank priv t hb] at hs
    cases hs
    exact ⟨rfl, rfl, rfl, fun _ => rfl⟩
  | true =>
    rw [text_cb_nonblank priv t hb] at hs
    cases hc : priv.current with
    | none => simp [hc] at hs
    | some cur =>
      cases hn : priv.heap[cur]? with
      | none => simp [hc, hn] at hs
      | some n =>
        cases hd : n.data with
        | none => simp [hc, hn, hd] at hs
        | some data =>
          simp only [hc, hn, hd] at hs
          cases hs
          refine ⟨rfl, rfl, by simp, fun i => ?_⟩
          show Option.map _ (_ : List GNode)[i]? = _
          rw [List.getElem?_set]
          by_cases hi : cur = i
          · subst hi
            simp [getElem?_lt hn, hn, hd]
          · rw [if_neg hi]

theorem open_text (priv priv1 : CdDomPrivate) (stack : List Nat)
    (hch : OpenChain priv.heap priv.root stack) (t : GStr)
    (hs : cd_dom_text_cb priv t = some priv1) :
    OpenChain priv1.heap priv1.root stack := by
  obtain ⟨h1, _, _, h4⟩ := text_cb_heap priv priv1 t hs
  rw [h1]
  refine OpenChain_mono priv.heap _ priv.root ?_ stack hch
  intro i n hi
  have := h4 i
  rw [hi] at this
  cases hn : priv1.heap[i]? with
  | none => simp [hn] at this
  | some n1 =>
    simp only [hn, Option.map_some', Option.some.injEq, Prod.mk.injEq] at this
    exact ⟨n1, rfl, this.1⟩

theorem start_heap (priv priv1 : CdDomPrivate) (hinv : Inv priv) (name : GStr)
    (ks vs : List GStr) (hs : cd_dom_start_element_cb priv name ks vs = some priv1) :
    priv1.root = priv.root ∧ priv1.current = some priv.heap.length ∧
      priv1.heap.length = priv.heap.length + 1 ∧
      (∀ i : Nat, priv1.heap[i]? =
        if priv.current = some i then
          (priv.heap[i]?).map fun pn =>
            GNode.mk pn.data pn.parent (pn.children ++ [priv.heap.length])
        else if i = priv.heap.length then
          some (GNode.mk (some ⟨name, [], cd_dom_start_element_cb.attrs ks vs []⟩)
            priv.current [])
        else priv.heap[i]?) := by
  cases hc : priv.current with
  | none =>
    rw [start_element_none priv name ks vs hc] at hs
    cases hs
    refine ⟨rfl, rfl, by simp, fun i => ?_⟩
    show (_ ++ _ : List GNode)[i]? = _
    rw [if_neg (by simp)]
    by_cases hi : i = priv.heap.length
    · rw [if_pos hi, hi]
      simp
    · rw [if_neg hi]
      by_cases hl : i < priv.heap.length
      · rw [List.getElem?_append_left hl]
      · rw [List.getElem?_eq_none (by simp; omega), List.getElem?_eq_none (by omega)]
  | some c =>
    have hlt := hinv.cur _ hc
    have hnode : priv.heap[c]? = some priv.heap[c] := List.getElem?_eq_getElem hlt
    rw [start_element_some priv name ks vs _ _ hc hnode] at hs
    cases hs
    refine ⟨rfl, rfl, by simp, fun i => ?_⟩
    show (_ : List GNode)[i]? = _
    rw [start_heap_getElem? priv.heap _ priv.heap[c] _ _ hnode]
    simp only [Option.some.injEq]
    by_cases hi : i = c
    · rw [if_pos hi, if_pos hi.symm, hi, hnode]
      rfl
    · rw [if_neg hi, if_neg (show ¬ c = i from fun h => hi h.symm)]

theorem open_start (priv priv1 : CdDomPrivate) (hinv : Inv priv) (stack : List Nat)
    (hcur : priv.current = some (stack.headD priv.root))
    (hch : OpenChain priv.heap priv.root stack) (name : GStr) (ks vs : List GStr)
    (hs : cd_dom_start_element_cb priv name ks vs = some priv1) :
    OpenChain priv1.heap priv1.root (priv.heap.length :: stack) := by
  obtain ⟨h1, _, _, h4⟩ := start_heap priv priv1 hinv name ks vs hs
  have hlt := hinv.cur _ hcur
  rw [h1]
  refine ⟨by omega, ⟨GNode.mk (some ⟨name, [], cd_dom_start_element_cb.attrs ks vs []⟩)
    priv.current [], ?_, hcur⟩, ?_⟩
  · rw [h4, if_neg (by rw [hcur]; intro h; have := Option.some.inj h; omega), if_pos rfl]
  · refine OpenChain_mono priv.heap _ priv.root ?_ stack hch
    intro i n hi
    have hil := getElem?_lt hi
    rw [h4, hi]
    by_cases hic : priv.current = some i
    · rw [if_pos hic]
      exact ⟨_, rfl, rfl⟩
    · rw [if_neg hic, if_neg (by omega)]
      exact ⟨n, rfl, rfl⟩

theorem Reach.basic {priv : CdDomPrivate} {stack : List Nat} (h : Reach priv stack) :
    Inv priv ∧ priv.current = some (stack.headD priv.root) ∧
      OpenChain priv.heap priv.root stack := by
  induction h with
  | init => exact ⟨Inv_init, rfl, trivial⟩
  | @start priv priv1 stack name ks vs _ hs ih =>
    obtain ⟨hinv, hcur, hch⟩ := ih
    obtain ⟨_, h2, _, _⟩ := start_heap priv priv1 hinv name ks vs hs
    exact ⟨Inv_start priv priv1 hinv name ks vs hs, h2,
      open_start priv priv1 hinv stack hcur hch name ks vs hs⟩
  | @close priv priv1 c stack name _ hs ih =>
    obtain ⟨hinv, hcur, hch⟩ := ih
    have e := open_close priv priv1 c stack hcur hch name hs
    refine ⟨Inv_end priv priv1 hinv name hs, ?_, ?_⟩
    · rw [e]
    · rw [e]
      exact hch.2.2
  | @text priv priv1 stack t _ hs ih =>
    obtain ⟨hinv, hcur, hch⟩ := ih
    obtain ⟨h1, h2, _, _⟩ := text_cb_heap priv priv1 t hs
    exact ⟨Inv_text priv priv1 hinv t hs, by rw [h2, h1, hcur], open_text priv priv1 stack hch t hs⟩

theorem parse_reach (events : List GMarkupEvent) (priv priv1 : CdDomPrivate)
    (stack : List Nat) (n : Nat) (hr : Reach priv stack) (hlen : priv.heap.length = n + 1)
    (hw : wellNested stack.length events = true)
    (hp : g_markup_parse_context_parse priv events = some priv1) :
    Reach priv1 (openStarts stack n events) ∧
      priv1.heap.length = n + countStarts events + 1 ∧
      (openStarts stack n events).length = openDepth stack.length events := by
  induction events generalizing priv stack n with
  | nil =>
    simp only [g_markup_parse_context_parse] at hp
    cases hp
    exact ⟨hr, by simp [countStarts, hlen], rfl⟩
  | cons e rest ih =>
    simp only [g_markup_parse_context_parse] at hp
    cases he : parser priv e with
    | none => simp [he] at hp
    | some p1 =>
      simp only [he] at hp
      obtain ⟨hinv, hcur, hch⟩ := hr.basic
      cases e with
      | start_element name ks vs =>
        have hs : cd_dom_start_element_cb priv name ks vs = some p1 := he
        obtain ⟨_, _, h3, _⟩ := start_heap priv p1 hinv name ks vs hs
        have hr1 := Reach.start name ks vs hr hs
        rw [hlen] at hr1
        have := ih p1 ((n + 1) :: stack) (n + 1) hr1 (by rw [h3, hlen])
          (by simpa [wellNested] using hw) hp
        refine ⟨this.1, ?_, ?_⟩
        · rw [this.2.1]
          simp only [countStarts]
          omega
        · simp only [openStarts, openDepth]
          rw [this.2.2]
          try simp
      | end_element name =>
        have hs : cd_dom_end_element_cb priv name = some p1 := he
        cases stack with
        | nil => simp [wellNested] at hw
        | cons c tl =>
          have hr1 := Reach.close name hr hs
          have e1 := open_close priv p1 c tl (by simpa using hcur) hch name hs
          have := ih p1 tl n hr1 (by rw [e1]; exact hlen)
            (by simpa [wellNested] using hw) hp
          refine ⟨this.1, ?_, ?_⟩
          · rw [this.2.1]
            simp only [countStarts]
          · simp only [openStarts, openDepth, List.tail_cons]
            rw [this.2.2]
            try simp
      | text t =>
        have hs : cd_dom_text_cb priv t = some p1 := he
        obtain ⟨_, _, h3, _⟩ := text_cb_heap priv p1 t hs
        have := ih p1 stack n (Reach.text t hr hs) (by rw [h3, hlen])
          (by simpa [wellNested] using hw) hp
        refine ⟨this.1, ?_, ?_⟩
        · rw [this.2.1]
          simp only [countStarts]
        · simp only [openStarts, openDepth]
          rw [this.2.2]
          try simp


theorem end_cb_heap (priv priv1 : CdDomPrivate) (name : GStr)
    (hs : cd_dom_end_element_cb priv name = some priv1) :
    priv1.root = priv.root ∧ priv1.heap = priv.heap := by
  unfold cd_dom_end_element_cb at hs
  cases hc : priv.current with
  | none => simp [hc] at hs
  | some cur =>
    cases hn : priv.heap[cur]? with
    | none => simp [hc, hn] at hs
    | some n =>
      simp only [hc, hn] at hs
      cases hs
      exact ⟨rfl, rfl⟩

theorem wellNested_append (a b : List GMarkupEvent) (d : Nat)
    (h : wellNested d (a ++ b) = true) : wellNested d a = true := by
  induction a generalizing d with
  | nil => rfl
  | cons e rest ih =>
    cases e with
    | start_element name ks vs => exact ih _ (by simpa [wellNested] using h)
    | end_element name =>
      simp only [List.cons_append, wellNested, Bool.and_eq_true] at h ⊢
      exact ⟨h.1, ih _ h.2⟩
    | text t => exact ih _ (by simpa [wellNested] using h)

theorem textInsideElements_append (a b : List GMarkupEvent) (d : Nat)
    (h : textInsideElements d (a ++ b) = true) : textInsideElements d a = true := by
  induction a generalizing d with
  | nil => rfl
  | cons e rest ih =>
    cases e with
    | start_element name ks vs => exact ih _ (by simpa [textInsideElements] using h)
    | end_element name => exact ih _ (by simpa [textInsideElements] using h)
    | text t =>
      simp only [List.cons_append, textInsideElements, Bool.and_eq_true] at h ⊢
      exact ⟨h.1, ih _ h.2⟩

/-! ### Lemmas: the names of the nodes -/

theorem name_start (priv priv1 : CdDomPrivate) (hinv : Inv priv) (name : GStr)
    (ks vs : List GStr) (hs : cd_dom_start_element_cb priv name ks vs = some priv1) (i : Nat) :
    cd_dom_get_node_name priv1.heap i =
      if i = priv.heap.length then some name else cd_dom_get_node_name priv.heap i := by
  obtain ⟨_, _, _, h4⟩ := start_heap priv priv1 hinv name ks vs hs
  unfold cd_dom_get_node_name
  rw [h4]
  by_cases hc : priv.current = some i
  · have hlt := hinv.cur _ hc
    rw [if_pos hc, if_neg (by omega), List.getElem?_eq_getElem hlt]
    rfl
  · rw [if_neg hc]
    by_cases hi : i = priv.heap.length
    · rw [if_pos hi, if_pos hi]
    · rw [if_neg hi, if_neg hi]

theorem get_node_name_shape (heap : List GNode) (i : Nat) :
    cd_dom_get_node_name heap i =
      ((heap[i]?).map (fun n =>
        (n.parent, n.children, n.data.map (fun d => (d.name, d.attributes))))).bind
        (fun x => x.2.2.map Prod.fst) := by
  unfold cd_dom_get_node_name
  cases h : heap[i]? with
  | none => rfl
  | some n =>
    cases hd : n.data with
    | none => simp [hd]
    | some d => simp [hd]

theorem name_text (priv priv1 : CdDomPrivate) (t : GStr)
    (hs : cd_dom_text_cb priv t = some priv1) (i : Nat) :
    cd_dom_get_node_name priv1.heap i = cd_dom_get_node_name priv.heap i := by
  rw [get_node_name_shape, get_node_name_shape, (text_cb_heap priv priv1 t hs).2.2.2 i]

theorem names_parse (events : List GMarkupEvent) (priv priv1 : CdDomPrivate) (hinv : Inv priv)
    (hp : g_markup_parse_context_parse priv events = some priv1) (i : Nat) :
    cd_dom_get_node_name priv1.heap i =
      if i < priv.heap.length then cd_dom_get_node_name priv.heap i
      else (startNames events)[i - priv.heap.length]? := by
  induction events generalizing priv with
  | nil =>
    simp only [g_markup_parse_context_parse] at hp
    cases hp
    by_cases hi : i < priv1.heap.length
    · rw [if_pos hi]
    · rw [if_neg hi]
      simp [startNames, cd_dom_get_node_name, List.getElem?_eq_none (Nat.le_of_not_lt hi)]
  | cons e rest ih =>
    simp only [g_markup_parse_context_parse] at hp
    cases he : parser priv e with
    | none => simp [he] at hp
    | some p1 =>
      simp only [he] at hp
      have hinv1 := Inv_event priv p1 hinv e he
      rw [ih p1 hinv1 hp]
      cases e with
      | start_element name ks vs =>
        have hs : cd_dom_start_element_cb priv name ks vs = some p1 := he
        obtain ⟨_, _, h3, _⟩ := start_heap priv p1 hinv name ks vs hs
        rw [h3, name_start priv p1 hinv name ks vs hs]
        simp only [startNames]
        by_cases h1 : i < priv.heap.length
        · rw [if_pos (by omega), if_pos h1, if_neg (by omega)]
        · rw [if_neg h1]
          by_cases h2 : i = priv.heap.length
          · rw [if_pos (by omega), if_pos h2, h2]
            simp
          · rw [if_neg (by omega)]
            have : i - priv.heap.length = (i - (priv.heap.length + 1)) + 1 := by omega
            rw [this, List.getElem?_cons_succ]
      | end_element name =>
        have hs : cd_dom_end_element_cb priv name = some p1 := he
        rw [(end_cb_heap priv p1 name hs).2]
        simp only [startNames]
      | text t =>
        have hs : cd_dom_text_cb priv t = some p1 := he
        obtain ⟨_, _, h3, _⟩ := text_cb_heap priv p1 t hs
        rw [h3, name_text priv p1 t hs]
        simp only [startNames]

/-! ### Lemmas: the tree predicate -/

theorem TreeLinks_init : TreeLinks cd_dom_init.heap := by
  constructor
  · intro c cn p hc hp
    have hlt := getElem?_lt hc
    have h0 : c = 0 := by
      simp [cd_dom_init, g_node_new] at hlt
      exact hlt
    subst h0
    simp [cd_dom_init, g_node_new] at hc
    subst hc
    cases hp
  · intro p pn hp
    have hlt := getElem?_lt hp
    have h0 : p = 0 := by
      simp [cd_dom_init, g_node_new] at hlt
      exact hlt
    subst h0
    simp [cd_dom_init, g_node_new] at hp
    subst hp
    exact List.nodup_nil

theorem TreeLinks_congr (heap heap1 : List GNode)
    (h : ∀ i : Nat, (heap1[i]?).map (fun n => (n.parent, n.children))
      = (heap[i]?).map (fun n => (n.parent, n.children)))
    (ht : TreeLinks heap) : TreeLinks heap1 := by
  have key : ∀ (i : Nat) (n1 : GNode), heap1[i]? = some n1 →
      ∃ n0 : GNode, heap[i]? = some n0 ∧ n0.parent = n1.parent ∧ n0.children = n1.children := by
    intro i n1 h1
    have := h i
    rw [h1] at this
    cases h0 : heap[i]? with
    | none => simp [h0] at this
    | some n0 =>
      simp only [h0, Option.map_some', Option.some.injEq, Prod.mk.injEq] at this
      exact ⟨n0, rfl, this.1.symm, this.2.symm⟩
  have key2 : ∀ (i : Nat) (n0 : GNode), heap[i]? = some n0 →
      ∃ n1 : GNode, heap1[i]? = some n1 ∧ n1.parent = n0.parent ∧ n1.children = n0.children := by
    intro i n0 h0
    have := h i
    rw [h0] at this
    cases h1 : heap1[i]? with
    | none => simp [h1] at this
    | some n1 =>
      simp only [h1, Option.map_some', Option.some.injEq, Prod.mk.injEq] at this
      exact ⟨n1, rfl, this.1, this.2⟩
  constructor
  · intro c cn p hc hp
    obtain ⟨n0, h0, hp0, _⟩ := key c cn hc
    obtain ⟨pn, hpn, hmem⟩ := ht.parent_child c n0 p h0 (by rw [hp0, hp])
    obtain ⟨pn1, h1, _, hch⟩ := key2 p pn hpn
    exact ⟨pn1, h1, by rw [hch]; exact hmem⟩
  · intro p pn hp
    obtain ⟨n0, h0, _, hch⟩ := key p pn hp
    rw [← hch]
    exact ht.nodup p n0 h0

theorem IsTree_init : IsTree cd_dom_init := ⟨Inv_init, TreeLinks_init⟩

theorem IsTree_start (priv priv1 : CdDomPrivate) (h : IsTree priv) (name : GStr)
    (ks vs : List GStr) (hs : cd_dom_start_element_cb priv name ks vs = some priv1) :
    IsTree priv1 := by
  obtain ⟨hinv, ht⟩ := h
  refine ⟨Inv_start priv priv1 hinv name ks vs hs, ?_⟩
  obtain ⟨_, _, _, h4⟩ := start_heap priv priv1 hinv name ks vs hs
  have old : ∀ (p : Nat) (pn : GNode), priv.heap[p]? = some pn →
      ∃ pn1 : GNode, priv1.heap[p]? = some pn1 ∧ ∀ c ∈ pn.children, c ∈ pn1.children := by
    intro p pn hp
    have hlt := getElem?_lt hp
    rw [h4, hp]
    by_cases hc : priv.current = some p
    · rw [if_pos hc]
      exact ⟨_, rfl, fun c hc => List.mem_append_left _ hc⟩
    · rw [if_neg hc, if_neg (by omega)]
      exact ⟨pn, rfl, fun c hc => hc⟩
  constructor
  · intro c cn p hc hp
    rw [h4] at hc
    by_cases h1 : priv.current = some c
    · rw [if_pos h1] at hc
      cases h0 : priv.heap[c]? with
      | none => simp [h0] at hc
      | some n0 =>
        simp only [h0, Option.map_some', Option.some.injEq] at hc
        subst hc
        obtain ⟨pn, hpn, hmem⟩ := ht.parent_child c n0 p h0 hp
        obtain ⟨pn1, hp1, hsub⟩ := old p pn hpn
        exact ⟨pn1, hp1, hsub c hmem⟩
    · rw [if_neg h1] at hc
      by_cases h2 : c = priv.heap.length
      · rw [if_pos h2] at hc
        simp only [Option.some.injEq] at hc
        subst hc
        have hcur : priv.current = some p := hp
        have hlt := hinv.cur _ hcur
        rw [h4, if_pos hcur, List.getElem?_eq_getElem hlt]
        exact ⟨_, rfl, by simp [h2]⟩
      · rw [if_neg h2] at hc
        obtain ⟨pn, hpn, hmem⟩ := ht.parent_child c cn p hc hp
        obtain ⟨pn1, hp1, hsub⟩ := old p pn hpn
        exact ⟨pn1, hp1, hsub c hmem⟩
  · intro p pn hp
    rw [h4] at hp
    by_cases h1 : priv.current = some p
    · rw [if_pos h1] at hp
      cases h0 : priv.heap[p]? with
      | none => simp [h0] at hp
      | some n0 =>
        simp only [h0, Option.map_some', Option.some.injEq] at hp
        subst hp
        show (n0.children ++ [priv.heap.length]).Nodup
        rw [List.nodup_append]
        refine ⟨ht.nodup p n0 h0, List.nodup_singleton _, ?_⟩
        intro a ha hb
        obtain ⟨cn, _, hcn, _, _⟩ := hinv.linked.child p n0 h0 a ha
        have := getElem?_lt hcn
        simp only [List.mem_singleton] at hb
        omega
    · rw [if_neg h1] at hp
      by_cases h2 : p = priv.heap.length
      · rw [if_pos h2] at hp
        simp only [Option.some.injEq] at hp
        subst hp
        exact List.nodup_nil
      · rw [if_neg h2] at hp
        exact ht.nodup p pn hp

theorem IsTree_end (priv priv1 : CdDomPrivate) (h : IsTree priv) (name : GStr)
    (hs : cd_dom_end_element_cb priv name = some priv1) : IsTree priv1 := by
  refine ⟨Inv_end priv priv1 h.1 name hs, ?_⟩
  rw [(end_cb_heap priv priv1 name hs).2]
  exact h.2

theorem IsTree_text (priv priv1 : CdDomPrivate) (h : IsTree priv) (t : GStr)
    (hs : cd_dom_text_cb priv t = some priv1) : IsTree priv1 := by
  refine ⟨Inv_text priv priv1 h.1 t hs, ?_⟩
  obtain ⟨_, _, _, h4⟩ := text_cb_heap priv priv1 t hs
  refine TreeLinks_congr priv.heap priv1.heap (fun i => ?_) h.2
  have := congrArg (Option.map (fun x : Option Nat × List Nat × Option (GStr × GHashTable) =>
    (x.1, x.2.1))) (h4 i)
  simpa [Option.map_map, Function.comp] using this

theorem Reach.isTree {priv : CdDomPrivate} {stack : List Nat} (h : Reach priv stack) :
    IsTree priv := by
  induction h with
  | init => exact IsTree_init
  | start name ks vs _ hs ih => exact IsTree_start _ _ ih name ks vs hs
  | close name _ hs ih => exact IsTree_end _ _ ih name hs
  | text t _ hs ih => exact IsTree_text _ _ ih t hs

theorem Reach.has_parent {priv : CdDomPrivate} {stack : List Nat} (h : Reach priv stack)
    (c : Nat) (h0 : 0 < c) (hlt : c < priv.heap.length) :
    ∃ (cn : GNode) (p : Nat), priv.heap[c]? = some cn ∧ cn.parent = some p := by
  induction h generalizing c with
  | init =>
    simp [cd_dom_init, g_node_new] at hlt
    omega
  | @start priv priv1 stack name ks vs hr hs ih =>
    obtain ⟨hinv, hcur, _⟩ := hr.basic
    obtain ⟨_, _, h3, h4⟩ := start_heap priv priv1 hinv name ks vs hs
    rw [h4]
    by_cases h1 : priv.current = some c
    · obtain ⟨cn, p, hcn, hp⟩ := ih c h0 (hinv.cur _ h1)
      rw [if_pos h1, hcn]
      exact ⟨_, p, rfl, hp⟩
    · rw [if_neg h1]
      by_cases h2 : c = priv.heap.length
      · rw [if_pos h2]
        exact ⟨_, _, rfl, hcur⟩
      · rw [if_neg h2]
        exact ih c h0 (by omega)
  | @close priv priv1 c1 stack name hr hs ih =>
    rw [(end_cb_heap priv priv1 name hs).2] at hlt ⊢
    exact ih c h0 hlt
  | @text priv priv1 stack t hr hs ih =>
    obtain ⟨_, _, h3, h4⟩ := text_cb_heap priv priv1 t hs
    obtain ⟨cn, p, hcn, hp⟩ := ih c h0 (by omega)
    have := h4 c
    rw [hcn] at this
    cases h1 : priv1.heap[c]? with
    | none => simp [h1] at this
    | some n1 =>
      simp only [h1, Option.map_some', Option.some.injEq, Prod.mk.injEq] at this
      exact ⟨n1, p, rfl, by rw [this.1, hp]⟩

theorem tree_walk (priv : CdDomPrivate) (h : IsTree priv)
    (hpar : ∀ c : Nat, 0 < c → c < priv.heap.length →
      ∃ (cn : GNode) (p : Nat), priv.heap[c]? = some cn ∧ cn.parent = some p)
    (n : Nat) (hlt : n < priv.heap.length) :
    Descends priv.heap priv.root n ∧ ∃ cs : List Nat, Walk priv.heap priv.root cs n := by
  induction n using Nat.strong_induction_on with
  | _ n ih =>
    by_cases h0 : n = 0
    · subst h0
      rw [h.1.root]
      exact ⟨Descends.root, [], Walk.nil⟩
    · obtain ⟨cn, p, hcn, hp⟩ := hpar n (by omega) hlt
      have hpl := h.1.linked.parent n cn p hcn hp
      obtain ⟨hd, cs, hw⟩ := ih p hpl (by omega)
      obtain ⟨pn, hpn, hmem⟩ := h.2.parent_child n cn p hcn hp
      exact ⟨Descends.child hd hpn hmem, cs ++ [n], Walk.snoc hw hcn hp hpl⟩

theorem tree_unique_parent (priv : CdDomPrivate) (h : IsTree priv) (n p : Nat) (cn : GNode)
    (hcn : priv.heap[n]? = some cn) (hp : cn.parent = some p) :
    (∃ pn : GNode, priv.heap[p]? = some pn ∧ pn.children.count n = 1) ∧
      ∀ (q : Nat) (qn : GNode), priv.heap[q]? = some qn → n ∈ qn.children → q = p := by
  constructor
  · obtain ⟨pn, hpn, hmem⟩ := h.2.parent_child n cn p hcn hp
    exact ⟨pn, hpn, List.count_eq_one_of_mem (h.2.nodup p pn hpn) hmem⟩
  · intro q qn hq hmem
    obtain ⟨cn1, _, h1, h2, _⟩ := h.1.linked.child q qn hq n hmem
    rw [hcn] at h1
    cases h1
    rw [hp] at h2
    exact (Option.some.inj h2).symm

/-! ### Lemmas: printing -/

theorem flatMap_congr_mem {α β : Type} (l : List α) (f g : α → List β)
    (h : ∀ x ∈ l, f x = g x) : l.flatMap f = l.flatMap g := by
  induction l with
  | nil => rfl
  | cons a t ih =>
    simp only [List.flatMap_cons]
    rw [h a (List.mem_cons_self _ _), ih (fun x hx => h x (List.mem_cons_of_mem _ hx))]

theorem print_node_cb_eq (heap : List GNode) (node : Nat) (s : GStr) :
    cd_dom_print_node_cb heap node s = (false, s ++ (cd_dom_print_node_cb heap node []).2) := by
  unfold cd_dom_print_node_cb
  cases h : heap[node]? with
  | none => simp
  | some n =>
    cases hd : n.data with
    | none => simp [hd]
    | some d => simp [hd, List.append_assoc]

theorem traverse_loop_eq (visit : Nat → GStr → Bool × GStr)
    (order : Nat → List Nat) (out : Nat → GStr)
    (hv : ∀ n s, visit n s = (false, s ++ (order n).flatMap out)) (cs : List Nat) (s : GStr) :
    g_node_traverse_pre_order.loop visit cs s = (false, s ++ (cs.flatMap order).flatMap out) := by
  induction cs generalizing s with
  | nil => simp [g_node_traverse_pre_order.loop]
  | cons c rest ih =>
    simp only [g_node_traverse_pre_order.loop, hv, Bool.false_eq_true, if_false, ih]
    simp [List.flatMap_append, List.append_assoc]

theorem traverse_eq (heap : List GNode) (func : Nat → GStr → Bool × GStr) (out : Nat → GStr)
    (hf : ∀ n s, func n s = (false, s ++ out n)) (fuel node : Nat) (s : GStr) :
    g_node_traverse_pre_order heap func fuel node s
      = (false, s ++ (preorder heap fuel node).flatMap out) := by
  induction fuel generalizing node s with
  | zero => simp [g_node_traverse_pre_order, preorder]
  | succ fuel ih =>
    simp only [g_node_traverse_pre_order, preorder, hf, Bool.false_eq_true, if_false]
    by_cases hc : childrenOf heap node = []
    · simp [hc]
    · rw [if_pos hc, traverse_loop_eq _ (preorder heap fuel) out (fun n s => ih n s)]
      simp [List.append_assoc]

theorem preorder_congr (heap heap1 : List GNode) (P : Nat → Prop)
    (hch : ∀ n, P n → childrenOf heap1 n = childrenOf heap n)
    (hcl : ∀ n, P n → ∀ c ∈ childrenOf heap n, P c) (fuel n : Nat) (hn : P n) :
    preorder heap1 fuel n = preorder heap fuel n := by
  induction fuel generalizing n with
  | zero => rfl
  | succ fuel ih =>
    simp only [preorder]
    rw [hch n hn]
    rw [flatMap_congr_mem _ _ _ (fun c hc => ih c (hcl n hn c hc))]

theorem stack_le_head (heap : List GNode) (hl : Linked heap) (stack : List Nat)
    (hch : OpenChain heap 0 stack) (x : Nat) (hx : x ∈ stack) : x ≤ stack.headD 0 := by
  induction stack with
  | nil => cases hx
  | cons h t ih =>
    obtain ⟨_, ⟨cn, hcn, hp⟩, ht⟩ := hch
    rcases List.mem_cons.1 hx with h1 | h1
    · subst h1
      exact Nat.le_refl _
    · have := ih ht h1
      have := hl.parent h cn _ hcn hp
      show x ≤ h
      omega

theorem open_parent (heap : List GNode) (stack : List Nat) (hch : OpenChain heap 0 stack)
    (c : Nat) (hc : c ∈ stack) :
    ∃ (cn : GNode) (p : Nat), heap[c]? = some cn ∧ cn.parent = some p ∧ (p ∈ stack ∨ p = 0) := by
  induction stack with
  | nil => cases hc
  | cons h t ih =>
    obtain ⟨_, ⟨cn, hcn, hp⟩, ht⟩ := hch
    rcases List.mem_cons.1 hc with h1 | h1
    · subst h1
      refine ⟨cn, _, hcn, hp, ?_⟩
      cases t with
      | nil => exact Or.inr rfl
      | cons a b => exact Or.inl (by simp)
    · obtain ⟨cn1, p, h2, h3, h4⟩ := ih ht h1
      refine ⟨cn1, p, h2, h3, ?_⟩
      rcases h4 with h4 | h4
      · exact Or.inl (List.mem_cons_of_mem _ h4)
      · exact Or.inr h4

theorem open_child (heap : List GNode) (stack : List Nat) (hch : OpenChain heap 0 stack)
    (n : Nat) (hn : n ∈ stack ++ [0]) (hne : n ≠ stack.headD 0) :
    ∃ a ∈ stack, ∃ an : GNode, heap[a]? = some an ∧ an.parent = some n := by
  induction stack with
  | nil =>
    simp at hn
    exact absurd hn hne
  | cons h t ih =>
    obtain ⟨_, ⟨cn, hcn, hp⟩, ht⟩ := hch
    have hn1 : n ∈ t ++ [0] := by
      rcases List.mem_cons.1 hn with h1 | h1
      · exact absurd h1 hne
      · exact h1
    by_cases h2 : n = t.headD 0
    · exact ⟨h, List.mem_cons_self _ _, cn, hcn, by rw [hp, h2]⟩
    · obtain ⟨a, ha, an, h3, h4⟩ := ih ht hn1 h2
      exact ⟨a, List.mem_cons_of_mem _ ha, an, h3, h4⟩

theorem childrenOf_mem (priv : CdDomPrivate) (hinv : Inv priv) (n c : Nat)
    (hc : c ∈ childrenOf priv.heap n) :
    ∃ cn : GNode, priv.heap[c]? = some cn ∧ cn.parent = some n ∧ 0 < c ∧ n < c ∧
      c < priv.heap.length := by
  unfold childrenOf at hc
  cases hn : priv.heap[n]? with
  | none => simp [hn] at hc
  | some pn =>
    simp only [hn] at hc
    obtain ⟨cn, d, h1, h2, h3⟩ := hinv.linked.child n pn hn c hc
    have := hinv.linked.parent c cn n h1 h2
    exact ⟨cn, h1, h2, by omega, this, getElem?_lt h1⟩

theorem closed_children (priv : CdDomPrivate) (hinv : Inv priv) (stack : List Nat)
    (hch : OpenChain priv.heap 0 stack) (n : Nat) (hn : n ∉ stack ∧ n ≠ 0) (c : Nat)
    (hc : c ∈ childrenOf priv.heap n) : c ∉ stack ∧ c ≠ 0 := by
  obtain ⟨cn, h1, h2, h3, _, _⟩ := childrenOf_mem priv hinv n c hc
  refine ⟨fun hs => ?_, by omega⟩
  obtain ⟨cn1, p, h4, h5, h6⟩ := open_parent priv.heap stack hch c hs
  rw [h1] at h4
  cases h4
  rw [h2] at h5
  cases h5
  rcases h6 with h6 | h6
  · exact hn.1 h6
  · exact hn.2 h6

theorem cursor_children_closed (priv : CdDomPrivate) (hinv : Inv priv) (stack : List Nat)
    (hch : OpenChain priv.heap 0 stack) (c : Nat)
    (hc : c ∈ childrenOf priv.heap (stack.headD 0)) : c ∉ stack ∧ c ≠ 0 := by
  obtain ⟨cn, h1, h2, h3, h4, _⟩ := childrenOf_mem priv hinv _ c hc
  refine ⟨fun hs => ?_, by omega⟩
  have := stack_le_head priv.heap hinv.linked stack hch c hs
  omega

theorem childrenOf_start (priv priv1 : CdDomPrivate) (hinv : Inv priv) (name : GStr)
    (ks vs : List GStr) (hs : cd_dom_start_element_cb priv name ks vs = some priv1) (i : Nat) :
    childrenOf priv1.heap i =
      if priv.current = some i then childrenOf priv.heap i ++ [priv.heap.length]
      else childrenOf priv.heap i := by
  obtain ⟨_, _, _, h4⟩ := start_heap priv priv1 hinv name ks vs hs
  unfold childrenOf
  rw [h4]
  by_cases hc : priv.current = some i
  · have hlt := hinv.cur _ hc
    rw [if_pos hc, if_pos hc, List.getElem?_eq_getElem hlt]
    rfl
  · rw [if_neg hc, if_neg hc]
    by_cases hi : i = priv.heap.length
    · rw [if_pos hi, hi, List.getElem?_eq_none (Nat.le_refl _)]
    · rw [if_neg hi]

theorem childrenOf_text (priv priv1 : CdDomPrivate) (t : GStr)
    (hs : cd_dom_text_cb priv t = some priv1) (i : Nat) :
    childrenOf priv1.heap i = childrenOf priv.heap i := by
  have := (text_cb_heap priv priv1 t hs).2.2.2 i
  unfold childrenOf
  cases h1 : priv1.heap[i]? with
  | none =>
    cases h0 : priv.heap[i]? with
    | none => rfl
    | some n0 => simp [h1, h0] at this
  | some n1 =>
    cases h0 : priv.heap[i]? with
    | none => simp [h1, h0] at this
    | some n0 =>
      simp only [h1, h0, Option.map_some', Option.some.injEq, Prod.mk.injEq] at this
      exact this.2.1

theorem range'_split (a b c : Nat) (h1 : a ≤ b) (h2 : b ≤ c) :
    List.range' a (c - a) = List.range' a (b - a) ++ List.range' b (c - b) := by
  have := List.range'_append_1 a (b - a) (c - b)
  rw [show a + (b - a) = b by omega, show c - b + (b - a) = c - a by omega] at this
  exact this.symm

theorem childrenOf_end (heap : List GNode) : childrenOf heap heap.length = [] := by
  simp [childrenOf]

theorem full_lt (priv : CdDomPrivate) (hinv : Inv priv) (stack : List Nat)
    (hch : OpenChain priv.heap 0 stack) (n : Nat) (hn : n ∈ stack ++ [0]) :
    n < priv.heap.length := by
  rcases List.mem_append.1 hn with h | h
  · obtain ⟨cn, _, h1, _, _⟩ := open_parent priv.heap stack hch n h
    exact getElem?_lt h1
  · obtain ⟨rn, hrn, _, _⟩ := hinv.rootNode
    simp only [List.mem_singleton] at h
    rw [h]
    exact getElem?_lt hrn

theorem headD_mem (stack : List Nat) : stack.headD 0 ∈ stack ∨ stack.headD 0 = 0 := by
  cases stack with
  | nil => exact Or.inr rfl
  | cons a b => exact Or.inl (by simp)

theorem Trav_init : Trav cd_dom_init [] := by
  constructor
  · intro n c _ hc
    cases hc
  · intro n hn fuel hf
    simp only [List.nil_append, List.mem_singleton] at hn
    subst hn
    have h1 : cd_dom_init.heap.length = 1 := rfl
    rw [h1] at hf ⊢
    cases fuel with
    | zero => omega
    | succ f =>
      have : childrenOf cd_dom_init.heap 0 = [] := rfl
      simp [preorder, this]

theorem Trav_start (priv priv1 : CdDomPrivate) (stack : List Nat) (hinv : Inv priv)
    (htl : TreeLinks priv.heap) (hcur : priv.current = some (stack.headD 0))
    (hch : OpenChain priv.heap 0 stack) (ht : Trav priv stack) (name : GStr)
    (ks vs : List GStr) (hs : cd_dom_start_element_cb priv name ks vs = some priv1) :
    Trav priv1 (priv.heap.length :: stack) := by
  obtain ⟨_, _, h3, _⟩ := start_heap priv priv1 hinv name ks vs hs
  have hco := childrenOf_start priv priv1 hinv name ks vs hs
  have hcc := cursor_children_closed priv hinv stack hch
  have hlt := hinv.cur _ hcur
  have hbelow : ∀ n c, c ∈ childrenOf priv.heap n → 0 < c ∧ c < priv.heap.length := by
    intro n c hc
    obtain ⟨_, _, _, h5, _, h6⟩ := childrenOf_mem priv hinv n c hc
    exact ⟨h5, h6⟩
  have hcureq : ∀ n, priv.current = some n ↔ n = stack.headD 0 := by
    intro n
    rw [hcur]
    constructor
    · intro h
      exact (Option.some.inj h).symm
    · intro h
      rw [h]
  have hclosed : ∀ f c, (c ∉ stack ∧ c ≠ 0) →
      preorder priv1.heap f c = preorder priv.heap f c := by
    intro f c hc
    refine preorder_congr priv.heap priv1.heap (fun x => x ∉ stack ∧ x ≠ 0) ?_
      (fun x hx y hy => closed_children priv hinv stack hch x hx y hy) f c hc
    intro x hx
    rw [hco, if_neg]
    rw [hcureq]
    intro h
    rcases headD_mem stack with h1 | h1
    · exact hx.1 (h ▸ h1)
    · exact hx.2 (h.trans h1)
  constructor
  · intro n c hc hmem
    rw [hco] at hc ⊢
    by_cases h1 : priv.current = some n
    · rw [if_pos h1] at hc ⊢
      have hn : n = stack.headD 0 := (hcureq n).1 h1
      rcases List.mem_append.1 hc with h2 | h2
      · exfalso
        have hb := hbelow n c h2
        rw [hn] at h2
        have := (hcc c h2).1
        rcases List.mem_cons.1 hmem with h5 | h5
        · omega
        · exact this h5
      · simp only [List.mem_singleton] at h2
        subst h2
        exact List.getLast?_concat _
    · rw [if_neg h1] at hc ⊢
      have hb := hbelow n c hc
      rcases List.mem_cons.1 hmem with h5 | h5
      · omega
      · exact ht.last n c hc h5
  · have hnew : ∀ f, preorder priv1.heap (f + 1) priv.heap.length = [priv.heap.length] := by
      intro f
      simp only [preorder]
      rw [hco, if_neg (by rw [hcureq]; omega), childrenOf_end]
      rfl
    have key : ∀ k n, priv.heap.length - n = k → n ∈ stack ++ [0] → ∀ fuel,
        priv.heap.length + 1 ≤ fuel + n →
        preorder priv1.heap fuel n = List.range' n (priv.heap.length + 1 - n) := by
      intro k
      induction k using Nat.strong_induction_on with
      | _ k ih =>
        intro n hk hn fuel hf
        have hnlt := full_lt priv hinv stack hch n hn
        cases fuel with
        | zero => omega
        | succ f =>
          have e3 := ht.pre n hn (f + 1) (by omega)
          simp only [preorder] at e3 ⊢
          rw [hco]
          by_cases h1 : n = stack.headD 0
          · rw [if_pos ((hcureq n).2 h1), List.flatMap_append, List.flatMap_singleton]
            have hf1 : f = (f - 1) + 1 := by omega
            have e1 : preorder priv1.heap f priv.heap.length = [priv.heap.length] := by
              rw [hf1]
              exact hnew _
            have e2 : (childrenOf priv.heap n).flatMap (preorder priv1.heap f)
                = (childrenOf priv.heap n).flatMap (preorder priv.heap f) :=
              flatMap_congr_mem _ _ _ (fun c hc => hclosed f c (hcc c (h1 ▸ hc)))
            rw [e1, e2, ← List.cons_append, e3]
            rw [range'_split n priv.heap.length (priv.heap.length + 1) (by omega) (by omega)]
            simp
          · rw [if_neg (fun h => h1 ((hcureq n).1 h))]
            obtain ⟨a, ha, an, han, hpar⟩ := open_child priv.heap stack hch n hn h1
            have hna := hinv.linked.parent a an n han hpar
            have hal := getElem?_lt han
            obtain ⟨pn, hpn, hmem⟩ := htl.parent_child a an n han hpar
            have hchn : childrenOf priv.heap n = pn.children := by simp [childrenOf, hpn]
            have hlast := ht.last n a (by rw [hchn]; exact hmem) ha
            obtain ⟨ini, hini⟩ := List.getLast?_eq_some_iff.1 hlast
            have hnd : (ini ++ [a]).Nodup := by
              rw [← hini, hchn]
              exact htl.nodup n pn hpn
            have hiniclosed : ∀ x ∈ ini, x ∉ stack ∧ x ≠ 0 := by
              intro x hx
              have hxm : x ∈ childrenOf priv.heap n := by
                rw [hini]
                exact List.mem_append_left _ hx
              refine ⟨fun hs => ?_, by have := (hbelow n x hxm).1; omega⟩
              have h5 := ht.last n x hxm hs
              rw [hini, List.getLast?_concat] at h5
              have h6 : a = x := Option.some.inj h5
              rw [List.nodup_append] at hnd
              exact hnd.2.2 hx (by simp [h6])
            have e2 : ini.flatMap (preorder priv1.heap f) = ini.flatMap (preorder priv.heap f) :=
              flatMap_congr_mem _ _ _ (fun c hc => hclosed f c (hiniclosed c hc))
            have e4 := ih (priv.heap.length - a) (by omega) a rfl
              (List.mem_append_left _ ha) f (by omega)
            have e5 := ht.pre a (List.mem_append_left _ ha) f (by omega)
            rw [hini, List.flatMap_append, List.flatMap_singleton] at e3 ⊢
            rw [e5, range'_split n a priv.heap.length (by omega) (by omega),
              ← List.cons_append] at e3
            have e6 := List.append_cancel_right e3
            rw [e4, e2, ← List.cons_append, e6]
            exact (range'_split n a (priv.heap.length + 1) (by omega) (by omega)).symm
    intro n hn fuel hf
    rw [h3] at hf ⊢
    rcases List.mem_cons.1 (hn : n ∈ priv.heap.length :: (stack ++ [0])) with h | h
    · subst h
      have hf1 : fuel = (fuel - 1) + 1 := by omega
      rw [hf1, hnew]
      simp
    · exact key _ n rfl h fuel hf

theorem Trav_text (priv priv1 : CdDomPrivate) (stack : List Nat) (ht : Trav priv stack)
    (t : GStr) (hs : cd_dom_text_cb priv t = some priv1) : Trav priv1 stack := by
  have hco := childrenOf_text priv priv1 t hs
  have hlen := (text_cb_heap priv priv1 t hs).2.2.1
  constructor
  · intro n c hc hmem
    rw [hco] at hc ⊢
    exact ht.last n c hc hmem
  · intro n hn fuel hf
    rw [hlen] at hf ⊢
    rw [preorder_congr priv.heap priv1.heap (fun _ => True) (fun x _ => hco x)
      (fun _ _ _ _ => trivial) fuel n trivial]
    exact ht.pre n hn fuel hf

theorem Reach.trav {priv : CdDomPrivate} {stack : List Nat} (h : Reach priv stack) :
    Trav priv stack := by
  induction h with
  | init => exact Trav_init
  | @start priv priv1 stack name ks vs hr hs ih =>
    obtain ⟨hinv, hcur, hch⟩ := hr.basic
    rw [hinv.root] at hcur hch
    exact Trav_start priv priv1 stack hinv hr.isTree.2 hcur hch ih name ks vs hs
  | @close priv priv1 c stack name hr hs ih =>
    have hheap := (end_cb_heap priv priv1 name hs).2
    constructor
    · intro n x hx hmem
      rw [hheap] at hx ⊢
      exact ih.last n x hx (List.mem_cons_of_mem _ hmem)
    · intro n hn fuel hf
      rw [hheap] at hf ⊢
      exact ih.pre n (List.mem_cons_of_mem _ hn) fuel hf
  | @text priv priv1 stack t hr hs ih => exact Trav_text priv priv1 stack ih t hs


theorem depth_walk {heap : List GNode} {cs : List Nat} {n : Nat} (rn : GNode)
    (hr : heap[0]? = some rn) (hp : rn.parent = none) (w : Walk heap 0 cs n) (fuel : Nat)
    (hf : cs.length + 2 ≤ fuel) : g_node_depth heap fuel (some n) = cs.length + 1 := by
  induction w generalizing fuel with
  | nil =>
    obtain ⟨f, rfl⟩ : ∃ f, fuel = f + 2 := ⟨fuel - 2, by simp at hf; omega⟩
    simp [g_node_depth, hr, hp]
  | @snoc cs p c cn w1 hc hpar _ ih =>
    simp only [List.length_append, List.length_singleton] at hf ⊢
    obtain ⟨f, rfl⟩ : ∃ f, fuel = f + 1 := ⟨fuel - 1, by omega⟩
    simp only [g_node_depth, hc, hpar]
    rw [ih f (by omega)]

theorem sum_map_succ (l : List Nat) (f g : Nat → Nat) (h : ∀ x ∈ l, f x = g x + 1) :
    (l.map f).sum = l.length + (l.map g).sum := by
  induction l with
  | nil => rfl
  | cons a t ih =>
    simp only [List.map_cons, List.sum_cons, List.length_cons]
    rw [h a (List.mem_cons_self _ _), ih (fun x hx => h x (List.mem_cons_of_mem _ hx))]
    omega

theorem sum_map_zero (l : List Nat) (g : Nat → Nat) (h : ∀ x ∈ l, g x = 0) :
    (l.map g).sum = 0 := by
  induction l with
  | nil => rfl
  | cons a t ih =>
    simp only [List.map_cons, List.sum_cons]
    rw [h a (List.mem_cons_self _ _), ih (fun x hx => h x (List.mem_cons_of_mem _ hx))]

theorem lineCount_printedLine (depth : Nat) (name text : GStr) :
    lineCount (printedLine depth name text) = lineCount name + lineCount text + 1 := by
  simp only [lineCount, printedLine, List.count_append, List.count_replicate]
  have h1 : List.count '\n' "<".data = 0 := by decide
  have h2 : List.count '\n' "> [".data = 0 := by decide
  have h3 : List.count '\n' "]\n".data = 1 := by decide
  have h4 : ¬ ((' ' == '\n') = true) := by decide
  rw [h1, h2, h3, if_neg h4]
  omega

theorem print_node_cb_line (priv : CdDomPrivate) (hinv : Inv priv) (cs : List Nat) (n : Nat)
    (w : Walk priv.heap 0 cs n) (h0 : 0 < n) (hlt : n < priv.heap.length) :
    ∃ name text : GStr, cd_dom_get_node_name priv.heap n = some name ∧
      cd_dom_get_node_data priv.heap n = some text ∧
      nameOf priv.heap n = some name ∧ textOf priv.heap n = text ∧
      (cd_dom_print_node_cb priv.heap n []).2 = printedLine (cs.length + 1) name text := by
  obtain ⟨rn, hrn, _, hrp⟩ := hinv.rootNode
  have hn : priv.heap[n]? = some priv.heap[n] := List.getElem?_eq_getElem hlt
  obtain ⟨d, hd⟩ := hinv.elems n _ hn h0
  have hdepth := depth_walk rn hrn hrp w (priv.heap.length + 1) (by have := w.le; omega)
  refine ⟨d.name, d.cdata, ?_, ?_, ?_, ?_, ?_⟩
  · simp [cd_dom_get_node_name, hn, hd]
  · simp [cd_dom_get_node_data, hn, hd]
  · simp [nameOf, hn, hd]
  · simp [textOf, cd_dom_get_node_data, hn, hd]
  · simp only [cd_dom_print_node_cb, hn, hd, hdepth, printedLine, List.nil_append]

/-! ### Lemmas: building from a flattened tree -/

theorem parse_append (a b : List GMarkupEvent) (priv : CdDomPrivate) :
    g_markup_parse_context_parse priv (a ++ b)
      = (g_markup_parse_context_parse priv a).bind
          (fun p => g_markup_parse_context_parse p b) := by
  induction a generalizing priv with
  | nil => rfl
  | cons e rest ih =>
    simp only [List.cons_append, g_markup_parse_context_parse]
    cases parser priv e with
    | none => rfl
    | some p => exact ih p

mutual
theorem rep_frame (heap heap1 : List GNode) (hl : Linked heap) :
    ∀ (t : XmlTree) (n : Nat), (∀ i : Nat, n ≤ i → i < heap.length → heap1[i]? = heap[i]?) →
      n < heap.length → Rep heap n t → Rep heap1 n t
  | .node name ks vs text children, n, hfr, hn, h => by
    simp only [Rep] at h ⊢
    obtain ⟨h1, h2, h3, h4⟩ := h
    have e := hfr n (Nat.le_refl _) hn
    have hc : childrenOf heap1 n = childrenOf heap n := by simp [childrenOf, e]
    refine ⟨by simpa [cd_dom_get_node_name, e] using h1,
      by simpa [cd_dom_get_node_data, e] using h2,
      fun key => by simpa [cd_dom_get_node_attribute, e] using h3 key, ?_⟩
    rw [hc]
    refine repList_frame heap heap1 hl children (childrenOf heap n) (n + 1)
      (fun i hi hlt => hfr i (by omega) hlt) ?_ h4
    intro c hc
    unfold childrenOf at hc
    cases hn1 : heap[n]? with
    | none => simp [hn1] at hc
    | some pn =>
      simp only [hn1] at hc
      obtain ⟨cn, _, h5, h6, _⟩ := hl.child n pn hn1 c hc
      have := hl.parent c cn n h5 h6
      exact ⟨by omega, getElem?_lt h5⟩
theorem repList_frame (heap heap1 : List GNode) (hl : Linked heap) :
    ∀ (ts : List XmlTree) (cs : List Nat) (lo : Nat),
      (∀ i : Nat, lo ≤ i → i < heap.length → heap1[i]? = heap[i]?) →
      (∀ c ∈ cs, lo ≤ c ∧ c < heap.length) → RepList heap cs ts → RepList heap1 cs ts
  | [], [], _, _, _, _ => by simp only [RepList]
  | [], _ :: _, _, _, _, h => by simp only [RepList] at h
  | _ :: _, [], _, _, _, h => by simp only [RepList] at h
  | t :: ts, c :: cs, lo, hfr, hcs, h => by
    simp only [RepList] at h ⊢
    have hc := hcs c (List.mem_cons_self _ _)
    exact ⟨rep_frame heap heap1 hl t c (fun i hi hlt => hfr i (by omega) hlt) hc.2 h.1,
      repList_frame heap heap1 hl ts cs lo hfr
        (fun x hx => hcs x (List.mem_cons_of_mem _ hx)) h.2⟩
end


theorem build_open (priv : CdDomPrivate) (hinv : Inv priv) (c : Nat)
    (hcur : priv.current = some c) (name : GStr) (ks vs : List GStr) (text : GStr)
    (hok : text = [] ∨ hasNonBlank text = true) :
    ∃ p2 : CdDomPrivate,
      g_markup_parse_context_parse priv
        (.start_element name ks vs :: (if text = [] then [] else [.text text])) = some p2 ∧
      Inv p2 ∧ p2.current = some priv.heap.length ∧
      p2.heap.length = priv.heap.length + 1 ∧
      ∀ i : Nat, p2.heap[i]? =
        if i = c then
          (priv.heap[i]?).map fun pn =>
            GNode.mk pn.data pn.parent (pn.children ++ [priv.heap.length])
        else if i = priv.heap.length then
          some (GNode.mk (some ⟨name, text, cd_dom_start_element_cb.attrs ks vs []⟩)
            (some c) [])
        else priv.heap[i]? := by
  have hlt := hinv.cur _ hcur
  have hnode : priv.heap[c]? = some priv.heap[c] := List.getElem?_eq_getElem hlt
  have hs := start_element_some priv name ks vs c _ hcur hnode
  generalize hp1 : (CdDomPrivate.mk _ _ _) = p1 at hs
  clear hp1
  obtain ⟨_, h2, h3, h4⟩ := start_heap priv p1 hinv name ks vs hs
  have hinv1 := Inv_start priv p1 hinv name ks vs hs
  have h4c : ∀ i : Nat, p1.heap[i]? =
      if i = c then
        (priv.heap[i]?).map fun pn =>
          GNode.mk pn.data pn.parent (pn.children ++ [priv.heap.length])
      else if i = priv.heap.length then
        some (GNode.mk (some ⟨name, [], cd_dom_start_element_cb.attrs ks vs []⟩) (some c) [])
      else priv.heap[i]? := by
    intro i
    rw [h4, hcur]
    by_cases hi : i = c
    · rw [if_pos hi, if_pos (by rw [hi])]
    · rw [if_neg hi, if_neg (fun h => hi (Option.some.inj h).symm)]
  by_cases ht : text = []
  · subst ht
    refine ⟨p1, ?_, hinv1, h2, h3, h4c⟩
    simp only [g_markup_parse_context_parse, parser, hs, if_true]
  · have hnb : hasNonBlank text = true := hok.resolve_left ht
    have hnew : p1.heap[priv.heap.length]? =
        some (GNode.mk (some ⟨name, [], cd_dom_start_element_cb.attrs ks vs []⟩) (some c) []) := by
      rw [h4c, if_neg (by omega), if_pos rfl]
    have htx := text_cb_nonblank p1 text hnb
    simp only [h2, hnew, List.nil_append] at htx
    generalize hp2 : (CdDomPrivate.mk _ _ _) = p2 at htx
    have hinv2 := Inv_text p1 p2 hinv1 text htx
    refine ⟨p2, ?_, hinv2, ?_, ?_, ?_⟩
    · simp only [g_markup_parse_context_parse, parser, hs, if_neg ht, htx]
    · rw [← hp2]
    · rw [← hp2]
      simp [h3]
    · intro i
      rw [← hp2]
      show (p1.heap.set _ _)[i]? = _
      rw [List.getElem?_set]
      by_cases hi : priv.heap.length = i
      · rw [if_pos hi, if_pos (by omega), if_neg (by omega), if_pos hi.symm]
      · rw [if_neg hi, h4c]
        by_cases hic : i = c
        · rw [if_pos hic, if_pos hic]
        · rw [if_neg hic, if_neg hic, if_neg (fun h => hi h.symm), if_neg (fun h => hi h.symm)]


theorem Frame.trans {a b d : List GNode} {c : Nat} (h1 : Frame a b c) (h2 : Frame b d c) :
    Frame a d c := by
  obtain ⟨l1, f1, c1⟩ := h1
  obtain ⟨l2, f2, c2⟩ := h2
  refine ⟨Nat.le_trans l1 l2, fun i hi hne => ?_, c2.trans c1⟩
  rw [f2 i (by omega) hne, f1 i hi hne]

mutual
theorem build_tree :
    ∀ (t : XmlTree) (priv : CdDomPrivate) (c : Nat), Inv priv → priv.current = some c →
      textsOk t = true →
      ∃ p : CdDomPrivate, g_markup_parse_context_parse priv (flatten t) = some p ∧
        Inv p ∧ p.current = some c ∧ Frame priv.heap p.heap c ∧
        childrenOf p.heap c = childrenOf priv.heap c ++ [priv.heap.length] ∧
        priv.heap.length < p.heap.length ∧ Rep p.heap priv.heap.length t
  | .node name ks vs text children, priv, c, hinv, hcur, hok => by
    simp only [textsOk, Bool.and_eq_true, Bool.or_eq_true, decide_eq_true_eq] at hok
    obtain ⟨p2, hp2, hinv2, hcur2, hlen2, hheap2⟩ :=
      build_open priv hinv c hcur name ks vs text hok.1
    obtain ⟨p3, new, hp3, hinv3, hcur3, hfr3, hch3, hrep3, _⟩ :=
      build_list children p2 priv.heap.length hinv2 hcur2 hok.2
    have hclt := hinv.cur _ hcur
    have hc0 : priv.heap[c]? = some priv.heap[c] := List.getElem?_eq_getElem hclt
    have hn2 : p2.heap[priv.heap.length]? =
        some (GNode.mk (some ⟨name, text, cd_dom_start_element_cb.attrs ks vs []⟩)
          (some c) []) := by
      rw [hheap2, if_neg (by omega), if_pos rfl]
    have hc2 : p2.heap[c]? = some (GNode.mk priv.heap[c].data priv.heap[c].parent
        (priv.heap[c].children ++ [priv.heap.length])) := by
      rw [hheap2, if_pos rfl, hc0]
      rfl
    have hc3 : p3.heap[c]? = p2.heap[c]? := hfr3.2.1 c (by omega) (by omega)
    have hn3 := hfr3.2.2
    rw [hn2] at hn3
    cases hn3e : p3.heap[priv.heap.length]? with
    | none => simp [hn3e] at hn3
    | some n3 =>
      simp only [hn3e, Option.map_some', Option.some.injEq, Prod.mk.injEq] at hn3
      obtain ⟨hd3, hpar3⟩ := hn3
      have hend : cd_dom_end_element_cb p3 name
          = some (CdDomPrivate.mk p3.heap p3.root (some c)) := by
        simp [cd_dom_end_element_cb, hcur3, hn3e, hpar3]
      have hinv4 := Inv_end p3 _ hinv3 name hend
      refine ⟨CdDomPrivate.mk p3.heap p3.root (some c), ?_, hinv4, rfl, ?_, ?_, ?_, ?_⟩
      · have e : flatten (.node name ks vs text children)
            = (.start_element name ks vs :: (if text = [] then [] else [.text text]))
              ++ (flattenList children ++ [.end_element name]) := by
          simp [flatten]
        rw [e, parse_append, hp2, Option.some_bind, parse_append, hp3, Option.some_bind]
        simp only [g_markup_parse_context_parse, parser, hend]
      · refine ⟨show priv.heap.length ≤ p3.heap.length by have := hfr3.1; omega,
          fun i hi hne => ?_, ?_⟩
        · show p3.heap[i]? = _
          rw [hfr3.2.1 i (by omega) (by omega), hheap2, if_neg hne, if_neg (by omega)]
        · show Option.map _ p3.heap[c]? = _
          rw [hc3, hc2, hc0]
          rfl
      · show childrenOf p3.heap c = _
        simp [childrenOf, hc3, hc2, hc0]
      · have := hfr3.1
        show priv.heap.length < p3.heap.length
        omega
      · show Rep p3.heap priv.heap.length _
        simp only [Rep]
        refine ⟨by simp [cd_dom_get_node_name, hn3e, hd3],
          by simp [cd_dom_get_node_data, hn3e, hd3], fun key => ?_, ?_⟩
        · simp only [cd_dom_get_node_attribute, hn3e, hd3]
          rw [lookup_attrs]
          cases lastValue ks vs key with
          | none => rfl
          | some x => rfl
        · have : childrenOf p3.heap priv.heap.length = new := by
            rw [hch3]
            simp [childrenOf, hn2]
          rw [this]
          exact hrep3
theorem build_list :
    ∀ (ts : List XmlTree) (priv : CdDomPrivate) (c : Nat), Inv priv → priv.current = some c →
      textsOkList ts = true →
      ∃ (p : CdDomPrivate) (new : List Nat),
        g_markup_parse_context_parse priv (flattenList ts) = some p ∧
        Inv p ∧ p.current = some c ∧ Frame priv.heap p.heap c ∧
        childrenOf p.heap c = childrenOf priv.heap c ++ new ∧ RepList p.heap new ts ∧
        ∀ x ∈ new, priv.heap.length ≤ x ∧ x < p.heap.length
  | [], priv, c, hinv, hcur, _ =>
    ⟨priv, [], rfl, hinv, hcur, ⟨Nat.le_refl _, fun _ _ _ => rfl, rfl⟩, by simp,
      by simp only [RepList], fun _ hx => by cases hx⟩
  | t :: ts, priv, c, hinv, hcur, hok => by
    simp only [textsOkList, Bool.and_eq_true] at hok
    obtain ⟨p1, hp1, hinv1, hcur1, hfr1, hch1, hlt1, hrep1⟩ :=
      build_tree t priv c hinv hcur hok.1
    obtain ⟨p2, new, hp2, hinv2, hcur2, hfr2, hch2, hrep2, hnew2⟩ :=
      build_list ts p1 c hinv1 hcur1 hok.2
    have hclt := hinv.cur _ hcur
    refine ⟨p2, priv.heap.length :: new, ?_, hinv2, hcur2, hfr1.trans hfr2, ?_, ?_, ?_⟩
    · simp only [flattenList]
      rw [parse_append, hp1, Option.some_bind, hp2]
    · rw [hch2, hch1, List.append_assoc]
      rfl
    · simp only [RepList]
      refine ⟨rep_frame p1.heap p2.heap hinv1.linked t priv.heap.length
        (fun i hi hlt => hfr2.2.1 i hlt (by omega)) hlt1 hrep1, hrep2⟩
    · intro x hx
      have := hfr2.1
      rcases List.mem_cons.1 hx with h | h
      · subst h
        omega
      · have := hnew2 x h
        omega
end

/-! ### Claims -/

/-- C1: on every tree whose children are element nodes, from every start
node (the root when none is given) and for every path, `cd_dom_get_node`
equals the reference lookup: the path is split on `/`, each segment in turn
replaces the current node by its first direct child of that name, and the
lookup is not-found as soon as a segment has no such child. -/
theorem cd_dom_get_node_eq_referenceLookup (priv : CdDomPrivate)
    (h : childrenHaveData priv.heap = true) (root : Option Nat) (path : GStr) :
    cd_dom_get_node priv root path = referenceLookup priv root path := by
  unfold cd_dom_get_node referenceLookup
  rw [g_strsplit_eq_pathSegments, get_node_loop_eq_ref priv.heap h]
  cases root <;> rfl

/-- C1, witness: the document of `<a>1</a><a>2</a>`, where the lookup of `a`
returns the earlier sibling, whose text is `1`. -/
theorem cd_dom_get_node_eq_referenceLookup_witness :
    g_markup_parse_context_parse cd_dom_init twoSiblingsEvents = some twoSiblings ∧
    childrenHaveData twoSiblings.heap = true ∧
    cd_dom_get_node twoSiblings none "a".data = referenceLookup twoSiblings none "a".data ∧
    referenceLookup twoSiblings none "a".data = some 1 ∧
    cd_dom_get_node_data twoSiblings.heap 1 = some "1".data :=
  ⟨by decide, by decide,
    cd_dom_get_node_eq_referenceLookup twoSiblings (by decide) none "a".data,
    by decide, by decide⟩

/-- C2: in every tree built by the builder, from every start node and for
every path that `cd_dom_get_node` resolves to a node, following the parent
links of that node back to the start node and joining the names met, from
just below the start node downwards, with `/` gives back the path. -/
theorem cd_dom_get_node_reconstructPath (events : List GMarkupEvent) (priv : CdDomPrivate)
    (hbuilt : g_markup_parse_context_parse cd_dom_init events = some priv)
    (root : Option Nat) (path : GStr) (n : Nat)
    (hget : cd_dom_get_node priv root path = some n) :
    reconstructPath priv root n = some path := by
  have hinv := Inv_parse events cd_dom_init priv Inv_init hbuilt
  rw [cd_dom_get_node_eq_loop] at hget
  obtain ⟨cs, w, hn⟩ := get_node_loop_walk priv.heap hinv.linked (root.getD priv.root)
    (g_strsplit path '/') [] _ n Walk.nil hget
  simp only [List.nil_append] at w
  unfold reconstructPath
  rw [parentChain_walk w priv.heap.length [] w.length_le]
  simp [hn, intercalate_g_strsplit]

/-- C2, witness: in the document of `<html><body>hi</body></html>` the path
`html/body` resolves to the `body` node and is rebuilt from its parent
links. -/
theorem cd_dom_get_node_reconstructPath_witness :
    g_markup_parse_context_parse cd_dom_init htmlBodyEvents = some htmlBody ∧
    cd_dom_get_node htmlBody none "html/body".data = some 2 ∧
    reconstructPath htmlBody none 2 = some "html/body".data :=
  ⟨by decide, by decide,
    cd_dom_get_node_reconstructPath htmlBodyEvents htmlBody (by decide) none
      "html/body".data 2 (by decide)⟩

/-- C3: for every well-nested event sequence applied to a fresh document, in
the document the builder yields the root has no text; the text of every
other node is the concatenation, in event order and untrimmed, of the
character-data events delivered while it was the cursor that are not blank;
and no text is non-empty and blank. The builder yields a document whenever
the character data that is not blank arrives while an element is open, which
is how the GLib tokenizer delivers it. -/
theorem cd_dom_text_cb_accumulates (events : List GMarkupEvent)
    (hw : wellNested 0 events = true) :
    (textInsideElements 0 events = true →
      ∃ priv : CdDomPrivate, g_markup_parse_context_parse cd_dom_init events = some priv) ∧
    ∀ priv : CdDomPrivate, g_markup_parse_context_parse cd_dom_init events = some priv →
      cd_dom_get_node_data priv.heap priv.root = none ∧
      (∀ node : Nat, node ≠ priv.root → node < priv.heap.length →
        cd_dom_get_node_data priv.heap node = some (deliveredTo node cd_dom_init events)) ∧
      (∀ (node : Nat) (text : GStr), cd_dom_get_node_data priv.heap node = some text →
        text ≠ [] → hasNonBlank text = true) := by
  constructor
  · intro ht
    obtain ⟨priv, _, hp, _⟩ := parse_total events cd_dom_init Inv_init [] rfl trivial hw ht
    exact ⟨priv, hp⟩
  intro priv hp
  have hinv := Inv_parse events cd_dom_init priv Inv_init hp
  have htext : ∀ node : Nat, textOf priv.heap node = deliveredTo node cd_dom_init events := by
    intro node
    rw [textOf_parse events cd_dom_init priv Inv_init hp node]
    have : textOf cd_dom_init.heap node = [] := by
      cases node with
      | zero => rfl
      | succ k => simp [textOf, cd_dom_get_node_data, cd_dom_init, g_node_new]
    rw [this, List.nil_append]
  have hnode : ∀ node : Nat, node ≠ priv.root → node < priv.heap.length →
      cd_dom_get_node_data priv.heap node = some (deliveredTo node cd_dom_init events) := by
    intro node h0 hlt
    rw [get_node_data_eq_textOf priv hinv node h0 hlt, htext]
  refine ⟨get_node_data_root priv hinv, hnode, ?_⟩
  intro node text hd hne
  have h1 : textOf priv.heap node = text := by simp [textOf, hd]
  rw [htext] at h1
  rw [← h1] at hne ⊢
  exact deliveredTo_nonBlank node events cd_dom_init hne

/-- C3, witness: `<html> <body>hi</body>`, newline, `</html>`, with `hi`
delivered in two events. -/
theorem cd_dom_text_cb_accumulates_witness :
    wellNested 0 htmlBodyEvents = true ∧ textInsideElements 0 htmlBodyEvents = true ∧
    deliveredTo 2 cd_dom_init htmlBodyEvents = "hi".data ∧
    deliveredTo 1 cd_dom_init htmlBodyEvents = [] ∧
    ∃ priv : CdDomPrivate,
      g_markup_parse_context_parse cd_dom_init htmlBodyEvents = some priv ∧
      cd_dom_get_node_data priv.heap priv.root = none ∧
      (∀ node : Nat, node ≠ priv.root → node < priv.heap.length →
        cd_dom_get_node_data priv.heap node
          = some (deliveredTo node cd_dom_init htmlBodyEvents)) ∧
      (∀ (node : Nat) (text : GStr), cd_dom_get_node_data priv.heap node = some text →
        text ≠ [] → hasNonBlank text = true) :=
  ⟨by decide, by decide, by decide, by decide,
    let ⟨priv, hp⟩ := (cd_dom_text_cb_accumulates htmlBodyEvents (by decide)).1 (by decide)
    ⟨priv, hp, (cd_dom_text_cb_accumulates htmlBodyEvents (by decide)).2 priv hp⟩⟩

/-- C4, as stated, fails: on the fresh document, whose cursor is the root,
the element-end callback does not fail; it returns a state whose cursor is
absent. -/
theorem cd_dom_end_element_cb_fresh :
    cd_dom_init.current = some cd_dom_init.root ∧
    cd_dom_end_element_cb cd_dom_init "a".data
      = some { heap := cd_dom_init.heap, root := cd_dom_init.root, current := none } := by
  decide

/-- C4, amended: when the cursor is the root, which has no parent, the
element-end callback does not fail: it leaves the tree as it is and sets the
cursor to the parent of the root, that is to no node. -/
theorem cd_dom_end_element_cb_at_root (priv : CdDomPrivate) (element_name : GStr) (rn : GNode)
    (hcur : priv.current = some priv.root) (hroot : priv.heap[priv.root]? = some rn)
    (hparent : rn.parent = none) :
    cd_dom_end_element_cb priv element_name = some { priv with current := none } := by
  simp [cd_dom_end_element_cb, hcur, hroot, hparent]

/-- C4, witness: the fresh document. -/
theorem cd_dom_end_element_cb_at_root_witness :
    cd_dom_end_element_cb cd_dom_init "a".data = some { cd_dom_init with current := none } :=
  cd_dom_end_element_cb_at_root cd_dom_init "a".data
    { data := none, parent := none, children := [] } rfl rfl rfl

/-- C5, as stated, fails: for the single event of `<a>`, which leaves an
element open, and a tokenizer that reports no error, the build returns
`TRUE` with the cursor on node 1, not on the root 0. -/
theorem cd_dom_parse_xml_data_open_element :
    (cd_dom_parse_xml_data cd_dom_init [.start_element "a".data [] []] true).map
        (fun r => (r.1, r.2.current, r.2.root))
      = some (true, some 1, 0) := by
  decide

/-- C5, amended: for every well-nested event sequence in which character
data that is not blank arrives only while an element is open, fed to a fresh
document by a tokenizer that reports no error, the build returns success,
whether or not elements are left open, and the cursor at the end equals the
root exactly when every started element has been ended. -/
theorem cd_dom_parse_xml_data_cursor (events : List GMarkupEvent)
    (hw : wellNested 0 events = true) (ht : textInsideElements 0 events = true) :
    ∃ priv : CdDomPrivate,
      cd_dom_parse_xml_data cd_dom_init events true = some (true, priv) ∧
      (priv.current = some priv.root ↔ openDepth 0 events = 0) := by
  obtain ⟨priv, stack, hp, hr, hc, hch, hlen⟩ :=
    parse_total events cd_dom_init Inv_init [] rfl trivial hw ht
  refine ⟨priv, by simp [cd_dom_parse_xml_data, hp], ?_⟩
  simp only [List.length_nil] at hlen
  rw [← hlen, hc]
  cases stack with
  | nil => simp
  | cons c rest =>
    obtain ⟨hpos, _, _⟩ := hch
    have hr0 : priv.root = 0 := hr
    simp only [List.headD_cons, List.length_cons, Option.some.injEq]
    constructor
    · intro h
      omega
    · intro h
      omega

/-- C5, witness: the events of `<a>`, and those of a closed document. -/
theorem cd_dom_parse_xml_data_cursor_witness :
    openDepth 0 [.start_element "a".data [] []] = 1 ∧
    (∃ priv : CdDomPrivate,
      cd_dom_parse_xml_data cd_dom_init [.start_element "a".data [] []] true
        = some (true, priv) ∧
      (priv.current = some priv.root ↔ openDepth 0 [.start_element "a".data [] []] = 0)) ∧
    openDepth 0 htmlBodyEvents = 0 :=
  ⟨by decide,
    cd_dom_parse_xml_data_cursor [.start_element "a".data [] []] (by decide) (by decide),
    by decide⟩

/-- C6: on a node whose text is the canonical decimal representation of an
integer `n`, `cd_dom_get_node_data_as_int` returns `n` when
`-2^31 ≤ n ≤ 2^31 - 1` and `G_MAXINT` otherwise, also beyond the 64-bit
range, where the conversion saturates. -/
theorem cd_dom_get_node_data_as_int_canonical (heap : List GNode) (node : Nat) (n : Int)
    (h : cd_dom_get_node_data heap node = some (canonicalDecimal n)) :
    cd_dom_get_node_data_as_int heap node
      = if -(2 ^ 31) ≤ n ∧ n ≤ 2 ^ 31 - 1 then n else G_MAXINT := by
  obtain ⟨h1, h2, h3⟩ := toDigits_spec n.natAbs
  have hform : canonicalDecimal n
      = [] ++ (if n < 0 then ['-'] else []) ++ Nat.toDigits 10 n.natAbs ++ [] := by
    unfold canonicalDecimal
    split <;> simp
  have hval : literalValue (if n < 0 then ['-'] else []) (Nat.toDigits 10 n.natAbs) = n := by
    unfold literalValue
    rw [h3]
    by_cases hn : n < 0
    · simp only [if_pos hn, if_true]
      omega
    · simp only [if_neg hn]
      rw [if_neg (by simp)]
      omega
  rw [hform] at h
  rw [as_int_literal heap node [] _ _ [] h (by simp)
    (by split; exact Or.inr (Or.inl rfl); exact Or.inl rfl) h1 h2 (by simp), hval]
  simp only [ne_eq, not_true_eq_false, if_false]
  rfl

/-- C6, witness: `128` gives 128, `99999999999` gives the invalid outcome. -/
theorem cd_dom_get_node_data_as_int_canonical_witness :
    canonicalDecimal 128 = "128".data ∧
    canonicalDecimal 99999999999 = "99999999999".data ∧
    cd_dom_get_node_data_as_int [⟨some ⟨"n".data, "128".data, []⟩, none, []⟩] 0
      = (if -(2 ^ 31) ≤ (128 : Int) ∧ (128 : Int) ≤ 2 ^ 31 - 1 then 128 else G_MAXINT) ∧
    cd_dom_get_node_data_as_int [⟨some ⟨"n".data, "128".data, []⟩, none, []⟩] 0 = 128 ∧
    cd_dom_get_node_data_as_int [⟨some ⟨"n".data, "99999999999".data, []⟩, none, []⟩] 0
      = G_MAXINT :=
  ⟨by decide, by decide,
    cd_dom_get_node_data_as_int_canonical
      [⟨some ⟨"n".data, "128".data, []⟩, none, []⟩] 0 128 (by decide),
    by decide, by decide⟩

/-- C7: on a node whose text is an integer token (optional leading
whitespace, optional sign, one or more decimal digits) followed by a
non-empty tail that does not start with a digit,
`cd_dom_get_node_data_as_int` returns the invalid outcome `G_MAXINT`. -/
theorem cd_dom_get_node_data_as_int_trailing (heap : List GNode) (node : Nat)
    (ws sg ds tail : List Char)
    (h : cd_dom_get_node_data heap node = some (ws ++ sg ++ ds ++ tail))
    (hws : ∀ c ∈ ws, ISSPACE c = true) (hsg : sg = [] ∨ sg = ['-'] ∨ sg = ['+'])
    (hne : ds ≠ []) (hd : ∀ c ∈ ds, c.isDigit = true)
    (htail : tail ≠ []) (hhead : ∀ c : Char, tail.head? = some c → c.isDigit = false) :
    cd_dom_get_node_data_as_int heap node = G_MAXINT := by
  rw [as_int_literal heap node ws sg ds tail h hws hsg hne hd hhead, if_pos htail]

/-- C7, witness: the text ` -12abc`; and `12abc`, `12 ` and `1.5` give the
invalid outcome. -/
theorem cd_dom_get_node_data_as_int_trailing_witness :
    cd_dom_get_node_data_as_int [⟨some ⟨"n".data, " -12abc".data, []⟩, none, []⟩] 0
      = G_MAXINT ∧
    cd_dom_get_node_data_as_int [⟨some ⟨"n".data, "12abc".data, []⟩, none, []⟩] 0
      = G_MAXINT ∧
    cd_dom_get_node_data_as_int [⟨some ⟨"n".data, "12 ".data, []⟩, none, []⟩] 0
      = G_MAXINT ∧
    cd_dom_get_node_data_as_int [⟨some ⟨"n".data, "1.5".data, []⟩, none, []⟩] 0
      = G_MAXINT :=
  ⟨cd_dom_get_node_data_as_int_trailing
      [⟨some ⟨"n".data, " -12abc".data, []⟩, none, []⟩] 0
      " ".data "-".data "12".data "abc".data (by decide) (by decide) (by decide)
      (by decide) (by decide) (by decide) (by decide),
    by decide, by decide, by decide⟩

/-- C8: the code at the failing input.  The node `a` of `<a></a>` received
no character data; its text is empty, contains no digit, and
`cd_dom_get_node_data_as_int` returns 0, not `G_MAXINT`. -/
theorem cd_dom_get_node_data_as_int_empty :
    (g_markup_parse_context_parse cd_dom_init
        [.start_element "a".data [] [], .end_element "a".data]).map
      (fun priv => (cd_dom_get_node_data priv.heap 1, cd_dom_get_node_data_as_int priv.heap 1))
      = some (some [], 0) ∧ (0 : Int) ≠ G_MAXINT := by
  decide

/-- C9, as stated, fails: the text `2147483647` is an integer literal within
the 32-bit signed range, and the result is `G_MAXINT`, the value returned
for an error. -/
theorem cd_dom_get_node_data_as_int_max :
    IsIntLiteral "2147483647".data 2147483647 ∧
    -(2 ^ 31) ≤ (2147483647 : Int) ∧ (2147483647 : Int) ≤ 2 ^ 31 - 1 ∧
    cd_dom_get_node_data_as_int [⟨some ⟨"n".data, "2147483647".data, []⟩, none, []⟩] 0
      = G_MAXINT ∧
    cd_dom_get_node_data_as_int [⟨some ⟨"n".data, "12abc".data, []⟩, none, []⟩] 0
      = G_MAXINT :=
  ⟨⟨[], [], "2147483647".data, rfl, by decide, Or.inl rfl, by decide, by decide, by decide⟩,
    by decide, by decide, by decide, by decide⟩

/-- C9, amended: on a node whose text is not empty,
`cd_dom_get_node_data_as_int` returns `G_MAXINT` if and only if the text is
not an integer literal (optional whitespace, optional sign, digits, nothing
after) of a value from `-2^31` to `2^31 - 2`: the texts that fail to parse
strictly within the 32-bit range, and those that denote `2147483647`
itself. -/
theorem cd_dom_get_node_data_as_int_invalid_iff (heap : List GNode) (node : Nat) (text : GStr)
    (h : cd_dom_get_node_data heap node = some text) (hne : text ≠ []) :
    cd_dom_get_node_data_as_int heap node = G_MAXINT ↔
      ¬ ∃ v : Int, IsIntLiteral text v ∧ -(2 ^ 31) ≤ v ∧ v < 2 ^ 31 - 1 := by
  have hB : G_MAXINT = 2147483647 := by decide
  have hC : G_MININT = -2147483648 := by decide
  constructor
  · rintro hres ⟨v, ⟨ws, sg, ds, ht, hws, hsg, hds, hd, hv⟩, hlo, hhi⟩
    have ht1 : text = ws ++ sg ++ ds ++ [] := by simp [ht]
    rw [ht1] at h
    rw [as_int_literal heap node ws sg ds [] h hws hsg hds hd (by simp), ← hv] at hres
    simp only [ne_eq, not_true_eq_false, if_false] at hres
    rw [hB, hC] at hres
    rw [if_pos (by constructor <;> omega)] at hres
    omega
  · intro hno
    by_contra hres
    apply hno
    rcases g_parse_long_long_cases text with ⟨b, hb⟩ | ⟨ws, sg, ds, rest, ht, hws, hsg, hds, hd, hr⟩
    · rw [as_int_noconv heap node text b h hb, if_pos hne] at hres
      exact absurd rfl hres
    · rw [ht] at h
      rw [as_int_literal heap node ws sg ds rest h hws hsg hds hd hr] at hres
      by_cases hrest : rest ≠ []
      · rw [if_pos hrest] at hres
        exact absurd rfl hres
      · rw [if_neg hrest] at hres
        have hrest1 : rest = [] := by simpa using hrest
        by_cases hin : G_MININT ≤ literalValue sg ds ∧ literalValue sg ds ≤ G_MAXINT
        · rw [if_pos hin] at hres
          rw [hB, hC] at hin
          rw [hB] at hres
          refine ⟨literalValue sg ds, ⟨ws, sg, ds, by rw [ht, hrest1]; simp, hws, hsg, hds, hd, rfl⟩,
            by omega, by omega⟩
        · rw [if_neg hin] at hres
          exact absurd rfl hres

/-- C9, witness: the text `-7`. -/
theorem cd_dom_get_node_data_as_int_invalid_iff_witness :
    cd_dom_get_node_data_as_int [⟨some ⟨"n".data, "-7".data, []⟩, none, []⟩] 0 = G_MAXINT ↔
      ¬ ∃ v : Int, IsIntLiteral "-7".data v ∧ -(2 ^ 31) ≤ v ∧ v < 2 ^ 31 - 1 :=
  cd_dom_get_node_data_as_int_invalid_iff
    [⟨some ⟨"n".data, "-7".data, []⟩, none, []⟩] 0 "-7".data (by decide) (by decide)

/-- C10: on a node with a text, the scan of `g_ascii_strtod` ends inside the
text, and `cd_dom_get_node_data_as_double` returns the invalid outcome
`G_MAXDOUBLE` whenever the scan stops before the end of the text, and the
converted value whenever the scan consumes the whole text. -/
theorem cd_dom_get_node_data_as_double_strict (heap : List GNode) (node : Nat) (text : GStr)
    (h : cd_dom_get_node_data heap node = some text) :
    (g_ascii_strtod text).2 <:+ text ∧
    ((g_ascii_strtod text).2 ≠ [] →
      cd_dom_get_node_data_as_double heap node = G_MAXDOUBLE) ∧
    ((g_ascii_strtod text).2 = [] →
      cd_dom_get_node_data_as_double heap node = (g_ascii_strtod text).1) := by
  refine ⟨g_ascii_strtod_suffix text, ?_, ?_⟩
  · intro hrest
    unfold cd_dom_get_node_data_as_double
    rw [h]
    simp only [if_pos hrest]
  · intro hrest
    unfold cd_dom_get_node_data_as_double
    rw [h]
    simp only [hrest, ne_eq, not_true_eq_false, if_false]

/-- C10, witness: the scan of `12.5abc` stops at `abc` and the result is the
invalid outcome; the scan of `-3.25` consumes the text and the result is the
conversion of -3.25. -/
theorem cd_dom_get_node_data_as_double_strict_witness :
    g_ascii_strtod "12.5abc".data = (.decimal false 125 (-1), "abc".data) ∧
    cd_dom_get_node_data_as_double [⟨some ⟨"n".data, "12.5abc".data, []⟩, none, []⟩] 0
      = G_MAXDOUBLE ∧
    g_ascii_strtod "-3.25".data = (.decimal true 325 (-2), []) ∧
    cd_dom_get_node_data_as_double [⟨some ⟨"n".data, "-3.25".data, []⟩, none, []⟩] 0
      = .decimal true 325 (-2) ∧
    GDouble.exact (.decimal true 325 (-2)) = some (-3.25) :=
  ⟨by decide,
    (cd_dom_get_node_data_as_double_strict
      [⟨some ⟨"n".data, "12.5abc".data, []⟩, none, []⟩] 0 "12.5abc".data (by decide)).2.1
      (by decide),
    by decide,
    (cd_dom_get_node_data_as_double_strict
      [⟨some ⟨"n".data, "-3.25".data, []⟩, none, []⟩] 0 "-3.25".data (by decide)).2.2
      (by decide),
    by norm_num [GDouble.exact]⟩

/-- C11: for every node, each color extraction fails whenever one of its three
required direct children is absent, whatever the other children contain:
`cd_dom_get_node_lab` needs children named `L`, `a`, `b`,
`cd_dom_get_node_rgb` needs `R`, `G`, `B`, and `cd_dom_get_node_yxy` needs
`Y`, `x`, `y`, the names being compared exactly. -/
theorem cd_dom_get_node_color_missing_child (heap : List GNode) (node : Nat) :
    (∀ lab : CdColorLab,
      childAbsent heap node "L".data ∨ childAbsent heap node "a".data ∨
        childAbsent heap node "b".data →
      (cd_dom_get_node_lab heap node lab).1 = false) ∧
    (∀ rgb : CdColorRGB,
      childAbsent heap node "R".data ∨ childAbsent heap node "G".data ∨
        childAbsent heap node "B".data →
      (cd_dom_get_node_rgb heap node rgb).1 = false) ∧
    (∀ yxy : CdColorYxy,
      childAbsent heap node "Y".data ∨ childAbsent heap node "x".data ∨
        childAbsent heap node "y".data →
      (cd_dom_get_node_yxy heap node yxy).1 = false) := by
  refine ⟨fun lab h => ?_, fun rgb h => ?_, fun yxy h => ?_⟩
  · simp only [cd_dom_get_node_lab, values_absent heap node _ _ _ _ h]
  · simp only [cd_dom_get_node_rgb, values_absent heap node _ _ _ _ h]
  · simp only [cd_dom_get_node_yxy, values_absent heap node _ _ _ _ h]

/-- C11, witness: `<color><L>50</L><a>10</a><B>1</B></color>` has no child
`b` (the child `B` does not count), and the Lab extraction fails. -/
theorem cd_dom_get_node_color_missing_child_witness :
    g_markup_parse_context_parse cd_dom_init labNoBEvents = some labNoBDoc ∧
    childAbsent labNoBDoc.heap 1 "b".data ∧
    (cd_dom_get_node_lab labNoBDoc.heap 1 ⟨.nan, .nan, .nan⟩).1 = false :=
  ⟨by decide,
    by
      intro c hc
      have : c = 2 ∨ c = 3 ∨ c = 4 := by simpa [childrenOf, labNoBDoc] using hc
      rcases this with h | h | h <;> subst h <;> decide,
    (cd_dom_get_node_color_missing_child labNoBDoc.heap 1).1 ⟨.nan, .nan, .nan⟩
      (Or.inr (Or.inr (by
        intro c hc
        have : c = 2 ∨ c = 3 ∨ c = 4 := by simpa [childrenOf, labNoBDoc] using hc
        rcases this with h | h | h <;> subst h <;> decide)))⟩

/-- C12: for every node that has all three required children, a color
extraction (Lab, RGB or Yxy) succeeds if and only if the text of the first
child of each required name is wholly consumed by the floating-point parse,
and on success the fields, in the order `L`, `a`, `b` (`R`, `G`, `B`; `Y`,
`x`, `y`), hold the values parsed from the first child named for each
field. -/
theorem cd_dom_get_node_color_present (heap : List GNode)
    (hwf : childrenHaveData heap = true) (node : Nat) :
    (∀ (lab : CdColorLab) (v0 v1 v2 : Nat),
      firstChildNamed heap node "L".data = some v0 →
      firstChildNamed heap node "a".data = some v1 →
      firstChildNamed heap node "b".data = some v2 →
      ((cd_dom_get_node_lab heap node lab).1 = true ↔
        whollyParsed heap v0 ∧ whollyParsed heap v1 ∧ whollyParsed heap v2) ∧
      ((cd_dom_get_node_lab heap node lab).1 = true →
        (cd_dom_get_node_lab heap node lab).2
          = ⟨parsedValue heap v0, parsedValue heap v1, parsedValue heap v2⟩)) ∧
    (∀ (rgb : CdColorRGB) (v0 v1 v2 : Nat),
      firstChildNamed heap node "R".data = some v0 →
      firstChildNamed heap node "G".data = some v1 →
      firstChildNamed heap node "B".data = some v2 →
      ((cd_dom_get_node_rgb heap node rgb).1 = true ↔
        whollyParsed heap v0 ∧ whollyParsed heap v1 ∧ whollyParsed heap v2) ∧
      ((cd_dom_get_node_rgb heap node rgb).1 = true →
        (cd_dom_get_node_rgb heap node rgb).2
          = ⟨parsedValue heap v0, parsedValue heap v1, parsedValue heap v2⟩)) ∧
    (∀ (yxy : CdColorYxy) (v0 v1 v2 : Nat),
      firstChildNamed heap node "Y".data = some v0 →
      firstChildNamed heap node "x".data = some v1 →
      firstChildNamed heap node "y".data = some v2 →
      ((cd_dom_get_node_yxy heap node yxy).1 = true ↔
        whollyParsed heap v0 ∧ whollyParsed heap v1 ∧ whollyParsed heap v2) ∧
      ((cd_dom_get_node_yxy heap node yxy).1 = true →
        (cd_dom_get_node_yxy heap node yxy).2
          = ⟨parsedValue heap v0, parsedValue heap v1, parsedValue heap v2⟩)) := by
  refine ⟨fun lab v0 v1 v2 h0 h1 h2 => ?_, fun rgb v0 v1 v2 h0 h1 h2 => ?_,
    fun yxy v0 v1 v2 h0 h1 h2 => ?_⟩
  · have := values_present heap hwf node _ _ _ (lab.L, lab.a, lab.b) v0 v1 v2 h0 h1 h2
    refine ⟨this.1, fun hs => ?_⟩
    have h3 := this.2 hs
    simp only [cd_dom_get_node_lab, h3]
  · have := values_present heap hwf node _ _ _ (rgb.R, rgb.G, rgb.B) v0 v1 v2 h0 h1 h2
    refine ⟨this.1, fun hs => ?_⟩
    have h3 := this.2 hs
    simp only [cd_dom_get_node_rgb, h3]
  · have := values_present heap hwf node _ _ _ (yxy.Y, yxy.x, yxy.y) v0 v1 v2 h0 h1 h2
    refine ⟨this.1, fun hs => ?_⟩
    have h3 := this.2 hs
    simp only [cd_dom_get_node_yxy, h3]

/-- C12, witness: `<color><L>50</L><a>10</a><b>-5</b></color>` yields
`L` = 50, `a` = 10, `b` = -5. -/
theorem cd_dom_get_node_color_present_witness :
    g_markup_parse_context_parse cd_dom_init labEvents = some labDoc ∧
    cd_dom_get_node_lab labDoc.heap 1 ⟨.nan, .nan, .nan⟩
      = (true, ⟨.decimal false 50 0, .decimal false 10 0, .decimal true 5 0⟩) ∧
    ((cd_dom_get_node_lab labDoc.heap 1 ⟨.nan, .nan, .nan⟩).1 = true ↔
      whollyParsed labDoc.heap 2 ∧ whollyParsed labDoc.heap 3 ∧ whollyParsed labDoc.heap 4) ∧
    parsedValue labDoc.heap 4 = .decimal true 5 0 ∧
    GDouble.exact (.decimal true 5 0) = some (-5) :=
  ⟨by decide, by decide,
    ((cd_dom_get_node_color_present labDoc.heap (by decide) 1).1 ⟨.nan, .nan, .nan⟩ 2 3 4
      (by decide) (by decide) (by decide)).1,
    by decide, by norm_num [GDouble.exact]⟩

/-- C13, as stated, fails: in
`<p><name>color</name><name>colour</name><name xml:lang="">color</name></p>`
the third child carries an `xml:lang` attribute that is empty and its text
equals the default; the code skips it and returns `colour` for the empty
locale, the reference fold inserts it and gives `color`. -/
theorem cd_dom_get_node_localized_empty_lang :
    (g_markup_parse_context_parse cd_dom_init emptyLangEvents).map
        (fun priv => cd_dom_get_node_localized priv.heap 1 "name".data)
      = some (some [([], "colour".data)]) ∧
    (g_markup_parse_context_parse cd_dom_init emptyLangEvents).map
        (fun priv => localizedReference priv.heap 1 "name".data)
      = some (some [([], "color".data)]) := by
  decide

/-- C13, amended: on every tree whose children are element nodes,
`cd_dom_get_node_localized` returns not-found exactly when no direct child
is named `key`, and otherwise the mapping of the fold in which a child named
`key` is skipped if and only if it carries an `xml:lang` attribute, empty or
not, and its text equals the text of the first child named `key`. -/
theorem cd_dom_get_node_localized_eq_fold (heap : List GNode)
    (hwf : childrenHaveData heap = true) (node : Nat) (key : GStr) :
    (cd_dom_get_node_localized heap node key = none ↔ childAbsent heap node key) ∧
    cd_dom_get_node_localized heap node key = localizedPresent heap node key := by
  refine ⟨?_, localized_eq_present heap hwf node key⟩
  rw [localized_eq_present heap hwf node key, ← firstChildNamed_none_iff]
  unfold localizedPresent localizedFold
  cases firstChildNamed heap node key <;> simp

/-- C13, witness: the node `p` of
`<p><name>color</name><name xml:lang="en_GB">colour</name></p>`. -/
theorem cd_dom_get_node_localized_eq_fold_witness :
    (g_markup_parse_context_parse cd_dom_init unlocalizedFirstEvents).map
        (fun priv => (childrenHaveData priv.heap,
          localizedPresent priv.heap 1 "name".data))
      = some (true, some [([], "color".data), ("en_GB".data, "colour".data)]) ∧
    ((cd_dom_get_node_localized twoSiblings.heap 0 "a".data = none ↔
        childAbsent twoSiblings.heap 0 "a".data) ∧
      cd_dom_get_node_localized twoSiblings.heap 0 "a".data
        = localizedPresent twoSiblings.heap 0 "a".data) :=
  ⟨by decide, cd_dom_get_node_localized_eq_fold twoSiblings.heap (by decide) 0 "a".data⟩

/-- C14: the code at the failing input.  For
`<p><name xml:lang="en_GB">colour</name><name>color</name></p>` and the key
`name` the mapping returned has the single entry of the empty locale,
`color`, and none for `en_GB`; with the two children in the other order it
has both entries. -/
theorem cd_dom_get_node_localized_first_localized :
    (g_markup_parse_context_parse cd_dom_init localizedFirstEvents).map
        (fun priv => cd_dom_get_node_localized priv.heap 1 "name".data)
      = some (some [([], "color".data)]) ∧
    (g_markup_parse_context_parse cd_dom_init unlocalizedFirstEvents).map
        (fun priv => cd_dom_get_node_localized priv.heap 1 "name".data)
      = some (some [([], "color".data), ("en_GB".data, "colour".data)]) := by
  decide

/-- C16: for every document state with a valid cursor `c` and every
element-start event, the handler appends exactly one new node, as the last
child of `c`, leaves every other existing node as it is and `c` too apart
from that child, sets the cursor to the new node, and the new node has the
given name, an empty text, no children, and attributes for which
`cd_dom_get_node_attribute` returns the value paired with the last
occurrence of the key in the attribute list of the event, and not-found for
a key that does not occur. -/
theorem cd_dom_start_element_cb_appends (priv : CdDomPrivate) (c : Nat) (pn : GNode)
    (element_name : GStr) (attribute_names attribute_values : List GStr)
    (hc : priv.current = some c) (hn : priv.heap[c]? = some pn) :
    ∃ priv1 : CdDomPrivate,
      cd_dom_start_element_cb priv element_name attribute_names attribute_values
        = some priv1 ∧
      priv1.heap.length = priv.heap.length + 1 ∧
      priv1.root = priv.root ∧
      priv1.current = some priv.heap.length ∧
      priv1.heap[c]? = some { pn with children := pn.children ++ [priv.heap.length] } ∧
      (∀ i : Nat, i ≠ c → i < priv.heap.length → priv1.heap[i]? = priv.heap[i]?) ∧
      (∃ nn : GNode, priv1.heap[priv.heap.length]? = some nn ∧ nn.parent = some c ∧
        nn.children = []) ∧
      cd_dom_get_node_name priv1.heap priv.heap.length = some element_name ∧
      cd_dom_get_node_data priv1.heap priv.heap.length = some [] ∧
      (∀ key : GStr, cd_dom_get_node_attribute priv1.heap priv.heap.length key
        = lastValue attribute_names attribute_values key) := by
  have hlt := getElem?_lt hn
  have key := start_heap_getElem? priv.heap
    { data := some ⟨element_name, [],
        cd_dom_start_element_cb.attrs attribute_names attribute_values []⟩,
      parent := none, children := [] } pn
    { data := some ⟨element_name, [],
        cd_dom_start_element_cb.attrs attribute_names attribute_values []⟩,
      parent := some c, children := [] } c hn
  have hnew := key priv.heap.length
  rw [if_neg (by omega), if_pos rfl] at hnew
  refine ⟨_, start_element_some priv element_name attribute_names attribute_values c pn hc hn,
    by simp, rfl, rfl, ?_, ?_, ⟨_, hnew, rfl, rfl⟩, ?_, ?_, ?_⟩
  · show (_ : List GNode)[c]? = _
    rw [key, if_pos rfl]
  · intro i hic hil
    show (_ : List GNode)[i]? = _
    rw [key, if_neg hic, if_neg (by omega)]
  · show cd_dom_get_node_name _ _ = _
    unfold cd_dom_get_node_name
    rw [hnew]
  · show cd_dom_get_node_data _ _ = _
    unfold cd_dom_get_node_data
    rw [hnew]
  · intro k
    show cd_dom_get_node_attribute _ _ _ = _
    unfold cd_dom_get_node_attribute
    rw [hnew]
    simp only [lookup_attrs, g_hash_table_lookup]
    cases lastValue attribute_names attribute_values k <;> rfl

/-- C16, witness: `<p a="1" b="2" a="3">` on the fresh document; the
attribute `a` of the new node is `3`. -/
theorem cd_dom_start_element_cb_appends_witness :
    lastValue ["a".data, "b".data, "a".data] ["1".data, "2".data, "3".data] "a".data
      = some "3".data ∧
    ∃ priv1 : CdDomPrivate,
      cd_dom_start_element_cb cd_dom_init "p".data ["a".data, "b".data, "a".data]
        ["1".data, "2".data, "3".data] = some priv1 ∧
      priv1.heap.length = cd_dom_init.heap.length + 1 ∧
      priv1.root = cd_dom_init.root ∧
      priv1.current = some cd_dom_init.heap.length ∧
      priv1.heap[0]? = some (GNode.mk none none ([] ++ [cd_dom_init.heap.length])) ∧
      (∀ i : Nat, i ≠ 0 → i < cd_dom_init.heap.length →
        priv1.heap[i]? = cd_dom_init.heap[i]?) ∧
      (∃ nn : GNode, priv1.heap[cd_dom_init.heap.length]? = some nn ∧ nn.parent = some 0 ∧
        nn.children = []) ∧
      cd_dom_get_node_name priv1.heap cd_dom_init.heap.length = some "p".data ∧
      cd_dom_get_node_data priv1.heap cd_dom_init.heap.length = some [] ∧
      (∀ key : GStr, cd_dom_get_node_attribute priv1.heap cd_dom_init.heap.length key
        = lastValue ["a".data, "b".data, "a".data] ["1".data, "2".data, "3".data] key) :=
  ⟨by decide,
    cd_dom_start_element_cb_appends cd_dom_init 0
      { data := none, parent := none, children := [] } "p".data
      ["a".data, "b".data, "a".data] ["1".data, "2".data, "3".data] rfl rfl⟩

/-- C20: for every tree and start node, the empty path has no segment and
`cd_dom_get_node` returns the start node itself, the root when none is
given; and in every tree in which all node names are non-empty, a path with
an empty segment, that is one that starts with `/`, ends with `/` or
contains `//`, is not found. -/
theorem cd_dom_get_node_edge_paths (priv : CdDomPrivate) (root : Option Nat) :
    g_strsplit [] '/' = [] ∧
    cd_dom_get_node priv root [] = some (root.getD priv.root) ∧
    (namesNonEmpty priv.heap → ∀ path : GStr, hasEmptySegment path →
      cd_dom_get_node priv root path = none) := by
  refine ⟨rfl, by cases root <;> rfl, fun hnames path hp => ?_⟩
  rw [cd_dom_get_node_eq_loop]
  exact get_node_loop_empty_segment priv.heap hnames _ _ (g_strsplit_empty_segment path hp)

/-- C20, witness: in the document of `<html><body>hi</body></html>` the
empty path gives the root, and `/html`, `html/` and `html//body` are not
found. -/
theorem cd_dom_get_node_edge_paths_witness :
    cd_dom_get_node htmlBody none [] = some 0 ∧
    cd_dom_get_node htmlBody (some 1) [] = some 1 ∧
    cd_dom_get_node htmlBody none "html".data = some 1 ∧
    cd_dom_get_node htmlBody none "/html".data = none ∧
    cd_dom_get_node htmlBody none "html/".data = none ∧
    cd_dom_get_node htmlBody none "html//body".data = none :=
  have hnames : namesNonEmpty htmlBody.heap := by
    intro node
    match node with
    | 0 => decide
    | 1 => decide
    | 2 => decide
    | (k + 3) => simp [nameOf, htmlBody]
  ⟨(cd_dom_get_node_edge_paths htmlBody none).2.1,
    (cd_dom_get_node_edge_paths htmlBody (some 1)).2.1,
    by decide,
    (cd_dom_get_node_edge_paths htmlBody none).2.2 hnames "/html".data (Or.inl rfl),
    (cd_dom_get_node_edge_paths htmlBody none).2.2 hnames "html/".data (Or.inr (Or.inl rfl)),
    (cd_dom_get_node_edge_paths htmlBody none).2.2 hnames "html//body".data
      (Or.inr (Or.inr ⟨"html".data, "body".data, rfl⟩))⟩

/-- C17: for every well-nested event sequence applied to a fresh document
and every prefix of it, in the document state the prefix is processed to the
`k`-th element-start event of the prefix has made node `k`, which carries
the name of that event, and the cursor is the node made by the innermost
element-start event not yet closed, or the root when every started element
has been closed; after a balanced prefix the cursor is the root. The prefix
is processed to a state whenever the character data that is not blank
arrives while an element is open, which is how the GLib tokenizer delivers
it. -/
theorem cd_dom_cursor_innermost_open (events pre rest : List GMarkupEvent)
    (hw : wellNested 0 events = true) (hsplit : events = pre ++ rest) :
    (textInsideElements 0 events = true →
      ∃ priv : CdDomPrivate, g_markup_parse_context_parse cd_dom_init pre = some priv) ∧
    ∀ priv : CdDomPrivate, g_markup_parse_context_parse cd_dom_init pre = some priv →
      priv.heap.length = countStarts pre + 1 ∧
      (∀ k : Nat, k < countStarts pre →
        cd_dom_get_node_name priv.heap (k + 1) = (startNames pre)[k]?) ∧
      (∀ k ∈ openStarts [] 0 pre, 0 < k ∧ k ≤ countStarts pre) ∧
      (openStarts [] 0 pre).length = openDepth 0 pre ∧
      priv.current = some ((openStarts [] 0 pre).headD priv.root) ∧
      (openDepth 0 pre = 0 → priv.current = some priv.root) := by
  subst hsplit
  have hw1 := wellNested_append pre rest 0 hw
  constructor
  · intro ht
    have ht1 := textInsideElements_append pre rest 0 ht
    obtain ⟨priv, _, hp, _⟩ := parse_total pre cd_dom_init Inv_init [] rfl trivial hw1 ht1
    exact ⟨priv, hp⟩
  intro priv hp
  obtain ⟨hr, hlen, hdepth⟩ := parse_reach pre cd_dom_init priv [] 0 Reach.init rfl hw1 hp
  obtain ⟨hinv, hcur, hch⟩ := hr.basic
  replace hdepth : (openStarts [] 0 pre).length = openDepth 0 pre := hdepth
  have hlen1 : priv.heap.length = countStarts pre + 1 := by
    rw [hlen]
    omega
  refine ⟨hlen1, ?_, ?_, hdepth, hcur, ?_⟩
  · intro k _
    rw [names_parse pre cd_dom_init priv Inv_init hp (k + 1)]
    have h1 : cd_dom_init.heap.length = 1 := rfl
    rw [h1, if_neg (by omega)]
    simp
  · intro k hk
    have hall : ∀ (stack : List Nat), OpenChain priv.heap priv.root stack →
        ∀ k ∈ stack, 0 < k ∧ k < priv.heap.length := by
      intro stack
      induction stack with
      | nil => intro _ k hk; cases hk
      | cons c tl ih =>
        intro hc k hk
        obtain ⟨h0, ⟨cn, hcn, _⟩, htl⟩ := hc
        rcases List.mem_cons.1 hk with h | h
        · subst h
          exact ⟨h0, getElem?_lt hcn⟩
        · exact ih htl k h
    have := hall _ hch k hk
    omega
  · intro h0
    rw [hcur]
    rw [h0] at hdepth
    rw [List.length_eq_zero.1 hdepth]
    rfl

/-- C17, witness: after the prefix `<a><b></b><c>` of `<a><b></b><c></c></a>`
the cursor is node 3, made by the third element-start event, that of `c`. -/
theorem cd_dom_cursor_innermost_open_witness :
    openStarts [] 0 openPrefixEvents = [3, 1] ∧ startNames openPrefixEvents
      = ["a".data, "b".data, "c".data] ∧
    ∃ priv : CdDomPrivate,
      g_markup_parse_context_parse cd_dom_init openPrefixEvents = some priv ∧
      priv.heap.length = countStarts openPrefixEvents + 1 ∧
      (∀ k : Nat, k < countStarts openPrefixEvents →
        cd_dom_get_node_name priv.heap (k + 1) = (startNames openPrefixEvents)[k]?) ∧
      (∀ k ∈ openStarts [] 0 openPrefixEvents, 0 < k ∧ k ≤ countStarts openPrefixEvents) ∧
      (openStarts [] 0 openPrefixEvents).length = openDepth 0 openPrefixEvents ∧
      priv.current = some ((openStarts [] 0 openPrefixEvents).headD priv.root) ∧
      (openDepth 0 openPrefixEvents = 0 → priv.current = some priv.root) :=
  ⟨by decide, by decide,
    let ⟨priv, hp⟩ := (cd_dom_cursor_innermost_open
      (openPrefixEvents ++ [.end_element "c".data, .end_element "a".data]) openPrefixEvents
      [.end_element "c".data, .end_element "a".data] (by decide) rfl).1 (by decide)
    ⟨priv, hp, (cd_dom_cursor_innermost_open
      (openPrefixEvents ++ [.end_element "c".data, .end_element "a".data]) openPrefixEvents
      [.end_element "c".data, .end_element "a".data] (by decide) rfl).2 priv hp⟩⟩

/-- C18: the tree predicate holds of the fresh document and each of the
three callbacks preserves it; for every well-nested event sequence applied
to a fresh document it holds of the document state the builder yields, where
the root has no parent and no name, and every other node is reachable from
the root, has exactly one parent, occurs exactly once in the child list of
that parent and in no other child list, and is led to the root by its parent
links within as many steps as there are nodes. The builder yields a state
whenever the character data that is not blank arrives while an element is
open, which is how the GLib tokenizer delivers it. -/
theorem cd_dom_tree_invariant (events : List GMarkupEvent)
    (hw : wellNested 0 events = true) :
    IsTree cd_dom_init ∧
    (∀ (priv priv1 : CdDomPrivate) (name : GStr) (ks vs : List GStr), IsTree priv →
      cd_dom_start_element_cb priv name ks vs = some priv1 → IsTree priv1) ∧
    (∀ (priv priv1 : CdDomPrivate) (name : GStr), IsTree priv →
      cd_dom_end_element_cb priv name = some priv1 → IsTree priv1) ∧
    (∀ (priv priv1 : CdDomPrivate) (text : GStr), IsTree priv →
      cd_dom_text_cb priv text = some priv1 → IsTree priv1) ∧
    (textInsideElements 0 events = true →
      ∃ priv : CdDomPrivate, g_markup_parse_context_parse cd_dom_init events = some priv) ∧
    ∀ priv : CdDomPrivate, g_markup_parse_context_parse cd_dom_init events = some priv →
      IsTree priv ∧
      (∃ rn : GNode, priv.heap[priv.root]? = some rn ∧ rn.parent = none) ∧
      cd_dom_get_node_name priv.heap priv.root = none ∧
      ∀ n : Nat, n < priv.heap.length → n ≠ priv.root →
        Descends priv.heap priv.root n ∧
        (∃ (cn pn : GNode) (p : Nat), priv.heap[n]? = some cn ∧ cn.parent = some p ∧
          priv.heap[p]? = some pn ∧ pn.children.count n = 1 ∧
          ∀ (q : Nat) (qn : GNode), priv.heap[q]? = some qn → n ∈ qn.children → q = p) ∧
        (parentChain priv.heap priv.root priv.heap.length n []).isSome = true := by
  refine ⟨IsTree_init, fun priv priv1 name ks vs h hs => IsTree_start priv priv1 h name ks vs hs,
    fun priv priv1 name h hs => IsTree_end priv priv1 h name hs,
    fun priv priv1 t h hs => IsTree_text priv priv1 h t hs, ?_, ?_⟩
  · intro ht
    obtain ⟨priv, _, hp, _⟩ := parse_total events cd_dom_init Inv_init [] rfl trivial hw ht
    exact ⟨priv, hp⟩
  intro priv hp
  obtain ⟨hr, _, _⟩ := parse_reach events cd_dom_init priv [] 0 Reach.init rfl hw hp
  have htree := hr.isTree
  obtain ⟨rn, hrn, hrd, hrp⟩ := htree.1.rootNode
  refine ⟨htree, ⟨rn, by rw [htree.1.root]; exact hrn, hrp⟩, ?_, ?_⟩
  · simp [cd_dom_get_node_name, htree.1.root, hrn, hrd]
  · intro n hlt hne
    have h0 : 0 < n := by
      have := htree.1.root
      omega
    obtain ⟨hd, cs, hwalk⟩ := tree_walk priv htree hr.has_parent n hlt
    obtain ⟨cn, p, hcn, hpar⟩ := hr.has_parent n h0 hlt
    obtain ⟨⟨pn, hpn, hcount⟩, huniq⟩ := tree_unique_parent priv htree n p cn hcn hpar
    refine ⟨hd, ⟨cn, pn, p, hcn, hpar, hpn, hcount, huniq⟩, ?_⟩
    rw [parentChain_walk hwalk priv.heap.length [] hwalk.length_le]
    rfl

/-- C18, witness: the events of `<html> <body>hi</body>`, newline, `</html>`. -/
theorem cd_dom_tree_invariant_witness :
    wellNested 0 htmlBodyEvents = true ∧ textInsideElements 0 htmlBodyEvents = true ∧
    ∃ priv : CdDomPrivate,
      g_markup_parse_context_parse cd_dom_init htmlBodyEvents = some priv ∧ IsTree priv ∧
      ∀ n : Nat, n < priv.heap.length → n ≠ priv.root → Descends priv.heap priv.root n :=
  ⟨by decide, by decide,
    let ⟨priv, hp⟩ :=
      (cd_dom_tree_invariant htmlBodyEvents (by decide)).2.2.2.2.1 (by decide)
    ⟨priv, hp, ((cd_dom_tree_invariant htmlBodyEvents (by decide)).2.2.2.2.2 priv hp).1,
      fun n hlt hne =>
        (((cd_dom_tree_invariant htmlBodyEvents (by decide)).2.2.2.2.2 priv hp).2.2.2
          n hlt hne).1⟩⟩

/-- C15, as stated, fails: for the events of `<a>x`, newline, `y</a>`, a
well-nested sequence, the tree has one node besides the root and the string
of `cd_dom_to_string` has two lines, the text being printed as it is. -/
theorem cd_dom_to_string_two_lines :
    wellNested 0 twoLineTextEvents = true ∧
    (g_markup_parse_context_parse cd_dom_init twoLineTextEvents).map
        (fun priv => (priv.heap.length - 1, cd_dom_to_string priv,
          lineCount (cd_dom_to_string priv)))
      = some (1, "  <a> [x\ny]\n".data, 2) := by
  decide

/-- C15, amended: for every tree built from a well-nested event sequence, the
string of `cd_dom_to_string` consists of one record for each node other than
the root, in the order in which the nodes were made, and of nothing for the
root; the record of a node at depth `d` below the root is `d + 1` spaces,
its name in angle brackets, its text in square brackets, and a newline. The
number of lines is therefore the number of nodes other than the root plus
the number of newlines inside their names and texts; it is the number of
nodes other than the root when no name and no text contains a newline. -/
theorem cd_dom_to_string_lines (events : List GMarkupEvent) (priv : CdDomPrivate)
    (hw : wellNested 0 events = true)
    (hp : g_markup_parse_context_parse cd_dom_init events = some priv) :
    priv.heap.length = countStarts events + 1 ∧
    (cd_dom_print_node_cb priv.heap priv.root []).2 = [] ∧
    cd_dom_to_string priv = (List.range' 1 (countStarts events)).flatMap
      (fun n => (cd_dom_print_node_cb priv.heap n []).2) ∧
    (∀ n : Nat, 0 < n → n ≤ countStarts events →
      ∃ (cs : List Nat) (name text : GStr),
        parentChain priv.heap priv.root priv.heap.length n [] = some cs ∧
        cd_dom_get_node_name priv.heap n = some name ∧
        cd_dom_get_node_data priv.heap n = some text ∧
        (cd_dom_print_node_cb priv.heap n []).2 = printedLine (cs.length + 1) name text) ∧
    lineCount (cd_dom_to_string priv) = countStarts events +
      ((List.range' 1 (countStarts events)).map (innerNewlines priv.heap)).sum ∧
    ((∀ n : Nat, 0 < n → n ≤ countStarts events →
        '\n' ∉ (nameOf priv.heap n).getD [] ∧ '\n' ∉ textOf priv.heap n) →
      lineCount (cd_dom_to_string priv) = countStarts events) := by
  obtain ⟨hr, hlen, _⟩ := parse_reach events cd_dom_init priv [] 0 Reach.init rfl hw hp
  have hlen1 : priv.heap.length = countStarts events + 1 := by
    rw [hlen]
    omega
  have htree := hr.isTree
  have hinv := htree.1
  obtain ⟨rn, hrn, hrd, hrp⟩ := hinv.rootNode
  have hroot : (cd_dom_print_node_cb priv.heap priv.root []).2 = [] := by
    simp [cd_dom_print_node_cb, hinv.root, hrn, hrd]
  have hwalk : ∀ n : Nat, 0 < n → n ≤ countStarts events →
      ∃ cs : List Nat, Walk priv.heap 0 cs n := by
    intro n _ hle
    have := (tree_walk priv htree hr.has_parent n (by omega)).2
    rw [hinv.root] at this
    exact this
  have hline : ∀ n : Nat, 0 < n → n ≤ countStarts events →
      lineCount (cd_dom_print_node_cb priv.heap n []).2 = innerNewlines priv.heap n + 1 := by
    intro n h0 hle
    obtain ⟨cs, w⟩ := hwalk n h0 hle
    obtain ⟨name, text, _, _, h3, h4, h5⟩ :=
      print_node_cb_line priv hinv cs n w h0 (by omega)
    rw [h5, lineCount_printedLine, innerNewlines, h3, h4]
    rfl
  have hstr : cd_dom_to_string priv = (List.range' 1 (countStarts events)).flatMap
      (fun n => (cd_dom_print_node_cb priv.heap n []).2) := by
    unfold cd_dom_to_string
    rw [traverse_eq priv.heap _ (fun n => (cd_dom_print_node_cb priv.heap n []).2)
      (fun n s => print_node_cb_eq priv.heap n s)]
    rw [hinv.root, hr.trav.pre 0 (by simp) priv.heap.length (by omega), hlen1]
    have : List.range' 0 (countStarts events + 1 - 0)
        = 0 :: List.range' 1 (countStarts events) := by
      simp [List.range'_succ]
    rw [this, List.flatMap_cons]
    have h0 := hroot
    rw [hinv.root] at h0
    rw [h0]
    rfl
  have hcount : lineCount (cd_dom_to_string priv) = countStarts events +
      ((List.range' 1 (countStarts events)).map (innerNewlines priv.heap)).sum := by
    rw [hstr]
    unfold lineCount
    rw [List.count_flatMap]
    have := sum_map_succ (List.range' 1 (countStarts events))
      (List.count '\n' ∘ fun n => (cd_dom_print_node_cb priv.heap n []).2)
      (innerNewlines priv.heap) (by
        intro x hx
        rw [List.mem_range'_1] at hx
        exact hline x (by omega) (by omega))
    rw [this, List.length_range']
  refine ⟨hlen1, hroot, hstr, ?_, hcount, ?_⟩
  · intro n h0 hle
    obtain ⟨cs, w⟩ := hwalk n h0 hle
    obtain ⟨name, text, h1, h2, _, _, h5⟩ :=
      print_node_cb_line priv hinv cs n w h0 (by omega)
    refine ⟨cs, name, text, ?_, h1, h2, h5⟩
    rw [hinv.root, parentChain_walk w priv.heap.length [] w.length_le]
    simp
  · intro hno
    rw [hcount, sum_map_zero]
    · rfl
    · intro x hx
      rw [List.mem_range'_1] at hx
      obtain ⟨h1, h2⟩ := hno x (by omega) (by omega)
      unfold innerNewlines lineCount
      rw [List.count_eq_zero.2 h1, List.count_eq_zero.2 h2]

/-- C15, witness: the events of `<html> <body>hi</body>`, newline, `</html>`
give two records, `html` with two spaces and `body` with three. -/
theorem cd_dom_to_string_lines_witness :
    cd_dom_to_string htmlBody = "  <html> []\n   <body> [hi]\n".data ∧
    countStarts htmlBodyEvents = 2 ∧
    lineCount (cd_dom_to_string htmlBody) = countStarts htmlBodyEvents +
      ((List.range' 1 (countStarts htmlBodyEvents)).map (innerNewlines htmlBody.heap)).sum :=
  ⟨by decide, by decide,
    (cd_dom_to_string_lines htmlBodyEvents htmlBody (by decide) (by decide)).2.2.2.2.1⟩

/-- C19: building is the inverse of flattening. For every tree of named,
attributed nodes in which the text of each node is empty or contains a
character other than space, tab and newline, the fresh document fed the
pre-order event stream of the tree yields a document in which the cursor is
back at the root, the root has exactly one child, and that child with what
hangs below it equals the tree in names, texts, attribute lookups and the
order of the children. -/
theorem cd_dom_build_flatten (t : XmlTree) (ht : textsOk t = true) :
    ∃ priv : CdDomPrivate,
      g_markup_parse_context_parse cd_dom_init (flatten t) = some priv ∧
      priv.current = some priv.root ∧
      childrenOf priv.heap priv.root = [1] ∧
      Rep priv.heap 1 t := by
  obtain ⟨p, hp, hinv, hcur, _, hch, _, hrep⟩ := build_tree t cd_dom_init 0 Inv_init rfl ht
  refine ⟨p, hp, by rw [hinv.root]; exact hcur, ?_, hrep⟩
  rw [hinv.root, hch]
  rfl

/-- C19, witness: the tree of `<a k="v"><b>x</b><c/></a>` and its event
stream. -/
theorem cd_dom_build_flatten_witness :
    textsOk sampleTree = true ∧
    flatten sampleTree =
      [.start_element "a".data ["k".data] ["v".data],
       .start_element "b".data [] [], .text "x".data, .end_element "b".data,
       .start_element "c".data [] [], .end_element "c".data,
       .end_element "a".data] ∧
    ∃ priv : CdDomPrivate,
      g_markup_parse_context_parse cd_dom_init (flatten sampleTree) = some priv ∧
      priv.current = some priv.root ∧
      childrenOf priv.heap priv.root = [1] ∧
      Rep priv.heap 1 sampleTree :=
  ⟨by decide, rfl, cd_dom_build_flatten sampleTree (by decide)⟩

end Colord
